import Mathlib

/-!
# The ELF dependency reader of `app/src/main/jni/patchelf.cpp`

A shallow embedding of `getElfType`, the `ElfFile` constructor, the section
lookup (`findSection`, `findSection2`, `findSection3`, `getSectionName`),
`rdi`, `dlneeds` and `android_dlneeds`, followed by theorems about them.

Conventions of the embedding.

* The file image (`FileContents`, a `std::vector<unsigned char>`) is a list of
  bytes.  A pointer into the image is its byte offset, a natural number.
  Addresses have 64 bits: where the source adds two values read from the file
  to the start of the image (`strTab + rdi(d->d_un.d_val)`), the byte offset
  reached is their sum modulo `2 ^ 64`, see `ptrAdd`.
* Every access to the image goes through `readBytes`, `readByte` or `cstrAt`,
  which yield `Err.outOfBounds` when the accessed range is not inside the
  image.  That outcome stands for the undefined behaviour of the C++ program;
  it is not an exception and is never caught.  A run that ends in a value or
  in a `runtime_error` has therefore read inside the image only.
* A product of two `uint16_t` is formed in `int`; where it exceeds `INT_MAX`
  the 32-bit two's-complement wrap of the target compilers is taken.
* `error(msg)` throws `std::runtime_error(msg)`: `Err.runtime_error msg`
  (`errno` is taken to be `0`, so no `strerror` text is appended).
* A failed `assert` is `Err.assertion`.
* Machine integers are natural numbers reduced modulo `2 ^ bits` wherever the
  C++ type truncates.  `size_t` has 64 bits and the host is little-endian
  (the LP64 Android targets).
* `elf.h` is not part of the sources at hand; the two structure layouts are the
  records `elf32` and `elf64` below.
-/

namespace PatchElf

/-! ## Bytes, strings and outcomes -/

/-- One `unsigned char`. -/
abbrev Byte := Fin 256

/-- A `std::string` or C string: its bytes, without the terminating zero. -/
abbrev CString := List Byte

/-- The bytes of a string literal of the source. -/
def str (s : String) : CString :=
  s.toList.map fun ch => Fin.ofNat ch.toNat

/-- How a run of the program can stop without a value. -/
inductive Err where
  /-- `error(msg)`: a `std::runtime_error` carrying `msg`. -/
  | runtime_error (what : CString)
  /-- A failed `assert`. -/
  | assertion
  /-- An access outside the object it addresses (undefined behaviour). -/
  | outOfBounds
  deriving DecidableEq, Repr

/-- The function `error` of the source. -/
def error {α : Type} (msg : CString) : Except Err α :=
  .error (.runtime_error msg)

instance {ε α : Type} [DecidableEq ε] [DecidableEq α] : DecidableEq (Except ε α)
  | .ok a, .ok b =>
    if h : a = b then isTrue (by rw [h]) else isFalse (by intro h2; cases h2; exact h rfl)
  | .error a, .error b =>
    if h : a = b then isTrue (by rw [h]) else isFalse (by intro h2; cases h2; exact h rfl)
  | .ok _, .error _ => isFalse (by intro h; cases h)
  | .error _, .ok _ => isFalse (by intro h; cases h)

/-- Read `n` bytes of `contents` starting at byte offset `off`. -/
def readBytes (contents : List Byte) (off n : Nat) : Except Err (List Byte) :=
  if off + n ≤ contents.length then .ok ((contents.drop off).take n)
  else .error .outOfBounds

/-- Read the single byte `contents[i]`. -/
def readByte (contents : List Byte) (i : Nat) : Except Err Byte :=
  match contents[i]? with
  | some b => .ok b
  | none => .error .outOfBounds

/-- The C string starting at the head of `bytes`: the bytes before the first
zero byte, or nothing when no zero byte follows. -/
def cstr : List Byte → Option CString
  | [] => none
  | b :: bs => if b = 0 then some [] else (cstr bs).map (b :: ·)

/-- The C string at byte offset `off` of `contents` (what `strdup` or the
`std::string(const char *)` constructor reads). -/
def cstrAt (contents : List Byte) (off : Nat) : Except Err CString :=
  match cstr (contents.drop off) with
  | some s => .ok s
  | none => .error .outOfBounds

/-! ## `rdi` -/

/-- The loop of `rdi` from index `n` on, for `sizeof(I) = w`: each byte of the
object representation is or-ed into `r`, shifted by `n * 8` (little endian) or
by `(w - n - 1) * 8` (big endian); `r` is an `I`, hence the reduction. -/
def rdiLoop (littleEndian : Bool) (w : Nat) : List Byte → Nat → Nat → Nat
  | [], _, r => r
  | b :: bs, n, r =>
    let sh := if littleEndian then n * 8 else (w - n - 1) * 8
    rdiLoop littleEndian w bs (n + 1) ((r ||| (b.val <<< sh)) % 2 ^ (8 * w))

/-- The function `rdi` applied to a value whose bytes in memory are `i`. -/
def rdi (littleEndian : Bool) (i : List Byte) : Nat :=
  rdiLoop littleEndian i.length i 0 0

/-- The byte order of the host, which the fields read without `rdi` are in. -/
def hostLittleEndian : Bool := true

/-- Bits of `size_t`. -/
def sizeBits : Nat := 64

/-- Conversion to `size_t`. -/
def toSizeT (x : Nat) : Nat := x % 2 ^ sizeBits

/-- Conversion to `unsigned int`. -/
def toUInt (x : Nat) : Nat := x % 2 ^ 32

/-! ## Structure layouts -/

/-- A structure member: its byte offset in the structure and its size. -/
structure Field where
  off : Nat
  size : Nat
  deriving DecidableEq, Repr

/-- The template parameters of `ElfFile` as far as the code uses them. -/
structure Layout where
  ehdrSize : Nat
  phdrSize : Nat
  shdrSize : Nat
  dynSize : Nat
  e_type : Field
  e_machine : Field
  e_phoff : Field
  e_shoff : Field
  e_phentsize : Field
  e_phnum : Field
  e_shentsize : Field
  e_shnum : Field
  e_shstrndx : Field
  sh_name : Field
  sh_offset : Field
  sh_size : Field
  d_tag : Field
  d_val : Field
  deriving DecidableEq, Repr

/-- Modelled from the spec: `elf.h` is missing; these are the sizes and member
offsets of `Elf32_Ehdr` (52 bytes), `Elf32_Phdr` (32), `Elf32_Shdr` and
`Elf32_Dyn` of the ELF32 layout. -/
def elf32 : Layout where
  ehdrSize := 52
  phdrSize := 32
  shdrSize := 40
  dynSize := 8
  e_type := ⟨16, 2⟩
  e_machine := ⟨18, 2⟩
  e_phoff := ⟨28, 4⟩
  e_shoff := ⟨32, 4⟩
  e_phentsize := ⟨42, 2⟩
  e_phnum := ⟨44, 2⟩
  e_shentsize := ⟨46, 2⟩
  e_shnum := ⟨48, 2⟩
  e_shstrndx := ⟨50, 2⟩
  sh_name := ⟨0, 4⟩
  sh_offset := ⟨16, 4⟩
  sh_size := ⟨20, 4⟩
  d_tag := ⟨0, 4⟩
  d_val := ⟨4, 4⟩

/-- Modelled from the spec: `elf.h` is missing; these are the sizes and member
offsets of `Elf64_Ehdr` (64 bytes), `Elf64_Phdr` (56), `Elf64_Shdr` and
`Elf64_Dyn` of the ELF64 layout. -/
def elf64 : Layout where
  ehdrSize := 64
  phdrSize := 56
  shdrSize := 64
  dynSize := 16
  e_type := ⟨16, 2⟩
  e_machine := ⟨18, 2⟩
  e_phoff := ⟨32, 8⟩
  e_shoff := ⟨40, 8⟩
  e_phentsize := ⟨54, 2⟩
  e_phnum := ⟨56, 2⟩
  e_shentsize := ⟨58, 2⟩
  e_shnum := ⟨60, 2⟩
  e_shstrndx := ⟨62, 2⟩
  sh_name := ⟨0, 4⟩
  sh_offset := ⟨24, 8⟩
  sh_size := ⟨32, 8⟩
  d_tag := ⟨0, 8⟩
  d_val := ⟨8, 8⟩

/-- The instantiation `android_dlneeds` picks for a class. -/
def layoutOf (is32Bit : Bool) : Layout := if is32Bit then elf32 else elf64

/-! Constants of `elf.h`. -/

/-- Modelled from the spec: `elf.h` is missing; the magic bytes `\177ELF`. -/
def ELFMAG : List Byte := [0x7f, 0x45, 0x4c, 0x46]

/-- Modelled from the spec: `elf.h` is missing; the length of the magic. -/
def SELFMAG : Nat := 4

/-- Modelled from the spec: `elf.h` is missing; the index of the class byte in `e_ident`. -/
def EI_CLASS : Nat := 4

/-- Modelled from the spec: `elf.h` is missing; the index of the data encoding byte in `e_ident`. -/
def EI_DATA : Nat := 5

/-- Modelled from the spec: `elf.h` is missing; the index of the version byte in `e_ident`. -/
def EI_VERSION : Nat := 6

/-- Modelled from the spec: `elf.h` is missing; the current ELF version. -/
def EV_CURRENT : Byte := 1

/-- Modelled from the spec: `elf.h` is missing; the class byte of 32-bit objects. -/
def ELFCLASS32 : Byte := 1

/-- Modelled from the spec: `elf.h` is missing; the class byte of 64-bit objects. -/
def ELFCLASS64 : Byte := 2

/-- Modelled from the spec: `elf.h` is missing; the data encoding byte of little-endian objects. -/
def ELFDATA2LSB : Byte := 1

/-- Modelled from the spec: `elf.h` is missing; the `e_type` of an executable. -/
def ET_EXEC : Nat := 2

/-- Modelled from the spec: `elf.h` is missing; the `e_type` of a shared object. -/
def ET_DYN : Nat := 3

/-- Modelled from the spec: `elf.h` is missing; the tag that ends the dynamic entries. -/
def DT_NULL : Nat := 0

/-- Modelled from the spec: `elf.h` is missing; the tag of a needed library. -/
def DT_NEEDED : Nat := 1

/-- The member `f` of the structure at byte offset `base` of the image, through
`rdi`. -/
def rdField (contents : List Byte) (littleEndian : Bool) (base : Nat) (f : Field) :
    Except Err Nat :=
  (readBytes contents (base + f.off) f.size).map (rdi littleEndian)

/-- The member `f` of a copied structure `s`, through `rdi`. -/
def rdMember (littleEndian : Bool) (s : List Byte) (f : Field) : Nat :=
  rdi littleEndian ((s.drop f.off).take f.size)

/-! ## `getElfType` -/

structure ElfType where
  is32Bit : Bool
  machine : Nat
  deriving DecidableEq, Repr

def getElfType (fileContents : List Byte) : Except Err ElfType := do
  if fileContents.length < elf32.ehdrSize then error (str "missing ELF header") else
  let magic ← readBytes fileContents 0 SELFMAG
  if magic ≠ ELFMAG then error (str "not an ELF executable") else
  let version ← readByte fileContents EI_VERSION
  if version ≠ EV_CURRENT then error (str "unsupported ELF version") else
  let cls ← readByte fileContents EI_CLASS
  if cls ≠ ELFCLASS32 ∧ cls ≠ ELFCLASS64 then error (str "ELF executable is not 32 or 64 bit") else
  let is32Bit := decide (cls = ELFCLASS32)
  let machine ← rdField fileContents hostLittleEndian 0 (layoutOf is32Bit).e_machine
  pure { is32Bit := is32Bit, machine := machine }

/-! ## The `ElfFile` constructor -/

/-- The object built by the constructor.  `contents` and `hdr` point at the
start of `fileContents`; the headers are copied byte for byte. -/
structure ElfFile where
  fileContents : List Byte
  littleEndian : Bool
  phdrs : List (List Byte)
  shdrs : List (List Byte)
  sectionNames : CString
  sectionsByOldIndex : List CString
  deriving DecidableEq, Repr

/-- The value of `(size_t) (off + num * entsize)` where `off` is an `Elf_Off` of
`offBits` bits and `num`, `entsize` are `uint16_t`: the product is formed in
`int` (32-bit two's complement), converted to `Elf_Off` and added modulo
`2 ^ offBits`. -/
def tableEnd (offBits off num entsize : Nat) : Nat :=
  let prod := (num * entsize) % 2 ^ 32
  let conv := if prod < 2 ^ 31 then prod else 2 ^ offBits - 2 ^ 32 + prod
  toSizeT ((off + conv) % 2 ^ offBits)

/-- The function `checkPointer` for the pointer `contents->data() + p`: the
range of `size` bytes from `p` on lies inside the image, or the assertion
fails. -/
def checkPointer (contents : List Byte) (p size : Nat) : Except Err Unit :=
  if p + size ≤ contents.length then .ok () else .error .assertion

/-- The copy loops: `count` more structures of `entSize` bytes are read, the
next one being number `i` of the array at offset `base`. -/
def copyHeaders (contents : List Byte) (base entSize : Nat) :
    Nat → Nat → Except Err (List (List Byte))
  | 0, _ => .ok []
  | count + 1, i =>
    match readBytes contents (base + i * entSize) entSize with
    | .error e => .error e
    | .ok h => (copyHeaders contents base entSize count (i + 1)).map (h :: ·)

/-- Element `i` of a vector, `v[i]`. -/
def index {α : Type} (v : List α) (i : Nat) : Except Err α :=
  match v[i]? with
  | some x => .ok x
  | none => .error .outOfBounds

/-- The body of `getSectionName`: the C string at `sectionNames.c_str() +
rdi(shdr.sh_name)`; `c_str()` is the table followed by one zero byte. -/
def sectionNameAt (lay : Layout) (littleEndian : Bool) (sectionNames : CString)
    (shdr : List Byte) : Except Err CString :=
  cstrAt (sectionNames ++ [0]) (rdMember littleEndian shdr lay.sh_name)

/-- The last loop of the constructor: `count` more sections, the next one
being `i`, are named in `sectionsByOldIndex`. -/
def nameSections (lay : Layout) (littleEndian : Bool) (sectionNames : CString)
    (shdrs : List (List Byte)) : Nat → Nat → List CString → Except Err (List CString)
  | 0, _, sectionsByOldIndex => .ok sectionsByOldIndex
  | count + 1, i, sectionsByOldIndex => do
    let shdr ← index shdrs i
    let name ← sectionNameAt lay littleEndian sectionNames shdr
    if i < sectionsByOldIndex.length then
      nameSections lay littleEndian sectionNames shdrs count (i + 1)
        (sectionsByOldIndex.set i name)
    else .error .outOfBounds

/-- The constructor body from the comment "Copy the program and section
headers" on, with the header members read before it. -/
def ElfFile.load (lay : Layout) (fileContents : List Byte) (littleEndian : Bool)
    (e_phoff e_phnum e_shoff e_shnum : Nat) : Except Err ElfFile := do
  let phdrs ← copyHeaders fileContents e_phoff lay.phdrSize e_phnum 0
  let shdrs ← copyHeaders fileContents e_shoff lay.shdrSize e_shnum 0
  let shstrtabIndex ← rdField fileContents littleEndian 0 lay.e_shstrndx
  if ¬ shstrtabIndex < shdrs.length then .error .assertion else
  let shstrtabHdr ← index shdrs shstrtabIndex
  let shstrtabSize := toUInt (rdMember littleEndian shstrtabHdr lay.sh_size)
  let shstrtab := rdMember littleEndian shstrtabHdr lay.sh_offset
  checkPointer fileContents shstrtab shstrtabSize
  if ¬ shstrtabSize > 0 then .error .assertion else
  let last ← readByte fileContents (shstrtab + (shstrtabSize - 1))
  if last ≠ 0 then .error .assertion else
  let sectionNames ← readBytes fileContents shstrtab shstrtabSize
  let rawShnum ← rdField fileContents hostLittleEndian 0 lay.e_shnum
  let sectionsByOldIndex ← nameSections lay littleEndian sectionNames shdrs (e_shnum - 1) 1
    (List.replicate rawShnum [])
  pure { fileContents := fileContents, littleEndian := littleEndian, phdrs := phdrs,
         shdrs := shdrs, sectionNames := sectionNames,
         sectionsByOldIndex := sectionsByOldIndex }

/-- The constructor `ElfFile(fileContents)` for the layout `lay`: the checks of
the ELF header, then `ElfFile.load`. -/
def ElfFile.new (lay : Layout) (fileContents : List Byte) : Except Err ElfFile := do
  if fileContents.length < lay.ehdrSize then error (str "missing ELF header") else
  let ident ← readBytes fileContents 0 SELFMAG
  if ident ≠ ELFMAG then error (str "not an ELF executable") else
  let data ← readByte fileContents EI_DATA
  let littleEndian := decide (data = ELFDATA2LSB)
  let e_type ← rdField fileContents littleEndian 0 lay.e_type
  if e_type ≠ ET_EXEC ∧ e_type ≠ ET_DYN then error (str "wrong ELF type") else
  let e_phoff ← rdField fileContents littleEndian 0 lay.e_phoff
  let e_phnum ← rdField fileContents littleEndian 0 lay.e_phnum
  let e_phentsize ← rdField fileContents littleEndian 0 lay.e_phentsize
  if tableEnd (8 * lay.e_phoff.size) e_phoff e_phnum e_phentsize > fileContents.length then
    error (str "program header table out of bounds") else
  let e_shnum ← rdField fileContents littleEndian 0 lay.e_shnum
  if e_shnum = 0 then
    error (str "no section headers. The input file is probably a statically linked, self-decompressing binary") else
  let e_shoff ← rdField fileContents littleEndian 0 lay.e_shoff
  let e_shentsize ← rdField fileContents littleEndian 0 lay.e_shentsize
  if tableEnd (8 * lay.e_shoff.size) e_shoff e_shnum e_shentsize > fileContents.length then
    error (str "section header table out of bounds") else
  if e_phentsize ≠ lay.phdrSize then error (str "program headers have wrong size") else
  ElfFile.load lay fileContents littleEndian e_phoff e_phnum e_shoff e_shnum

/-! ## Section lookup -/

def ElfFile.getSectionName (lay : Layout) (v : ElfFile) (shdr : List Byte) :
    Except Err CString :=
  sectionNameAt lay v.littleEndian v.sectionNames shdr

/-- The loop of `findSection3`: `count` more sections, the next one being `i`. -/
def ElfFile.findSection3Loop (lay : Layout) (v : ElfFile) (sectionName : CString) :
    Nat → Nat → Except Err Nat
  | 0, _ => .ok 0
  | count + 1, i => do
    let shdr ← index v.shdrs i
    let name ← v.getSectionName lay shdr
    if name = sectionName then pure i
    else ElfFile.findSection3Loop lay v sectionName count (i + 1)

def ElfFile.findSection3 (lay : Layout) (v : ElfFile) (sectionName : CString) :
    Except Err Nat := do
  let e_shnum ← rdField v.fileContents v.littleEndian 0 lay.e_shnum
  v.findSection3Loop lay sectionName (e_shnum - 1) 1

/-- The result is the section header pointed at, `none` for a null pointer. -/
def ElfFile.findSection2 (lay : Layout) (v : ElfFile) (sectionName : CString) :
    Except Err (Option (List Byte)) := do
  let i ← v.findSection3 lay sectionName
  if i ≠ 0 then
    let shdr ← index v.shdrs i
    pure (some shdr)
  else pure none

def ElfFile.findSection (lay : Layout) (v : ElfFile) (sectionName : CString) :
    Except Err (List Byte) := do
  match ← v.findSection2 lay sectionName with
  | some shdr => pure shdr
  | none =>
    let extraMsg :=
      if sectionName = str ".interp" ∨ sectionName = str ".dynamic"
          ∨ sectionName = str ".dynstr" then
        str ". The input file is most likely statically linked"
      else str ""
    error (str "cannot find section '" ++ sectionName ++ str "'" ++ extraMsg)

/-! ## `dlneeds` -/

/-- The first loop of `dlneeds`, with `d` the byte offset of the entry looked
at.  Every step reads at a larger offset, so `fuel` beyond the length of the
image is never used up; see `countNeeded_fuel`. -/
def countNeeded (lay : Layout) (contents : List Byte) (littleEndian : Bool) :
    Nat → Nat → Nat → Except Err Nat
  | 0, _, _ => .error .outOfBounds
  | fuel + 1, d, n_needed => do
    let d_tag ← rdField contents littleEndian d lay.d_tag
    if d_tag ≠ DT_NULL then
      countNeeded lay contents littleEndian fuel (d + lay.dynSize)
        (if d_tag = DT_NEEDED then n_needed + 1 else n_needed)
    else pure n_needed

/-- The sum `p + n` of a `char *` into the image and an unsigned integer, both
as byte offsets from `contents->data()`.  Addresses have `sizeBits` bits, so the
offset reached is the sum modulo `2 ^ sizeBits`. -/
def ptrAdd (p n : Nat) : Nat := toSizeT (p + n)

/-- The second loop of `dlneeds`; `result` is the allocated array, a null
pointer being `none`.  `strTab` is the pointer `contents + rdi(sh_offset)` of
`.dynstr`, as a byte offset. -/
def fillNeeded (lay : Layout) (contents : List Byte) (littleEndian : Bool) (strTab : Nat) :
    Nat → Nat → List (Option CString) → Nat → Except Err (List (Option CString))
  | 0, _, _, _ => .error .outOfBounds
  | fuel + 1, d, result, i => do
    let d_tag ← rdField contents littleEndian d lay.d_tag
    if d_tag ≠ DT_NULL then
      if d_tag = DT_NEEDED then
        let d_val ← rdField contents littleEndian d lay.d_val
        let s ← cstrAt contents (ptrAdd strTab d_val)
        if i < result.length then
          fillNeeded lay contents littleEndian strTab fuel (d + lay.dynSize)
            (result.set i (some s)) (i + 1)
        else .error .outOfBounds
      else fillNeeded lay contents littleEndian strTab fuel (d + lay.dynSize) result i
    else pure result

/-- The method `dlneeds`; `malloc` is taken to succeed. -/
def ElfFile.dlneeds (lay : Layout) (v : ElfFile) : Except Err (List (Option CString)) := do
  let shdrDynamic ← v.findSection lay (str ".dynamic")
  let shdrDynStr ← v.findSection lay (str ".dynstr")
  let strTab := rdMember v.littleEndian shdrDynStr lay.sh_offset
  let dyn := rdMember v.littleEndian shdrDynamic lay.sh_offset
  let n_needed ← countNeeded lay v.fileContents v.littleEndian (v.fileContents.length + 1) dyn 0
  let result := List.replicate (n_needed + 1) none
  fillNeeded lay v.fileContents v.littleEndian strTab (v.fileContents.length + 1) dyn result 0

/-- The strings of a null-terminated array, as `main` lists them. -/
def libs (result : List (Option CString)) : List CString :=
  (result.takeWhile Option.isSome).filterMap id

/-! ## `android_dlneeds` -/

/-- What `android_dlneeds` hands back: the pointer returned (`none` for `NULL`)
and what it wrote to standard error. -/
structure Returned where
  result : Option (List (Option CString))
  stderr : CString
  deriving DecidableEq, Repr

/-- The body of the `try` block. -/
def parse (fileContents : List Byte) : Except Err (List (Option CString)) := do
  let t ← getElfType fileContents
  if t.is32Bit then
    let v ← ElfFile.new elf32 fileContents
    v.dlneeds elf32
  else
    let v ← ElfFile.new elf64 fileContents
    v.dlneeds elf64

/-- The function `android_dlneeds` on the contents `readFile` returned. -/
def android_dlneeds (fileContents : List Byte) : Except Err Returned :=
  match parse fileContents with
  | .ok result => .ok { result := some result, stderr := [] }
  | .error (.runtime_error what) =>
    .ok { result := none, stderr := str "patchelf: " ++ what ++ str "\n" }
  | .error e => .error e

/-! ## Encodings and synthetic images

These definitions are not part of the program: they build the inputs the
properties below speak about. -/

/-- The little-endian encoding of `v` in `w` bytes. -/
def encodeLE : Nat → Nat → List Byte
  | 0, _ => []
  | w + 1, v => Fin.ofNat (v % 256) :: encodeLE w (v / 256)

/-- The big-endian encoding of `v` in `w` bytes. -/
def encodeBE (w v : Nat) : List Byte := (encodeLE w v).reverse

/-- The encoding of `v` in `w` bytes in the byte order of an image. -/
def encode (littleEndian : Bool) (w v : Nat) : List Byte :=
  if littleEndian then encodeLE w v else encodeBE w v

def zeros (n : Nat) : List Byte := List.replicate n 0

/-- An ELF header with no program headers whose section header table follows
it directly. -/
def mkEhdr (is32Bit littleEndian : Bool) (e_type e_shnum e_shstrndx : Nat) : List Byte :=
  let lay := layoutOf is32Bit
  let w := lay.e_phoff.size
  ELFMAG ++ [if is32Bit then ELFCLASS32 else ELFCLASS64,
             if littleEndian then ELFDATA2LSB else 2, EV_CURRENT] ++ zeros 9
    ++ encode littleEndian 2 e_type ++ encode littleEndian 2 0 ++ encode littleEndian 4 1
    ++ encode littleEndian w 0 ++ encode littleEndian w 0 ++ encode littleEndian w lay.ehdrSize
    ++ encode littleEndian 4 0 ++ encode littleEndian 2 lay.ehdrSize
    ++ encode littleEndian 2 lay.phdrSize ++ encode littleEndian 2 0
    ++ encode littleEndian 2 lay.shdrSize ++ encode littleEndian 2 e_shnum
    ++ encode littleEndian 2 e_shstrndx

/-- A section header with the given name offset, file offset and size, all
other members zero. -/
def mkShdr (lay : Layout) (littleEndian : Bool) (sh_name sh_offset sh_size : Nat) :
    List Byte :=
  encode littleEndian lay.sh_name.size sh_name
    ++ zeros (lay.sh_offset.off - lay.sh_name.size)
    ++ encode littleEndian lay.sh_offset.size sh_offset
    ++ encode littleEndian lay.sh_size.size sh_size
    ++ zeros (lay.shdrSize - (lay.sh_size.off + lay.sh_size.size))

/-- One dynamic entry. -/
def mkDyn (lay : Layout) (littleEndian : Bool) (e : Nat × Nat) : List Byte :=
  encode littleEndian lay.d_tag.size e.1 ++ encode littleEndian lay.d_val.size e.2

/-- The section name table of the synthetic images. -/
def shstrtabBytes : List Byte :=
  [0] ++ str ".dynamic" ++ [0] ++ str ".dynstr" ++ [0] ++ str ".shstrtab" ++ [0]

/-- The `.dynamic` section holding `entries` followed by a `DT_NULL` entry. -/
def mkDynamic (lay : Layout) (littleEndian : Bool) (entries : List (Nat × Nat)) : List Byte :=
  ((entries ++ [(DT_NULL, 0)]).map (mkDyn lay littleEndian)).flatten

/-- A shared object with the sections `.dynamic`, `.dynstr` and `.shstrtab`:
ELF header, four section headers, the section name table, the dynamic entries
`entries` followed by a `DT_NULL` entry, and the string table `dynstr`. -/
def mkImage (is32Bit littleEndian : Bool) (entries : List (Nat × Nat)) (dynstr : List Byte) :
    List Byte :=
  let lay := layoutOf is32Bit
  let strtabOff := lay.ehdrSize + 4 * lay.shdrSize
  let dynOff := strtabOff + shstrtabBytes.length
  let dynamic := mkDynamic lay littleEndian entries
  mkEhdr is32Bit littleEndian ET_DYN 4 3
    ++ mkShdr lay littleEndian 0 0 0
    ++ mkShdr lay littleEndian 1 dynOff dynamic.length
    ++ mkShdr lay littleEndian 10 (dynOff + dynamic.length) dynstr.length
    ++ mkShdr lay littleEndian 18 strtabOff shstrtabBytes.length
    ++ shstrtabBytes ++ dynamic ++ dynstr

/-! ## Values used to state the properties -/

/-- The byte order an image declares: `e_ident[EI_DATA] == ELFDATA2LSB`. -/
def declaredLE (fileContents : List Byte) : Bool :=
  decide (fileContents[EI_DATA]? = some ELFDATA2LSB)

/-- The ELF header member `f` of an image, decoded in its declared byte order. -/
def hdrValue (fileContents : List Byte) (f : Field) : Nat :=
  rdi (declaredLE fileContents) ((fileContents.drop f.off).take f.size)

/-- The name `getSectionName` yields for section `i` of a view, when the
section header and the name can be read. -/
def ElfFile.nameOfSection (lay : Layout) (v : ElfFile) (i : Nat) : Option CString :=
  match v.shdrs[i]? with
  | some shdr =>
    match v.getSectionName lay shdr with
    | .ok name => some name
    | .error _ => none
  | none => none

/-- The results of a list of reads, or the first failure among them. -/
def allOk {α : Type} : List (Except Err α) → Except Err (List α)
  | [] => .ok []
  | .error e :: _ => .error e
  | .ok a :: rest =>
    match allOk rest with
    | .ok as => .ok (a :: as)
    | .error e => .error e

/-- The `.dynamic` section at byte offset `d` holds the entries `es`, none of
them a `DT_NULL` entry, followed by a `DT_NULL` entry. -/
def holdsEntries (lay : Layout) (contents : List Byte) (littleEndian : Bool) :
    Nat → List (Nat × Nat) → Prop
  | d, [] => rdField contents littleEndian d lay.d_tag = .ok DT_NULL
  | d, e :: es =>
    e.1 ≠ DT_NULL ∧ rdField contents littleEndian d lay.d_tag = .ok e.1
      ∧ rdField contents littleEndian d lay.d_val = .ok e.2
      ∧ holdsEntries lay contents littleEndian (d + lay.dynSize) es

instance (lay : Layout) (contents : List Byte) (littleEndian : Bool) (d : Nat)
    (es : List (Nat × Nat)) : Decidable (holdsEntries lay contents littleEndian d es) := by
  induction es generalizing d with
  | nil => unfold holdsEntries; infer_instance
  | cons e es ih => unfold holdsEntries; infer_instance

/-- The specification of `dlneeds` in the words of the description: of the
entries `es` before the first `DT_NULL`, those with the tag `DT_NEEDED`, in
order, each mapped to the C string at `strTab` plus its value. -/
def neededNames (contents : List Byte) (strTab : Nat) (es : List (Nat × Nat)) :
    Except Err (List CString) :=
  allOk ((es.filter fun e => e.1 = DT_NEEDED).map fun e => cstrAt contents (strTab + e.2))

/-- What the second loop of `dlneeds` reads for the entries `es`: for each
`DT_NEEDED` entry, in order, the C string at the address `strTab` plus its
value, the sum being the pointer sum `ptrAdd`. -/
def neededStrings (contents : List Byte) (strTab : Nat) (es : List (Nat × Nat)) :
    Except Err (List CString) :=
  allOk ((es.filter fun e => e.1 = DT_NEEDED).map fun e =>
    cstrAt contents (ptrAdd strTab e.2))

/-- The null-terminated array holding `names`. -/
def toArray (names : List CString) : List (Option CString) :=
  names.map some ++ [none]

/-- A statically linked executable: only the null section and `.shstrtab`. -/
def staticImage (is32Bit littleEndian : Bool) : List Byte :=
  let lay := layoutOf is32Bit
  mkEhdr is32Bit littleEndian ET_EXEC 2 1
    ++ mkShdr lay littleEndian 0 0 0
    ++ mkShdr lay littleEndian 1 (lay.ehdrSize + 2 * lay.shdrSize) 11
    ++ ([0] ++ str ".shstrtab" ++ [0])

/-- The shared object of the scenario: `.dynamic` is `[(DT_NEEDED, 0), (DT_NULL, 0)]`
and `.dynstr` is `"libc.so\0"`, 64-bit little-endian. -/
def libcImage : List Byte :=
  mkImage false true [(DT_NEEDED, 0)] (str "libc.so" ++ [0])

/-- The view the constructor builds of an image, for images it accepts. -/
def viewOf (lay : Layout) (fileContents : List Byte) : ElfFile :=
  match ElfFile.new lay fileContents with
  | .ok v => v
  | .error _ => ⟨[], false, [], [], [], []⟩

/-- The end of the program header table as the constructor computes it. -/
def phEnd (lay : Layout) (fileContents : List Byte) : Nat :=
  tableEnd (8 * lay.e_phoff.size) (hdrValue fileContents lay.e_phoff)
    (hdrValue fileContents lay.e_phnum) (hdrValue fileContents lay.e_phentsize)

/-- The end of the section header table as the constructor computes it. -/
def shEnd (lay : Layout) (fileContents : List Byte) : Nat :=
  tableEnd (8 * lay.e_shoff.size) (hdrValue fileContents lay.e_shoff)
    (hdrValue fileContents lay.e_shnum) (hdrValue fileContents lay.e_shentsize)

/-- An ELF header with the given members; `e_ident` is that of `mkEhdr` and the
members not listed are zero. -/
def mkHeader (is32Bit littleEndian : Bool)
    (e_type e_phoff e_shoff e_phentsize e_phnum e_shentsize e_shnum e_shstrndx : Nat) :
    List Byte :=
  let lay := layoutOf is32Bit
  let w := lay.e_phoff.size
  ELFMAG ++ [if is32Bit then ELFCLASS32 else ELFCLASS64,
             if littleEndian then ELFDATA2LSB else 2, EV_CURRENT] ++ zeros 9
    ++ encode littleEndian 2 e_type ++ encode littleEndian 2 0 ++ encode littleEndian 4 1
    ++ encode littleEndian w 0 ++ encode littleEndian w e_phoff ++ encode littleEndian w e_shoff
    ++ encode littleEndian 4 0 ++ encode littleEndian 2 lay.ehdrSize
    ++ encode littleEndian 2 e_phentsize ++ encode littleEndian 2 e_phnum
    ++ encode littleEndian 2 e_shentsize ++ encode littleEndian 2 e_shnum
    ++ encode littleEndian 2 e_shstrndx

/-- An image like `mkImage` whose three named section headers carry the given
name offsets, file offsets and sizes, followed by `body`. -/
def mkSections (is32Bit littleEndian : Bool) (s1 s2 s3 : Nat × Nat × Nat) (body : List Byte) :
    List Byte :=
  let lay := layoutOf is32Bit
  mkEhdr is32Bit littleEndian ET_DYN 4 3
    ++ mkShdr lay littleEndian 0 0 0
    ++ mkShdr lay littleEndian s1.1 s1.2.1 s1.2.2
    ++ mkShdr lay littleEndian s2.1 s2.2.1 s2.2.2
    ++ mkShdr lay littleEndian s3.1 s3.2.1 s3.2.2
    ++ body

/-- A 64-byte ELF64 image: one section header is announced at offset 64, the
end of the image, with `e_shentsize = 0`. -/
def shentsizeImage : List Byte :=
  mkHeader false true ET_DYN 0 64 56 0 0 1 0

/-- A 92-byte ELF32 image, header and one section header, whose `e_phoff` is
`0xFFFFFFFF` with one program header of 32 bytes. -/
def phoffImage : List Byte :=
  mkHeader true true ET_DYN 0xFFFFFFFF 52 32 1 40 1 0 ++ mkShdr elf32 true 0 0 0

/-- An ELF64 image whose `.dynamic` section header declares 16 bytes, one
entry, while the bytes at its offset hold two `DT_NEEDED` entries and then the
`DT_NULL` entry. -/
def shortDynamicImage : List Byte :=
  mkSections false true (1, 348, 16) (10, 396, 8) (18, 320, 28)
    (shstrtabBytes ++ mkDynamic elf64 true [(DT_NEEDED, 0), (DT_NEEDED, 3)]
      ++ (str "libc.so" ++ [0]))

/-- The image `libcImage` with other numbers for the same string: `.dynstr`
declares `sh_offset = 2 ^ 64 - 8` and the `DT_NEEDED` entry has the value 388,
so that the two add up to `2 ^ 64 + 380`; the string `"libc.so"` is at byte 380
of the 388 bytes. -/
def wrapDynstrImage : List Byte :=
  mkSections false true (1, 348, 32) (10, 2 ^ 64 - 8, 8) (18, 320, 28)
    (shstrtabBytes ++ mkDynamic elf64 true [(DT_NEEDED, 388)] ++ (str "libc.so" ++ [0]))

/-- An ELF64 image whose `.shstrtab` section header declares the size
`2 ^ 32 + 28`. -/
def hugeStrtabImage : List Byte :=
  mkSections false true (1, 348, 16) (10, 364, 8) (18, 320, 2 ^ 32 + 28)
    (shstrtabBytes ++ mkDynamic elf64 true [] ++ (str "libc.so" ++ [0]))

/-- An ELF64 image whose section 1 has `sh_name = 28`, the length of the
section name table. -/
def nameAtEndImage : List Byte :=
  mkSections false true (28, 348, 16) (10, 364, 8) (18, 320, 28)
    (shstrtabBytes ++ mkDynamic elf64 true [] ++ (str "libc.so" ++ [0]))

/-- The big-endian ELF64 shared object with the content of `libcImage`. -/
def libcImageBE : List Byte :=
  mkImage false false [(DT_NEEDED, 0)] (str "libc.so" ++ [0])

/-- The image `libcImageBE` with the two bytes of `e_type` exchanged: `03 00`. -/
def swappedTypeImage : List Byte :=
  (libcImageBE.set 16 3).set 17 0

/-- The number whose little-endian digits in base 256 are `bs`. -/
def leValue : List Byte → Nat
  | [] => 0
  | b :: bs => b.val + 256 * leValue bs

/-- The number whose big-endian digits in base 256 are `bs`. -/
def beValue : List Byte → Nat
  | [] => 0
  | b :: bs => b.val * 2 ^ (8 * bs.length) + beValue bs

/-! # Properties -/

/-! ## `rdi` -/

theorem leValue_lt (bs : List Byte) : leValue bs < 2 ^ (8 * bs.length) := by
  induction bs with
  | nil => simp [leValue]
  | cons b bs ih =>
    have hb := b.isLt
    simp only [leValue, List.length_cons]
    have : 2 ^ (8 * (bs.length + 1)) = 256 * 2 ^ (8 * bs.length) := by
      rw [Nat.mul_add, Nat.pow_add]; norm_num [Nat.mul_comm]
    omega

theorem beValue_lt (bs : List Byte) : beValue bs < 2 ^ (8 * bs.length) := by
  induction bs with
  | nil => simp [beValue]
  | cons b bs ih =>
    have hb := b.isLt
    simp only [beValue, List.length_cons]
    have h2 : 2 ^ (8 * (bs.length + 1)) = 256 * 2 ^ (8 * bs.length) := by
      rw [Nat.mul_add, Nat.pow_add]; norm_num [Nat.mul_comm]
    have : b.val * 2 ^ (8 * bs.length) ≤ 255 * 2 ^ (8 * bs.length) :=
      Nat.mul_le_mul_right _ (by omega)
    omega

theorem pow8_succ (n : Nat) : 2 ^ (8 * (n + 1)) = 256 * 2 ^ (8 * n) := by
  rw [Nat.mul_add, Nat.pow_add]; norm_num [Nat.mul_comm]

theorem rdiLoop_le (w : Nat) (bs : List Byte) : ∀ (n r : Nat), r < 2 ^ (8 * n) →
    n + bs.length ≤ w → rdiLoop true w bs n r = r + 2 ^ (8 * n) * leValue bs := by
  induction bs with
  | nil => intro n r _ _; simp [rdiLoop, leValue]
  | cons b bs ih =>
    intro n r hr hw
    have hb := b.isLt
    simp only [List.length_cons] at hw
    have hor : r ||| (b.val <<< (n * 8)) = r + 2 ^ (8 * n) * b.val := by
      rw [Nat.shiftLeft_eq, Nat.lor_comm, Nat.mul_comm b.val, Nat.mul_comm n 8,
        ← Nat.mul_add_lt_is_or hr, Nat.add_comm]
    have hlt : r + 2 ^ (8 * n) * b.val < 2 ^ (8 * (n + 1)) := by
      rw [pow8_succ]
      have : 2 ^ (8 * n) * b.val ≤ 2 ^ (8 * n) * 255 := Nat.mul_le_mul_left _ (by omega)
      omega
    have hle : 2 ^ (8 * (n + 1)) ≤ 2 ^ (8 * w) :=
      Nat.pow_le_pow_right (by decide) (by omega)
    simp only [rdiLoop, if_true, hor, Nat.mod_eq_of_lt (Nat.lt_of_lt_of_le hlt hle)]
    rw [ih (n + 1) _ hlt (by omega), leValue, pow8_succ]
    ring

theorem rdiLoop_be (w : Nat) (bs : List Byte) : ∀ (n q : Nat), q < 2 ^ (8 * n) →
    n + bs.length = w →
    rdiLoop false w bs n (2 ^ (8 * bs.length) * q) = 2 ^ (8 * bs.length) * q + beValue bs := by
  induction bs with
  | nil => intro n q _ _; simp [rdiLoop, beValue]
  | cons b bs ih =>
    intro n q hq hw
    have hb := b.isLt
    simp only [List.length_cons] at hw
    have hsh : (w - n - 1) * 8 = 8 * bs.length := by omega
    have hx : b.val * 2 ^ (8 * bs.length) < 2 ^ (8 * (bs.length + 1)) := by
      rw [pow8_succ]
      have : b.val * 2 ^ (8 * bs.length) ≤ 255 * 2 ^ (8 * bs.length) :=
        Nat.mul_le_mul_right _ (by omega)
      have := Nat.two_pow_pos (8 * bs.length)
      omega
    have hor : (2 ^ (8 * (bs.length + 1)) * q) ||| (b.val <<< ((w - n - 1) * 8))
        = 2 ^ (8 * bs.length) * (256 * q + b.val) := by
      rw [hsh, Nat.shiftLeft_eq, ← Nat.mul_add_lt_is_or hx, pow8_succ]
      ring
    have hq2 : 256 * q + b.val < 2 ^ (8 * (n + 1)) := by
      rw [pow8_succ]; omega
    have hlt : 2 ^ (8 * bs.length) * (256 * q + b.val) < 2 ^ (8 * w) := by
      have h1 : 2 ^ (8 * w) = 2 ^ (8 * bs.length) * 2 ^ (8 * (n + 1)) := by
        rw [← Nat.pow_add]; congr 1; omega
      rw [h1]
      exact Nat.mul_lt_mul_of_pos_left hq2 (Nat.two_pow_pos _)
    simp only [rdiLoop, Bool.false_eq_true, if_false, List.length_cons, hor,
      Nat.mod_eq_of_lt hlt]
    rw [ih (n + 1) _ hq2 (by omega), beValue, pow8_succ]
    ring

theorem rdi_le (bs : List Byte) : rdi true bs = leValue bs := by
  have := rdiLoop_le bs.length bs 0 0 (by simp) (by simp)
  simpa [rdi] using this

theorem rdi_be (bs : List Byte) : rdi false bs = beValue bs := by
  have := rdiLoop_be bs.length bs 0 0 (by simp) (by simp)
  simpa [rdi] using this


theorem encodeLE_length (w v : Nat) : (encodeLE w v).length = w := by
  induction w generalizing v with
  | zero => rfl
  | succ w ih => simp [encodeLE, ih]

theorem leValue_encodeLE (w v : Nat) : leValue (encodeLE w v) = v % 2 ^ (8 * w) := by
  induction w generalizing v with
  | zero => simp [encodeLE, leValue, Nat.mod_one]
  | succ w ih =>
    simp only [encodeLE, leValue, ih, pow8_succ, Fin.ofNat, Fin.val_mk]
    rw [Nat.mod_mod_of_dvd _ (by norm_num), Nat.mod_mul]

theorem beValue_append_singleton (bs : List Byte) (b : Byte) :
    beValue (bs ++ [b]) = 256 * beValue bs + b.val := by
  induction bs with
  | nil => simp [beValue]
  | cons a bs ih =>
    rw [List.cons_append, beValue, beValue, ih, List.length_append, List.length_singleton,
      pow8_succ]
    ring

theorem beValue_reverse (bs : List Byte) : beValue bs.reverse = leValue bs := by
  induction bs with
  | nil => rfl
  | cons b bs ih =>
    rw [List.reverse_cons, beValue_append_singleton, ih, leValue, Nat.add_comm]

theorem leValue_eq_sum (bs : List Byte) :
    leValue bs = ∑ n in Finset.range bs.length, (bs.getD n 0).val * 2 ^ (8 * n) := by
  induction bs with
  | nil => simp [leValue]
  | cons b bs ih =>
    rw [List.length_cons, Finset.sum_range_succ', leValue, ih, Finset.mul_sum]
    simp only [List.getD_cons_succ, List.getD_cons_zero, Nat.mul_zero, Nat.pow_zero,
      Nat.mul_one, pow8_succ]
    rw [Nat.add_comm]
    congr 1
    apply Finset.sum_congr rfl
    intro n _
    ring

theorem beValue_eq_sum (bs : List Byte) :
    beValue bs = ∑ n in Finset.range bs.length,
      (bs.getD n 0).val * 2 ^ (8 * (bs.length - 1 - n)) := by
  induction bs with
  | nil => simp [beValue]
  | cons b bs ih =>
    rw [List.length_cons, Finset.sum_range_succ', beValue, ih]
    simp only [List.getD_cons_succ, List.getD_cons_zero, Nat.add_sub_cancel, Nat.sub_zero]
    rw [Nat.add_comm]
    congr 1
    apply Finset.sum_congr rfl
    intro n hn
    have : n < bs.length := Finset.mem_range.mp hn
    congr 3
    omega

/-- C3: `rdi` undoes both encodings.  For every width `w` and every
`v < 2 ^ (8 * w)`, `rdi` with `littleEndian = false` on the big-endian encoding
of `v` gives `v`, `rdi` with `littleEndian = true` on the little-endian encoding
gives `v`, and on any `w` bytes the result is the sum of `byte[n] * 2 ^ (8 * (w - 1 - n))`
resp. `byte[n] * 2 ^ (8 * n)`; the host byte order does not enter. -/
theorem rdi_roundtrip (w v : Nat) (hv : v < 2 ^ (8 * w)) :
    rdi false (encodeBE w v) = v ∧ rdi true (encodeLE w v) = v
    ∧ ∀ i : List Byte, i.length = w →
        rdi false i = ∑ n in Finset.range w, (i.getD n 0).val * 2 ^ (8 * (w - 1 - n))
        ∧ rdi true i = ∑ n in Finset.range w, (i.getD n 0).val * 2 ^ (8 * n) := by
  refine ⟨?_, ?_, ?_⟩
  · rw [rdi_be, encodeBE, beValue_reverse, leValue_encodeLE, Nat.mod_eq_of_lt hv]
  · rw [rdi_le, leValue_encodeLE, Nat.mod_eq_of_lt hv]
  · intro i hi
    subst hi
    exact ⟨(rdi_be i).trans (beValue_eq_sum i), (rdi_le i).trans (leValue_eq_sum i)⟩

theorem rdi_roundtrip_witness :
    (0x1234 : Nat) < 2 ^ (8 * 2) ∧ rdi false (encodeBE 2 0x1234) = 0x1234 :=
  ⟨by decide, (rdi_roundtrip 2 0x1234 (by decide)).1⟩

/-! ## `getElfType` -/

theorem readBytes_ok {fc : List Byte} {off n : Nat} (h : off + n ≤ fc.length) :
    readBytes fc off n = .ok ((fc.drop off).take n) := by
  simp [readBytes, h]

theorem readByte_of_lt (fc : List Byte) (i : Nat) (h : i < fc.length) :
    ∃ b, fc[i]? = some b ∧ readByte fc i = .ok b :=
  ⟨fc[i], List.getElem?_eq_getElem h, by simp [readByte, List.getElem?_eq_getElem h]⟩

theorem rdField_ok {fc : List Byte} {le : Bool} {base : Nat} {f : Field}
    (h : base + f.off + f.size ≤ fc.length) :
    rdField fc le base f = .ok (rdi le ((fc.drop (base + f.off)).take f.size)) := by
  simp [rdField, readBytes_ok h, Except.map]

/-- The outcome of `getElfType` by cases on its four checks. -/
theorem getElfType_outcome (fc : List Byte) :
    ((∃ t, getElfType fc = .ok t) ↔
      (52 ≤ fc.length ∧ fc.take 4 = ELFMAG ∧ fc[EI_VERSION]? = some EV_CURRENT
        ∧ (fc[EI_CLASS]? = some ELFCLASS32 ∨ fc[EI_CLASS]? = some ELFCLASS64)))
    ∧ (∀ t, getElfType fc = .ok t → (t.is32Bit = true ↔ fc[EI_CLASS]? = some ELFCLASS32))
    ∧ (fc.length < 52 → getElfType fc = error (str "missing ELF header"))
    ∧ (52 ≤ fc.length → fc.take 4 ≠ ELFMAG →
        getElfType fc = error (str "not an ELF executable"))
    ∧ (52 ≤ fc.length → fc.take 4 = ELFMAG → fc[EI_VERSION]? ≠ some EV_CURRENT →
        getElfType fc = error (str "unsupported ELF version"))
    ∧ (52 ≤ fc.length → fc.take 4 = ELFMAG → fc[EI_VERSION]? = some EV_CURRENT →
        fc[EI_CLASS]? ≠ some ELFCLASS32 → fc[EI_CLASS]? ≠ some ELFCLASS64 →
        getElfType fc = error (str "ELF executable is not 32 or 64 bit")) := by
  by_cases hlen : fc.length < 52
  · simp [getElfType, elf32, hlen, error]
  · have h52 : 52 ≤ fc.length := by omega
    have hm : readBytes fc 0 SELFMAG = .ok (fc.take 4) := by
      rw [readBytes_ok (by simp [SELFMAG]; omega)]; simp [SELFMAG]
    obtain ⟨v, hv2, hv⟩ := readByte_of_lt fc EI_VERSION (by simp [EI_VERSION]; omega)
    obtain ⟨k, hc2, hc⟩ := readByte_of_lt fc EI_CLASS (by simp [EI_CLASS]; omega)
    have hmach : ∀ b, ∃ m, rdField fc hostLittleEndian 0 (layoutOf b).e_machine = .ok m := by
      intro b
      refine ⟨_, rdField_ok ?_⟩
      cases b <;> simp [layoutOf, elf32, elf64] <;> omega
    by_cases h1 : fc.take 4 = ELFMAG
    · by_cases h2 : v = EV_CURRENT
      · by_cases h3 : k = ELFCLASS32
        · obtain ⟨m, hm'⟩ := hmach true
          simp [getElfType, elf32, hlen, h52, hm, hv, hc, hv2, hc2, h1, h2, h3, error, bind,
            Except.bind, hm', pure, Except.pure]
        · by_cases h4 : k = ELFCLASS64
          · obtain ⟨m, hm'⟩ := hmach false
            have h64 : (ELFCLASS64 = ELFCLASS32) = False := by simp [ELFCLASS64, ELFCLASS32]
            simp [h64, getElfType, elf32, hlen, h52, hm, hv, hc, hv2, hc2, h1, h2, h3, h4, error,
              bind, Except.bind, hm', pure, Except.pure]
          · simp [getElfType, elf32, hlen, h52, hm, hv, hc, hv2, hc2, h1, h2, h3, h4, error,
              bind, Except.bind, pure, Except.pure]
      · simp [getElfType, elf32, hlen, h52, hm, hv, hc, hv2, hc2, h1, h2, error, bind,
          Except.bind, pure, Except.pure]
    · simp [getElfType, elf32, hlen, h52, hm, hv, hc, hv2, hc2, h1, error, bind,
        Except.bind, pure, Except.pure]

/-- C8: `getElfType` succeeds exactly when the buffer has at least 52 bytes,
starts with the ELF magic, has `EV_CURRENT` at `EI_VERSION` and `ELFCLASS32` or
`ELFCLASS64` at `EI_CLASS`; then `is32Bit` says whether the class is
`ELFCLASS32`.  Otherwise the error is that of the first failing check: too
short, bad magic (both `InvalidFormat`), version (`UnsupportedVersion`), class
(`UnsupportedClass`). -/
theorem getElfType_spec (fc : List Byte) :
    ((∃ t, getElfType fc = .ok t) ↔
      (52 ≤ fc.length ∧ fc.take 4 = ELFMAG ∧ fc[EI_VERSION]? = some EV_CURRENT
        ∧ (fc[EI_CLASS]? = some ELFCLASS32 ∨ fc[EI_CLASS]? = some ELFCLASS64)))
    ∧ (∀ t, getElfType fc = .ok t → (t.is32Bit = true ↔ fc[EI_CLASS]? = some ELFCLASS32))
    ∧ (fc.length < 52 → getElfType fc = error (str "missing ELF header"))
    ∧ (52 ≤ fc.length → fc.take 4 ≠ ELFMAG →
        getElfType fc = error (str "not an ELF executable"))
    ∧ (52 ≤ fc.length → fc.take 4 = ELFMAG → fc[EI_VERSION]? ≠ some EV_CURRENT →
        getElfType fc = error (str "unsupported ELF version"))
    ∧ (52 ≤ fc.length → fc.take 4 = ELFMAG → fc[EI_VERSION]? = some EV_CURRENT →
        fc[EI_CLASS]? ≠ some ELFCLASS32 → fc[EI_CLASS]? ≠ some ELFCLASS64 →
        getElfType fc = error (str "ELF executable is not 32 or 64 bit")) := by
  obtain ⟨hiff, hclass, hshort, hmagic, hversion, hcls⟩ := getElfType_outcome fc
  exact ⟨hiff, hclass, hshort, hmagic, hversion, hcls⟩

/-! ## The constructor -/

theorem rdField_hdr {fc : List Byte} {lay : Layout} (h : lay.ehdrSize ≤ fc.length) (le : Bool)
    (f : Field) (hf : f.off + f.size ≤ lay.ehdrSize) :
    rdField fc le 0 f = .ok (rdi le ((fc.drop f.off).take f.size)) := by
  rw [rdField_ok (by omega)]; simp

theorem ElfFile.new_eq (is32Bit : Bool) (fc : List Byte)
    (h : (layoutOf is32Bit).ehdrSize ≤ fc.length) :
    ElfFile.new (layoutOf is32Bit) fc =
      if fc.take 4 ≠ ELFMAG then error (str "not an ELF executable") else
      if hdrValue fc (layoutOf is32Bit).e_type ≠ ET_EXEC
          ∧ hdrValue fc (layoutOf is32Bit).e_type ≠ ET_DYN then
        error (str "wrong ELF type") else
      if tableEnd (8 * (layoutOf is32Bit).e_phoff.size) (hdrValue fc (layoutOf is32Bit).e_phoff)
          (hdrValue fc (layoutOf is32Bit).e_phnum) (hdrValue fc (layoutOf is32Bit).e_phentsize)
          > fc.length then
        error (str "program header table out of bounds") else
      if hdrValue fc (layoutOf is32Bit).e_shnum = 0 then error (str "no section headers. The input file is probably a statically linked, self-decompressing binary") else
      if tableEnd (8 * (layoutOf is32Bit).e_shoff.size) (hdrValue fc (layoutOf is32Bit).e_shoff)
          (hdrValue fc (layoutOf is32Bit).e_shnum) (hdrValue fc (layoutOf is32Bit).e_shentsize)
          > fc.length then
        error (str "section header table out of bounds") else
      if hdrValue fc (layoutOf is32Bit).e_phentsize ≠ (layoutOf is32Bit).phdrSize then
        error (str "program headers have wrong size") else
      ElfFile.load (layoutOf is32Bit) fc (declaredLE fc) (hdrValue fc (layoutOf is32Bit).e_phoff)
        (hdrValue fc (layoutOf is32Bit).e_phnum) (hdrValue fc (layoutOf is32Bit).e_shoff)
        (hdrValue fc (layoutOf is32Bit).e_shnum) := by
  have h52 : 52 ≤ fc.length := by
    cases is32Bit <;> simp [layoutOf, elf32, elf64] at h <;> omega
  have hm : readBytes fc 0 SELFMAG = .ok (fc.take 4) := by
    rw [readBytes_ok (by simp [SELFMAG]; omega)]; simp [SELFMAG]
  obtain ⟨d, hd2, hd⟩ := readByte_of_lt fc EI_DATA (by simp [EI_DATA]; omega)
  have hle : decide (d = ELFDATA2LSB) = declaredLE fc := by
    simp [declaredLE, hd2]
  have hf : ∀ f : Field, f.off + f.size ≤ (layoutOf is32Bit).ehdrSize →
      rdField fc (declaredLE fc) 0 f = .ok (hdrValue fc f) := fun f hf =>
    rdField_hdr h _ f hf
  have hlt : ¬ fc.length < (layoutOf is32Bit).ehdrSize := by omega
  simp only [ElfFile.new, hlt, if_false, hm, hd, hle, bind, Except.bind]
  rw [hf _ (by cases is32Bit <;> simp [layoutOf, elf32, elf64]),
    hf (layoutOf is32Bit).e_phoff (by cases is32Bit <;> simp [layoutOf, elf32, elf64]),
    hf (layoutOf is32Bit).e_phnum (by cases is32Bit <;> simp [layoutOf, elf32, elf64]),
    hf (layoutOf is32Bit).e_phentsize (by cases is32Bit <;> simp [layoutOf, elf32, elf64]),
    hf (layoutOf is32Bit).e_shnum (by cases is32Bit <;> simp [layoutOf, elf32, elf64]),
    hf (layoutOf is32Bit).e_shoff (by cases is32Bit <;> simp [layoutOf, elf32, elf64]),
    hf (layoutOf is32Bit).e_shentsize (by cases is32Bit <;> simp [layoutOf, elf32, elf64])]

theorem copyHeaders_length {fc : List Byte} {base entSize : Nat} :
    ∀ (count i : Nat) (hs : List (List Byte)),
      copyHeaders fc base entSize count i = .ok hs → hs.length = count := by
  intro count
  induction count with
  | zero => intro i hs h; simp [copyHeaders] at h; simp [← h]
  | succ count ih =>
    intro i hs h
    simp only [copyHeaders] at h
    split at h
    · cases h
    · cases hrec : copyHeaders fc base entSize count (i + 1) with
      | error e => simp [hrec, Except.map] at h
      | ok tl =>
        simp [hrec, Except.map] at h
        subst h
        simp [ih _ _ hrec]

theorem index_ok {α : Type} {l : List α} {i : Nat} {x : α} :
    index l i = .ok x ↔ l[i]? = some x := by
  unfold index
  cases l[i]? <;> simp

theorem nameSections_ok {lay : Layout} {le : Bool} {names : CString}
    {shdrs : List (List Byte)} :
    ∀ (count i : Nat) (tbl tbl2 : List CString),
      nameSections lay le names shdrs count i tbl = .ok tbl2 →
      tbl2.length = tbl.length ∧ (0 < count → i + count ≤ tbl.length)
      ∧ (∀ j, j < i → tbl2[j]? = tbl[j]?)
      ∧ (∀ j, i + count ≤ j → tbl2[j]? = tbl[j]?)
      ∧ ∀ j, i ≤ j → j < i + count → ∃ sh nm, shdrs[j]? = some sh
          ∧ sectionNameAt lay le names sh = .ok nm ∧ tbl2[j]? = some nm := by
  intro count
  induction count with
  | zero =>
    intro i tbl tbl2 h
    simp [nameSections] at h
    subst h
    refine ⟨rfl, by simp, fun _ _ => rfl, fun _ _ => rfl, ?_⟩
    intro j h1 h2; omega
  | succ count ih =>
    intro i tbl tbl2 h
    simp only [nameSections, bind, Except.bind] at h
    cases hsh : index shdrs i with
    | error e => simp [hsh] at h
    | ok sh =>
      simp only [hsh] at h
      cases hnm : sectionNameAt lay le names sh with
      | error e => simp [hnm] at h
      | ok nm =>
        simp only [hnm] at h
        by_cases hi : i < tbl.length
        · simp only [hi, if_true] at h
          obtain ⟨h1, h2, h3, h4, h5⟩ := ih _ _ _ h
          simp only [List.length_set] at h1 h2
          refine ⟨h1, fun _ => ?_, ?_, ?_, ?_⟩
          · by_cases hc : 0 < count
            · have := h2 hc; omega
            · omega
          · intro j hj
            rw [h3 j (by omega), List.getElem?_set_ne (by omega)]
          · intro j hj
            rw [h4 j (by omega), List.getElem?_set_ne (by omega)]
          · intro j hj1 hj2
            by_cases hji : j = i
            · subst hji
              refine ⟨sh, nm, index_ok.mp hsh, hnm, ?_⟩
              rw [h3 j (by omega), List.getElem?_set_self hi]
            · exact h5 j (by omega) (by omega)
        · simp [hi] at h


theorem readByte_ok {fc : List Byte} {i : Nat} {b : Byte} :
    readByte fc i = .ok b ↔ fc[i]? = some b := by
  unfold readByte
  cases fc[i]? <;> simp

theorem ElfFile.load_ok {lay : Layout} {fc : List Byte} {le : Bool}
    {phoff phnum shoff shnum : Nat} {v : ElfFile}
    (h : ElfFile.load lay fc le phoff phnum shoff shnum = .ok v) :
    ∃ idx sh raw,
      copyHeaders fc phoff lay.phdrSize phnum 0 = .ok v.phdrs
      ∧ copyHeaders fc shoff lay.shdrSize shnum 0 = .ok v.shdrs
      ∧ rdField fc le 0 lay.e_shstrndx = .ok idx ∧ idx < v.shdrs.length
      ∧ v.shdrs[idx]? = some sh
      ∧ rdMember le sh lay.sh_offset + toUInt (rdMember le sh lay.sh_size) ≤ fc.length
      ∧ 0 < toUInt (rdMember le sh lay.sh_size)
      ∧ fc[rdMember le sh lay.sh_offset + (toUInt (rdMember le sh lay.sh_size) - 1)]? = some 0
      ∧ v.sectionNames
          = (fc.drop (rdMember le sh lay.sh_offset)).take (toUInt (rdMember le sh lay.sh_size))
      ∧ rdField fc hostLittleEndian 0 lay.e_shnum = .ok raw
      ∧ nameSections lay le v.sectionNames v.shdrs (shnum - 1) 1 (List.replicate raw [])
          = .ok v.sectionsByOldIndex
      ∧ v.fileContents = fc ∧ v.littleEndian = le := by
  simp only [ElfFile.load, bind, Except.bind] at h
  cases hph : copyHeaders fc phoff lay.phdrSize phnum 0 with
  | error e => simp [hph] at h
  | ok phdrs =>
  simp only [hph] at h
  cases hsh : copyHeaders fc shoff lay.shdrSize shnum 0 with
  | error e => simp [hsh] at h
  | ok shdrs =>
  simp only [hsh] at h
  cases hidx : rdField fc le 0 lay.e_shstrndx with
  | error e => simp [hidx] at h
  | ok idx =>
  simp only [hidx] at h
  by_cases h1 : idx < shdrs.length
  swap
  · simp [h1] at h
  simp only [h1, not_true_eq_false, if_false] at h
  cases hhdr : index shdrs idx with
  | error e => simp [hhdr] at h
  | ok sh =>
  simp only [hhdr] at h
  by_cases h2 : rdMember le sh lay.sh_offset + toUInt (rdMember le sh lay.sh_size) ≤ fc.length
  swap
  · simp [checkPointer, h2] at h
  simp only [checkPointer, h2, if_true] at h
  by_cases h3 : toUInt (rdMember le sh lay.sh_size) > 0
  swap
  · simp [h3] at h
  simp only [h3, not_true_eq_false, if_false] at h
  cases hlast : readByte fc
      (rdMember le sh lay.sh_offset + (toUInt (rdMember le sh lay.sh_size) - 1)) with
  | error e => simp [hlast] at h
  | ok last =>
  simp only [hlast] at h
  by_cases h4 : last = 0
  swap
  · simp [h4] at h
  simp only [h4, ne_eq, not_true_eq_false, if_false, readBytes_ok h2] at h
  cases hraw : rdField fc hostLittleEndian 0 lay.e_shnum with
  | error e => simp [hraw] at h
  | ok raw =>
  simp only [hraw] at h
  cases hnames : nameSections lay le
      ((fc.drop (rdMember le sh lay.sh_offset)).take (toUInt (rdMember le sh lay.sh_size)))
      shdrs (shnum - 1) 1 (List.replicate raw []) with
  | error e => simp [hnames] at h
  | ok tbl =>
  simp only [hnames, pure, Except.pure, Except.ok.injEq] at h
  subst h
  subst h4
  exact ⟨idx, sh, raw, rfl, rfl, rfl, h1, index_ok.mp hhdr, h2, h3, readByte_ok.mp hlast, rfl,
    rfl, hnames, rfl, rfl⟩

theorem ElfFile.new_ok {is32Bit : Bool} {fc : List Byte} {v : ElfFile}
    (h : ElfFile.new (layoutOf is32Bit) fc = .ok v) :
    (layoutOf is32Bit).ehdrSize ≤ fc.length ∧ fc.take 4 = ELFMAG
    ∧ (hdrValue fc (layoutOf is32Bit).e_type = ET_EXEC
        ∨ hdrValue fc (layoutOf is32Bit).e_type = ET_DYN)
    ∧ tableEnd (8 * (layoutOf is32Bit).e_phoff.size) (hdrValue fc (layoutOf is32Bit).e_phoff)
        (hdrValue fc (layoutOf is32Bit).e_phnum) (hdrValue fc (layoutOf is32Bit).e_phentsize)
        ≤ fc.length
    ∧ hdrValue fc (layoutOf is32Bit).e_shnum ≠ 0
    ∧ tableEnd (8 * (layoutOf is32Bit).e_shoff.size) (hdrValue fc (layoutOf is32Bit).e_shoff)
        (hdrValue fc (layoutOf is32Bit).e_shnum) (hdrValue fc (layoutOf is32Bit).e_shentsize)
        ≤ fc.length
    ∧ hdrValue fc (layoutOf is32Bit).e_phentsize = (layoutOf is32Bit).phdrSize
    ∧ ElfFile.load (layoutOf is32Bit) fc (declaredLE fc) (hdrValue fc (layoutOf is32Bit).e_phoff)
        (hdrValue fc (layoutOf is32Bit).e_phnum) (hdrValue fc (layoutOf is32Bit).e_shoff)
        (hdrValue fc (layoutOf is32Bit).e_shnum) = .ok v := by
  have hsz : (layoutOf is32Bit).ehdrSize ≤ fc.length := by
    by_contra hlt
    have hlt2 : fc.length < (layoutOf is32Bit).ehdrSize := by omega
    simp [ElfFile.new, hlt2, error] at h
  rw [ElfFile.new_eq is32Bit fc hsz] at h
  refine ⟨hsz, ?_⟩
  split at h
  · cases h
  rename_i h1
  split at h
  · cases h
  rename_i h2
  split at h
  · cases h
  rename_i h3
  split at h
  · cases h
  rename_i h4
  split at h
  · cases h
  rename_i h5
  split at h
  · cases h
  rename_i h6
  refine ⟨by simpa using h1, ?_, by omega, h4, by omega, by simpa using h6, h⟩
  by_contra hc
  exact h2 ⟨fun a => hc (Or.inl a), fun a => hc (Or.inr a)⟩

/-- What a successful construction says about the sections: the view keeps the
image and its byte order, holds `e_shnum` section headers, and every section
from index 1 on has a name. -/
theorem ElfFile.new_sections {is32Bit : Bool} {fc : List Byte} {v : ElfFile}
    (h : ElfFile.new (layoutOf is32Bit) fc = .ok v) :
    v.fileContents = fc ∧ v.littleEndian = declaredLE fc
    ∧ v.shdrs.length = hdrValue fc (layoutOf is32Bit).e_shnum
    ∧ rdField v.fileContents v.littleEndian 0 (layoutOf is32Bit).e_shnum
        = .ok (hdrValue fc (layoutOf is32Bit).e_shnum)
    ∧ ∀ i, 1 ≤ i → i < hdrValue fc (layoutOf is32Bit).e_shnum →
        ∃ name, v.nameOfSection (layoutOf is32Bit) i = some name := by
  obtain ⟨hsz, -, -, -, hnum, -, -, hload⟩ := ElfFile.new_ok h
  obtain ⟨idx, sh, raw, -, hsh, -, -, -, -, -, -, -, -, hnames, hfc, hle⟩ :=
    ElfFile.load_ok hload
  have hlen := copyHeaders_length _ _ _ hsh
  refine ⟨hfc, hle, hlen, ?_, ?_⟩
  · rw [hfc, hle]
    exact rdField_hdr hsz _ _ (by cases is32Bit <;> simp [layoutOf, elf32, elf64])
  · intro i h1 h2
    obtain ⟨-, -, -, -, h5⟩ := nameSections_ok _ _ _ _ hnames
    obtain ⟨sh, nm, hs, hn, -⟩ := h5 i h1 (by omega)
    refine ⟨nm, ?_⟩
    simp [ElfFile.nameOfSection, hs, ElfFile.getSectionName, hle, hn]

/-! ## Section lookup -/

theorem ElfFile.findSection3Loop_spec (lay : Layout) (v : ElfFile) (name : CString) :
    ∀ (count i : Nat),
      (∀ j, i ≤ j → j < i + count → ∃ nm, v.nameOfSection lay j = some nm) →
      (v.findSection3Loop lay name count i = .ok 0
          ∧ ∀ j, i ≤ j → j < i + count → v.nameOfSection lay j ≠ some name)
      ∨ ∃ r, v.findSection3Loop lay name count i = .ok r ∧ i ≤ r ∧ r < i + count
          ∧ v.nameOfSection lay r = some name
          ∧ ∀ j, i ≤ j → j < r → v.nameOfSection lay j ≠ some name := by
  intro count
  induction count with
  | zero =>
    intro i _
    left
    exact ⟨rfl, fun j h1 h2 => by omega⟩
  | succ count ih =>
    intro i hall
    obtain ⟨nm, hnm⟩ := hall i (Nat.le_refl _) (by omega)
    have hidx : ∃ sh, v.shdrs[i]? = some sh ∧ v.getSectionName lay sh = .ok nm := by
      unfold ElfFile.nameOfSection at hnm
      cases hs : v.shdrs[i]? with
      | none => simp [hs] at hnm
      | some sh =>
        simp only [hs] at hnm
        cases hg : v.getSectionName lay sh with
        | error e => simp [hg] at hnm
        | ok n => simp [hg] at hnm; exact ⟨sh, rfl, by rw [hg, hnm]⟩
    obtain ⟨sh, hs, hg⟩ := hidx
    have hstep : v.findSection3Loop lay name (count + 1) i
        = if nm = name then .ok i else v.findSection3Loop lay name count (i + 1) := by
      simp [ElfFile.findSection3Loop, index_ok.mpr hs, hg, bind, Except.bind, pure, Except.pure]
    by_cases heq : nm = name
    · right
      refine ⟨i, by simp [hstep, heq], Nat.le_refl _, by omega, by rw [hnm, heq], ?_⟩
      intro j h1 h2; omega
    · rcases ih (i + 1) (fun j h1 h2 => hall j (by omega) (by omega)) with ⟨h0, hno⟩ | ⟨r, hr, h1, h2, h3, h4⟩
      · left
        refine ⟨by simp [hstep, heq, h0], ?_⟩
        intro j h1 h2
        by_cases hji : j = i
        · subst hji; rw [hnm]; simpa using heq
        · exact hno j (by omega) (by omega)
      · right
        refine ⟨r, by simp [hstep, heq, hr], by omega, by omega, h3, ?_⟩
        intro j hj1 hj2
        by_cases hji : j = i
        · subst hji; rw [hnm]; simpa using heq
        · exact h4 j (by omega) hj2


theorem ElfFile.findSection_cases {is32Bit : Bool} {fc : List Byte} {v : ElfFile}
    (h : ElfFile.new (layoutOf is32Bit) fc = .ok v) (name : CString) :
    (∃ i sh, 1 ≤ i ∧ i < hdrValue fc (layoutOf is32Bit).e_shnum ∧ v.shdrs[i]? = some sh
        ∧ v.nameOfSection (layoutOf is32Bit) i = some name
        ∧ (∀ j, 1 ≤ j → j < i → v.nameOfSection (layoutOf is32Bit) j ≠ some name)
        ∧ v.findSection (layoutOf is32Bit) name = .ok sh)
    ∨ ((∀ j, 1 ≤ j → j < hdrValue fc (layoutOf is32Bit).e_shnum →
          v.nameOfSection (layoutOf is32Bit) j ≠ some name)
        ∧ v.findSection (layoutOf is32Bit) name
          = error (str "cannot find section '" ++ name ++ str "'"
              ++ if name = str ".interp" ∨ name = str ".dynamic" ∨ name = str ".dynstr" then
                  str ". The input file is most likely statically linked"
                else str "")) := by
  obtain ⟨-, -, hlen, hrd, hnames⟩ := ElfFile.new_sections h
  obtain ⟨-, -, -, -, hnum, -, -, -⟩ := ElfFile.new_ok h
  have h3 : v.findSection3 (layoutOf is32Bit) name
      = v.findSection3Loop (layoutOf is32Bit) name
          (hdrValue fc (layoutOf is32Bit).e_shnum - 1) 1 := by
    simp [ElfFile.findSection3, hrd, bind, Except.bind]
  rcases ElfFile.findSection3Loop_spec (layoutOf is32Bit) v name
      (hdrValue fc (layoutOf is32Bit).e_shnum - 1) 1
      (fun j h1 h2 => hnames j h1 (by omega)) with ⟨h0, hno⟩ | ⟨r, hr, h1, h2, hm, hfirst⟩
  · right
    refine ⟨fun j h1 h2 => hno j h1 (by omega), ?_⟩
    simp [ElfFile.findSection, ElfFile.findSection2, h3, h0, bind, Except.bind, pure,
      Except.pure]
  · left
    have hr0 : r ≠ 0 := by omega
    have hsh : ∃ sh, v.shdrs[r]? = some sh := by
      unfold ElfFile.nameOfSection at hm
      cases hs : v.shdrs[r]? with
      | none => simp [hs] at hm
      | some sh => exact ⟨sh, rfl⟩
    obtain ⟨sh, hs⟩ := hsh
    refine ⟨r, sh, h1, by omega, hs, hm, hfirst, ?_⟩
    simp [ElfFile.findSection, ElfFile.findSection2, h3, hr, hr0, index_ok.mpr hs, bind,
      Except.bind, pure, Except.pure]

/-- C7: on a constructed view `findSection name` succeeds exactly when some
section `i` with `1 ≤ i < e_shnum` has the name `name`; it then returns the
copied header of the least such section, and otherwise throws the
"cannot find section" error.  Section 0 does not take part. -/
theorem findSection_spec (is32Bit : Bool) (fc : List Byte) (v : ElfFile) (name : CString)
    (h : ElfFile.new (layoutOf is32Bit) fc = .ok v) :
    ((∃ shdr, v.findSection (layoutOf is32Bit) name = .ok shdr) ↔
      ∃ i, 1 ≤ i ∧ i < hdrValue fc (layoutOf is32Bit).e_shnum
        ∧ v.nameOfSection (layoutOf is32Bit) i = some name)
    ∧ (∀ shdr, v.findSection (layoutOf is32Bit) name = .ok shdr →
        ∃ i, 1 ≤ i ∧ i < hdrValue fc (layoutOf is32Bit).e_shnum ∧ v.shdrs[i]? = some shdr
          ∧ v.nameOfSection (layoutOf is32Bit) i = some name
          ∧ ∀ j, 1 ≤ j → j < i → v.nameOfSection (layoutOf is32Bit) j ≠ some name)
    ∧ ((¬ ∃ i, 1 ≤ i ∧ i < hdrValue fc (layoutOf is32Bit).e_shnum
          ∧ v.nameOfSection (layoutOf is32Bit) i = some name) →
        ∃ what, v.findSection (layoutOf is32Bit) name = error what
          ∧ str "cannot find section '" ++ name ++ str "'" <+: what) := by
  rcases ElfFile.findSection_cases h name with ⟨i, sh, h1, h2, hs, hm, hfirst, hf⟩ | ⟨hno, hf⟩
  · refine ⟨⟨fun _ => ⟨i, h1, h2, hm⟩, fun _ => ⟨sh, hf⟩⟩, ?_, ?_⟩
    · intro shdr hshdr
      rw [hf] at hshdr
      cases hshdr
      exact ⟨i, h1, h2, hs, hm, hfirst⟩
    · intro hnone
      exact absurd ⟨i, h1, h2, hm⟩ hnone
  · refine ⟨⟨?_, ?_⟩, ?_, ?_⟩
    · rintro ⟨shdr, hshdr⟩
      rw [hf] at hshdr
      cases hshdr
    · rintro ⟨i, h1, h2, hm⟩
      exact absurd hm (hno i h1 h2)
    · intro shdr hshdr
      rw [hf] at hshdr
      cases hshdr
    · intro _
      exact ⟨_, hf, List.prefix_append _ _⟩

/-- C5: a buffer that is large enough for the header of its class, starts with
the ELF magic, has `e_type` `ET_EXEC` or `ET_DYN`, passes the program header
table check and has `e_shnum = 0` is rejected with the "no section headers"
error (`MissingSections`), whatever its other header members are. -/
theorem new_no_sections (is32Bit : Bool) (fc : List Byte)
    (hsize : (layoutOf is32Bit).ehdrSize ≤ fc.length) (hmagic : fc.take 4 = ELFMAG)
    (htype : hdrValue fc (layoutOf is32Bit).e_type = ET_EXEC
      ∨ hdrValue fc (layoutOf is32Bit).e_type = ET_DYN)
    (hph : tableEnd (8 * (layoutOf is32Bit).e_phoff.size)
      (hdrValue fc (layoutOf is32Bit).e_phoff) (hdrValue fc (layoutOf is32Bit).e_phnum)
      (hdrValue fc (layoutOf is32Bit).e_phentsize) ≤ fc.length)
    (hshnum : hdrValue fc (layoutOf is32Bit).e_shnum = 0) :
    ElfFile.new (layoutOf is32Bit) fc
      = error (str "no section headers. The input file is probably a statically linked, self-decompressing binary") := by
  rw [ElfFile.new_eq is32Bit fc hsize]
  have h2 : ¬ (hdrValue fc (layoutOf is32Bit).e_type ≠ ET_EXEC
      ∧ hdrValue fc (layoutOf is32Bit).e_type ≠ ET_DYN) := by
    rintro ⟨a, b⟩
    rcases htype with h | h
    · exact a h
    · exact b h
  simp only [hmagic, ne_eq, not_true_eq_false, if_false, h2, hshnum, if_true, gt_iff_lt,
    Nat.not_lt.mpr hph]

theorem new_no_sections_witness :
    hdrValue (mkEhdr false true ET_DYN 0 0) (layoutOf false).e_shnum = 0
    ∧ ElfFile.new (layoutOf false) (mkEhdr false true ET_DYN 0 0)
      = error (str "no section headers. The input file is probably a statically linked, self-decompressing binary") :=
  ⟨by decide, new_no_sections false (mkEhdr false true ET_DYN 0 0) (by decide) (by decide)
    (by decide) (by decide) (by decide)⟩

/-! ## Missing sections and the empty result -/

/-- C6: on a constructed view with no section named `.dynamic` from index 1 on,
`dlneeds` throws "cannot find section '.dynamic'" with the static-linking hint;
with `.dynamic` present and `.dynstr` missing it throws the same for `.dynstr`;
and `findSection` of any missing name throws "cannot find section '<name>'",
followed by the hint exactly for `.interp`, `.dynamic` and `.dynstr`. -/
theorem dlneeds_section_not_found (is32Bit : Bool) (fc : List Byte) (v : ElfFile)
    (h : ElfFile.new (layoutOf is32Bit) fc = .ok v) :
    ((∀ i, 1 ≤ i → i < hdrValue fc (layoutOf is32Bit).e_shnum →
          v.nameOfSection (layoutOf is32Bit) i ≠ some (str ".dynamic")) →
        v.dlneeds (layoutOf is32Bit) = error
          (str "cannot find section '.dynamic'. The input file is most likely statically linked"))
    ∧ ((∃ i, 1 ≤ i ∧ i < hdrValue fc (layoutOf is32Bit).e_shnum
          ∧ v.nameOfSection (layoutOf is32Bit) i = some (str ".dynamic")) →
        (∀ i, 1 ≤ i → i < hdrValue fc (layoutOf is32Bit).e_shnum →
          v.nameOfSection (layoutOf is32Bit) i ≠ some (str ".dynstr")) →
        v.dlneeds (layoutOf is32Bit) = error
          (str "cannot find section '.dynstr'. The input file is most likely statically linked"))
    ∧ ∀ name : CString,
        (∀ i, 1 ≤ i → i < hdrValue fc (layoutOf is32Bit).e_shnum →
          v.nameOfSection (layoutOf is32Bit) i ≠ some name) →
        v.findSection (layoutOf is32Bit) name
          = error (str "cannot find section '" ++ name ++ str "'"
              ++ if name = str ".interp" ∨ name = str ".dynamic" ∨ name = str ".dynstr" then
                  str ". The input file is most likely statically linked"
                else str "") := by
  have hmiss : ∀ name : CString,
      (∀ i, 1 ≤ i → i < hdrValue fc (layoutOf is32Bit).e_shnum →
        v.nameOfSection (layoutOf is32Bit) i ≠ some name) →
      v.findSection (layoutOf is32Bit) name
        = error (str "cannot find section '" ++ name ++ str "'"
            ++ if name = str ".interp" ∨ name = str ".dynamic" ∨ name = str ".dynstr" then
                str ". The input file is most likely statically linked"
              else str "") := by
    intro name hno
    rcases ElfFile.findSection_cases h name with ⟨i, sh, h1, h2, -, hm, -, -⟩ | ⟨-, hf⟩
    · exact absurd hm (hno i h1 h2)
    · exact hf
  refine ⟨?_, ?_, hmiss⟩
  · intro hno
    have hf := hmiss _ hno
    have hmsg : (str "cannot find section '" ++ str ".dynamic" ++ str "'"
        ++ if str ".dynamic" = str ".interp" ∨ str ".dynamic" = str ".dynamic"
            ∨ str ".dynamic" = str ".dynstr" then
            str ". The input file is most likely statically linked"
          else str "")
        = str "cannot find section '.dynamic'. The input file is most likely statically linked" := by
      decide
    rw [hmsg] at hf
    simp [ElfFile.dlneeds, hf, bind, Except.bind, error]
  · rintro ⟨i, h1, h2, hm⟩ hno
    have hf := hmiss _ hno
    have hmsg : (str "cannot find section '" ++ str ".dynstr" ++ str "'"
        ++ if str ".dynstr" = str ".interp" ∨ str ".dynstr" = str ".dynamic"
            ∨ str ".dynstr" = str ".dynstr" then
            str ". The input file is most likely statically linked"
          else str "")
        = str "cannot find section '.dynstr'. The input file is most likely statically linked" := by
      decide
    rw [hmsg] at hf
    rcases ElfFile.findSection_cases h (str ".dynamic") with ⟨j, sh, -, -, -, -, -, hd⟩ | ⟨hnod, -⟩
    · simp [ElfFile.dlneeds, hd, hf, bind, Except.bind, error]
    · exact absurd hm (hnod i h1 h2)

set_option maxRecDepth 100000 in
theorem dlneeds_section_not_found_witness :
    ElfFile.new (layoutOf true) (staticImage true true)
        = .ok (viewOf (layoutOf true) (staticImage true true))
    ∧ ((∀ i, 1 ≤ i → i < hdrValue (staticImage true true) (layoutOf true).e_shnum →
          (viewOf (layoutOf true) (staticImage true true)).nameOfSection (layoutOf true) i
            ≠ some (str ".dynamic")) →
        (viewOf (layoutOf true) (staticImage true true)).dlneeds (layoutOf true) = error
          (str "cannot find section '.dynamic'. The input file is most likely statically linked")) :=
  ⟨by decide, (dlneeds_section_not_found true (staticImage true true)
    (viewOf (layoutOf true) (staticImage true true)) (by decide)).1⟩

set_option maxRecDepth 100000 in
theorem findSection_spec_witness :
    ElfFile.new (layoutOf false) libcImage = .ok (viewOf (layoutOf false) libcImage)
    ∧ ((∃ shdr, (viewOf (layoutOf false) libcImage).findSection (layoutOf false) (str ".dynstr")
          = .ok shdr) ↔
        ∃ i, 1 ≤ i ∧ i < hdrValue libcImage (layoutOf false).e_shnum
          ∧ (viewOf (layoutOf false) libcImage).nameOfSection (layoutOf false) i
            = some (str ".dynstr")) :=
  ⟨by decide, (findSection_spec false libcImage (viewOf (layoutOf false) libcImage)
    (str ".dynstr") (by decide)).1⟩

/-- C10: on a constructed view with a `.dynamic` and a `.dynstr` section whose
first dynamic entry has the tag `DT_NULL`, `dlneeds` returns the array that
holds only the null terminator: the empty list, not an error. -/
theorem dlneeds_empty (is32Bit : Bool) (fc : List Byte) (v : ElfFile)
    (shdrDynamic shdrDynStr : List Byte)
    (h : ElfFile.new (layoutOf is32Bit) fc = .ok v)
    (hdynamic : v.findSection (layoutOf is32Bit) (str ".dynamic") = .ok shdrDynamic)
    (hdynstr : v.findSection (layoutOf is32Bit) (str ".dynstr") = .ok shdrDynStr)
    (hnull : rdField fc (declaredLE fc)
      (rdMember (declaredLE fc) shdrDynamic (layoutOf is32Bit).sh_offset)
      (layoutOf is32Bit).d_tag = .ok DT_NULL) :
    v.dlneeds (layoutOf is32Bit) = .ok [none] ∧ libs [none] = [] := by
  obtain ⟨hfc, hle, -, -, -⟩ := ElfFile.new_sections h
  refine ⟨?_, by decide⟩
  simp [ElfFile.dlneeds, hdynamic, hdynstr, bind, Except.bind, hfc, hle, countNeeded, hnull,
    fillNeeded, pure, Except.pure, List.replicate]

set_option maxRecDepth 100000 in
theorem dlneeds_empty_witness :
    ElfFile.new (layoutOf false) (mkImage false true [] [0])
        = .ok (viewOf (layoutOf false) (mkImage false true [] [0]))
    ∧ (viewOf (layoutOf false) (mkImage false true [] [0])).dlneeds (layoutOf false)
        = .ok [none] :=
  ⟨by decide, (dlneeds_empty false (mkImage false true [] [0])
    (viewOf (layoutOf false) (mkImage false true [] [0]))
    ((viewOf (layoutOf false) (mkImage false true [] [0])).shdrs.getD 1 [])
    ((viewOf (layoutOf false) (mkImage false true [] [0])).shdrs.getD 2 [])
    (by decide) (by decide) (by decide) (by decide)).1⟩

/-! ## `dlneeds` -/

theorem rdField_bound {fc : List Byte} {le : Bool} {base x : Nat} {f : Field}
    (h : rdField fc le base f = .ok x) : base + f.off + f.size ≤ fc.length := by
  unfold rdField readBytes at h
  by_contra hc
  simp [hc, Except.map] at h

theorem holdsEntries_bound {lay : Layout} {fc : List Byte} {le : Bool} :
    ∀ (es : List (Nat × Nat)) (d : Nat), holdsEntries lay fc le d es →
      d + es.length * lay.dynSize ≤ fc.length := by
  intro es
  induction es with
  | nil =>
    intro d h
    have := rdField_bound h
    simp; omega
  | cons e es ih =>
    intro d h
    have := ih _ h.2.2.2
    simp only [List.length_cons, Nat.add_mul, Nat.one_mul]
    omega

theorem countNeeded_entries {lay : Layout} {fc : List Byte} {le : Bool} :
    ∀ (es : List (Nat × Nat)) (fuel d n : Nat), holdsEntries lay fc le d es →
      es.length < fuel →
      countNeeded lay fc le fuel d n
        = .ok (n + (es.filter fun e => e.1 = DT_NEEDED).length) := by
  intro es
  induction es with
  | nil =>
    intro fuel d n h hf
    obtain ⟨fuel, rfl⟩ : ∃ k, fuel = k + 1 := ⟨fuel - 1, by simp at hf; omega⟩
    simp only [holdsEntries] at h
    simp [countNeeded, h, bind, Except.bind, pure, Except.pure]
  | cons e es ih =>
    intro fuel d n h hf
    obtain ⟨fuel, rfl⟩ : ∃ k, fuel = k + 1 := ⟨fuel - 1, by simp at hf; omega⟩
    obtain ⟨h0, ht, -, hrest⟩ := h
    simp only [List.length_cons] at hf
    simp only [countNeeded, ht, bind, Except.bind, ne_eq, h0, not_false_eq_true, if_true]
    rw [ih fuel _ _ hrest (by omega)]
    by_cases h1 : e.1 = DT_NEEDED
    · simp [h1, List.filter_cons]; omega
    · simp [h1, List.filter_cons]

theorem fillNeeded_entries {lay : Layout} {fc : List Byte} {le : Bool} (strTab : Nat) :
    ∀ (es : List (Nat × Nat)) (fuel d m : Nat) (done : List (Option CString)),
      holdsEntries lay fc le d es → es.length < fuel →
      (es.filter fun e => e.1 = DT_NEEDED).length ≤ m →
      fillNeeded lay fc le strTab fuel d (done ++ List.replicate (m + 1) none) done.length
        = (neededStrings fc strTab es).map fun names =>
            done ++ names.map some ++ List.replicate (m + 1 - names.length) none := by
  intro es
  induction es with
  | nil =>
    intro fuel d m done h hf _
    obtain ⟨fuel, rfl⟩ : ∃ k, fuel = k + 1 := ⟨fuel - 1, by simp at hf; omega⟩
    simp only [holdsEntries] at h
    simp [fillNeeded, h, bind, Except.bind, pure, Except.pure, neededStrings, allOk, Except.map]
  | cons e es ih =>
    intro fuel d m done h hf hm
    obtain ⟨fuel, rfl⟩ : ∃ k, fuel = k + 1 := ⟨fuel - 1, by simp at hf; omega⟩
    obtain ⟨h0, ht, hval, hrest⟩ := h
    simp only [List.length_cons] at hf
    simp only [fillNeeded, ht, bind, Except.bind, ne_eq, h0, not_false_eq_true, if_true]
    by_cases h1 : e.1 = DT_NEEDED
    · simp only [h1, if_true, hval]
      have hm1 : ∃ m1, m = m1 + 1 := by
        simp [List.filter_cons, h1] at hm
        exact ⟨m - 1, by omega⟩
      obtain ⟨m1, rfl⟩ := hm1
      have hm2 : (es.filter fun e => e.1 = DT_NEEDED).length ≤ m1 := by
        simp [List.filter_cons, h1] at hm
        exact hm
      cases hs : cstrAt fc (ptrAdd strTab e.2) with
      | error err =>
        simp [neededStrings, List.filter_cons, h1, hs, allOk, Except.map]
      | ok s =>
        have hlt : done.length < (done ++ List.replicate (m1 + 1 + 1) none).length := by
          simp
        have hset : (done ++ List.replicate (m1 + 1 + 1) (none : Option CString)).set
            done.length (some s) = (done ++ [some s]) ++ List.replicate (m1 + 1) none := by
          rw [List.set_append_right _ _ (Nat.le_refl _)]
          simp [List.replicate_succ]
        simp only [hlt, if_true, hset]
        have := ih fuel (d + lay.dynSize) m1 (done ++ [some s]) hrest (by omega) hm2
        simp only [List.length_append, List.length_singleton] at this
        rw [this]
        simp only [neededStrings, List.filter_cons, h1, decide_True, if_true, List.map_cons, hs,
          allOk]
        cases allOk (List.map (fun e => cstrAt fc (ptrAdd strTab e.2))
            (List.filter (fun e => decide (e.1 = DT_NEEDED)) es)) with
        | error err => simp [Except.map]
        | ok names =>
          simp only [Except.map, List.map_cons, List.length_cons, Except.ok.injEq]
          have : m1 + 1 + 1 - (names.length + 1) = m1 + 1 - names.length := by omega
          rw [this]
          simp
    · simp only [h1, if_false]
      have hm2 : (es.filter fun e => e.1 = DT_NEEDED).length ≤ m := by
        simpa [List.filter_cons, h1] using hm
      rw [ih fuel _ m done hrest (by omega) hm2]
      simp [neededStrings, List.filter_cons, h1]

theorem allOk_length {α : Type} : ∀ (l : List (Except Err α)) (r : List α),
    allOk l = .ok r → r.length = l.length := by
  intro l
  induction l with
  | nil => intro r h; simp [allOk] at h; simp [← h]
  | cons x l ih =>
    intro r h
    cases x with
    | error e => simp [allOk] at h
    | ok a =>
      simp only [allOk] at h
      cases hr : allOk l with
      | error e => simp [hr] at h
      | ok as =>
        simp [hr] at h
        subst h
        simp [ih _ hr]

theorem libs_toArray (names : List CString) : libs (toArray names) = names := by
  unfold libs toArray
  induction names with
  | nil => simp [List.takeWhile]
  | cons n ns ih =>
    simp only [List.map_cons, List.cons_append, List.takeWhile_cons, Option.isSome_some,
      if_true, List.filterMap_cons, id_eq]
    rw [ih]


/-- Where the sums do not reach `2 ^ sizeBits`, the strings the second loop
reads are those at the offset of `.dynstr` plus the value. -/
theorem neededStrings_eq_neededNames (fc : List Byte) (strTab : Nat) (es : List (Nat × Nat))
    (hrange : ∀ e ∈ es, e.1 = DT_NEEDED → strTab + e.2 < 2 ^ sizeBits) :
    neededStrings fc strTab es = neededNames fc strTab es := by
  unfold neededStrings neededNames
  refine congrArg allOk (List.map_congr_left fun e he => ?_)
  have hmem := List.mem_filter.mp he
  have h1 : e.1 = DT_NEEDED := by simpa using hmem.2
  have := hrange e hmem.1 h1
  rw [ptrAdd, toSizeT, Nat.mod_eq_of_lt this]

theorem neededStrings_length {fc : List Byte} {strTab : Nat} {es : List (Nat × Nat)}
    {names : List CString} (hn : neededStrings fc strTab es = .ok names) :
    names.length = (es.filter fun e => e.1 = DT_NEEDED).length := by
  have := allOk_length _ _ hn
  simpa using this

/-- The two loops of `dlneeds` on any view whose bytes at the offset of
`.dynamic` hold `es`: the count handed from the first to the second, and the
result. -/
theorem ElfFile.dlneeds_walk {is32Bit : Bool} {v : ElfFile}
    {shdrDynamic shdrDynStr : List Byte} {es : List (Nat × Nat)}
    (hdynamic : v.findSection (layoutOf is32Bit) (str ".dynamic") = .ok shdrDynamic)
    (hdynstr : v.findSection (layoutOf is32Bit) (str ".dynstr") = .ok shdrDynStr)
    (hes : holdsEntries (layoutOf is32Bit) v.fileContents v.littleEndian
      (rdMember v.littleEndian shdrDynamic (layoutOf is32Bit).sh_offset) es) :
    countNeeded (layoutOf is32Bit) v.fileContents v.littleEndian (v.fileContents.length + 1)
        (rdMember v.littleEndian shdrDynamic (layoutOf is32Bit).sh_offset) 0
      = .ok (es.filter fun e => e.1 = DT_NEEDED).length
    ∧ v.dlneeds (layoutOf is32Bit)
      = fillNeeded (layoutOf is32Bit) v.fileContents v.littleEndian
          (rdMember v.littleEndian shdrDynStr (layoutOf is32Bit).sh_offset)
          (v.fileContents.length + 1)
          (rdMember v.littleEndian shdrDynamic (layoutOf is32Bit).sh_offset)
          (List.replicate ((es.filter fun e => e.1 = DT_NEEDED).length + 1) none) 0
    ∧ v.dlneeds (layoutOf is32Bit)
      = (neededStrings v.fileContents
          (rdMember v.littleEndian shdrDynStr (layoutOf is32Bit).sh_offset) es).map toArray := by
  have hpos : 0 < (layoutOf is32Bit).dynSize := by cases is32Bit <;> decide
  have hb := holdsEntries_bound es _ hes
  have hlen : es.length < v.fileContents.length + 1 := by
    have : es.length ≤ es.length * (layoutOf is32Bit).dynSize := Nat.le_mul_of_pos_right _ hpos
    omega
  have hcount := countNeeded_entries es _ _ 0 hes hlen
  simp only [Nat.zero_add] at hcount
  have hdl : v.dlneeds (layoutOf is32Bit)
      = fillNeeded (layoutOf is32Bit) v.fileContents v.littleEndian
          (rdMember v.littleEndian shdrDynStr (layoutOf is32Bit).sh_offset)
          (v.fileContents.length + 1)
          (rdMember v.littleEndian shdrDynamic (layoutOf is32Bit).sh_offset)
          (List.replicate ((es.filter fun e => e.1 = DT_NEEDED).length + 1) none) 0 := by
    simp only [ElfFile.dlneeds, hdynamic, hdynstr, bind, Except.bind, hcount]
  refine ⟨hcount, hdl, ?_⟩
  rw [hdl]
  have := fillNeeded_entries (rdMember v.littleEndian shdrDynStr
    (layoutOf is32Bit).sh_offset) es (v.fileContents.length + 1) _
    (es.filter fun e => e.1 = DT_NEEDED).length [] hes hlen (Nat.le_refl _)
  simp only [List.nil_append, List.length_nil] at this
  rw [this]
  cases hn : neededStrings v.fileContents
    (rdMember v.littleEndian shdrDynStr (layoutOf is32Bit).sh_offset) es with
  | error e => rfl
  | ok names => simp [Except.map, toArray, neededStrings_length hn]

/-- The result of `dlneeds` on a constructed view whose `.dynamic` section holds
`es`. -/
theorem ElfFile.dlneeds_eq {is32Bit : Bool} {fc : List Byte} {v : ElfFile}
    {shdrDynamic shdrDynStr : List Byte} {es : List (Nat × Nat)}
    (h : ElfFile.new (layoutOf is32Bit) fc = .ok v)
    (hdynamic : v.findSection (layoutOf is32Bit) (str ".dynamic") = .ok shdrDynamic)
    (hdynstr : v.findSection (layoutOf is32Bit) (str ".dynstr") = .ok shdrDynStr)
    (hes : holdsEntries (layoutOf is32Bit) fc (declaredLE fc)
      (rdMember (declaredLE fc) shdrDynamic (layoutOf is32Bit).sh_offset) es) :
    v.dlneeds (layoutOf is32Bit)
      = (neededStrings fc (rdMember (declaredLE fc) shdrDynStr (layoutOf is32Bit).sh_offset)
          es).map toArray := by
  obtain ⟨hfc, hle, -, -, -⟩ := ElfFile.new_sections h
  subst hfc
  rw [← hle] at hes ⊢
  exact (ElfFile.dlneeds_walk hdynamic hdynstr hes).2.2

set_option maxRecDepth 100000 in
theorem wrap_dynstr_counterexample :
    wrapDynstrImage.length = 388
    ∧ ElfFile.new elf64 wrapDynstrImage = .ok (viewOf elf64 wrapDynstrImage)
    ∧ (viewOf elf64 wrapDynstrImage).findSection elf64 (str ".dynamic")
        = .ok ((viewOf elf64 wrapDynstrImage).shdrs.getD 1 [])
    ∧ (viewOf elf64 wrapDynstrImage).findSection elf64 (str ".dynstr")
        = .ok ((viewOf elf64 wrapDynstrImage).shdrs.getD 2 [])
    ∧ rdMember true ((viewOf elf64 wrapDynstrImage).shdrs.getD 1 []) elf64.sh_offset = 348
    ∧ rdMember true ((viewOf elf64 wrapDynstrImage).shdrs.getD 2 []) elf64.sh_offset
        = 2 ^ 64 - 8
    ∧ holdsEntries elf64 wrapDynstrImage true 348 [(DT_NEEDED, 388)]
    ∧ neededNames wrapDynstrImage (2 ^ 64 - 8) [(DT_NEEDED, 388)] = .error .outOfBounds
    ∧ cstrAt wrapDynstrImage 380 = .ok (str "libc.so")
    ∧ (viewOf elf64 wrapDynstrImage).dlneeds elf64 = .ok [some (str "libc.so"), none] := by
  decide

/-- C1, amended: on a constructed view whose `.dynamic` section holds the
entries `es` followed by a `DT_NULL` entry, and where `.dynstr`'s offset plus
the value of every `DT_NEEDED` entry of `es` is below `2 ^ 64`, `dlneeds` returns
the array of the strings at `.dynstr`'s offset plus the value of each
`DT_NEEDED` entry of `es`, in order and with duplicates; so the result has as
many strings as `es` has `DT_NEEDED` entries, and any other such view whose
`DT_NEEDED` entries resolve to the same strings, whatever other entries it
holds in between, gives the same result. -/
theorem dlneeds_spec (is32Bit : Bool) (fc : List Byte) (v : ElfFile)
    (shdrDynamic shdrDynStr : List Byte) (es : List (Nat × Nat))
    (h : ElfFile.new (layoutOf is32Bit) fc = .ok v)
    (hdynamic : v.findSection (layoutOf is32Bit) (str ".dynamic") = .ok shdrDynamic)
    (hdynstr : v.findSection (layoutOf is32Bit) (str ".dynstr") = .ok shdrDynStr)
    (hes : holdsEntries (layoutOf is32Bit) fc (declaredLE fc)
      (rdMember (declaredLE fc) shdrDynamic (layoutOf is32Bit).sh_offset) es)
    (hrange : ∀ e ∈ es, e.1 = DT_NEEDED →
      rdMember (declaredLE fc) shdrDynStr (layoutOf is32Bit).sh_offset + e.2 < 2 ^ sizeBits) :
    v.dlneeds (layoutOf is32Bit)
      = (neededNames fc (rdMember (declaredLE fc) shdrDynStr (layoutOf is32Bit).sh_offset)
          es).map toArray
    ∧ (∀ names,
        neededNames fc (rdMember (declaredLE fc) shdrDynStr (layoutOf is32Bit).sh_offset) es
          = .ok names →
        v.dlneeds (layoutOf is32Bit) = .ok (toArray names)
        ∧ libs (toArray names) = names
        ∧ names.length = (es.filter fun e => e.1 = DT_NEEDED).length)
    ∧ ∀ (is32Bit2 : Bool) (fc2 : List Byte) (v2 : ElfFile) (shdrDynamic2 shdrDynStr2 : List Byte)
        (es2 : List (Nat × Nat)),
        ElfFile.new (layoutOf is32Bit2) fc2 = .ok v2 →
        v2.findSection (layoutOf is32Bit2) (str ".dynamic") = .ok shdrDynamic2 →
        v2.findSection (layoutOf is32Bit2) (str ".dynstr") = .ok shdrDynStr2 →
        holdsEntries (layoutOf is32Bit2) fc2 (declaredLE fc2)
          (rdMember (declaredLE fc2) shdrDynamic2 (layoutOf is32Bit2).sh_offset) es2 →
        (∀ e ∈ es2, e.1 = DT_NEEDED →
          rdMember (declaredLE fc2) shdrDynStr2 (layoutOf is32Bit2).sh_offset + e.2
            < 2 ^ sizeBits) →
        ((es2.filter fun e => e.1 = DT_NEEDED).map fun e =>
            cstrAt fc2 (rdMember (declaredLE fc2) shdrDynStr2 (layoutOf is32Bit2).sh_offset + e.2))
          = ((es.filter fun e => e.1 = DT_NEEDED).map fun e =>
            cstrAt fc (rdMember (declaredLE fc) shdrDynStr (layoutOf is32Bit).sh_offset + e.2)) →
        v2.dlneeds (layoutOf is32Bit2) = v.dlneeds (layoutOf is32Bit) := by
  have h1 := ElfFile.dlneeds_eq h hdynamic hdynstr hes
  rw [neededStrings_eq_neededNames _ _ _ hrange] at h1
  refine ⟨h1, ?_, ?_⟩
  · intro names hn
    refine ⟨by rw [h1, hn]; rfl, libs_toArray names, ?_⟩
    have := allOk_length _ _ hn
    simpa using this
  · intro is32Bit2 fc2 v2 shdrDynamic2 shdrDynStr2 es2 h2 hd2 hs2 hes2 hrange2 hsame
    rw [h1, ElfFile.dlneeds_eq h2 hd2 hs2 hes2, neededStrings_eq_neededNames _ _ _ hrange2]
    simp only [neededNames, hsame]

set_option maxRecDepth 100000 in
theorem dlneeds_spec_witness :
    holdsEntries (layoutOf false) libcImage (declaredLE libcImage)
      (rdMember (declaredLE libcImage) ((viewOf (layoutOf false) libcImage).shdrs.getD 1 [])
        (layoutOf false).sh_offset) [(DT_NEEDED, 0)]
    ∧ (viewOf (layoutOf false) libcImage).dlneeds (layoutOf false)
      = (neededNames libcImage
          (rdMember (declaredLE libcImage) ((viewOf (layoutOf false) libcImage).shdrs.getD 2 [])
            (layoutOf false).sh_offset) [(DT_NEEDED, 0)]).map toArray :=
  ⟨by decide, (dlneeds_spec false libcImage (viewOf (layoutOf false) libcImage)
    ((viewOf (layoutOf false) libcImage).shdrs.getD 1 [])
    ((viewOf (layoutOf false) libcImage).shdrs.getD 2 []) [(DT_NEEDED, 0)]
    (by decide) (by decide) (by decide) (by decide) (by decide)).1⟩

/-! ## The whole pipeline -/

set_option maxRecDepth 100000 in
/-- C9: the 64-bit little-endian shared object whose `.dynamic` is
`[(DT_NEEDED, 0), (DT_NULL, 0)]` and whose `.dynstr` is `"libc.so\0"` passes
`getElfType` and the constructor, and `dlneeds` returns exactly `["libc.so"]`. -/
theorem libc_scenario :
    getElfType libcImage = .ok { is32Bit := false, machine := 0 }
    ∧ declaredLE libcImage = true
    ∧ hdrValue libcImage elf64.e_type = ET_DYN
    ∧ ElfFile.new elf64 libcImage = .ok (viewOf elf64 libcImage)
    ∧ (viewOf elf64 libcImage).sectionsByOldIndex
        = [str "", str ".dynamic", str ".dynstr", str ".shstrtab"]
    ∧ holdsEntries elf64 libcImage true
        (rdMember true ((viewOf elf64 libcImage).shdrs.getD 1 []) elf64.sh_offset)
        [(DT_NEEDED, 0)]
    ∧ readBytes libcImage
        (rdMember true ((viewOf elf64 libcImage).shdrs.getD 2 []) elf64.sh_offset)
        (rdMember true ((viewOf elf64 libcImage).shdrs.getD 2 []) elf64.sh_size)
        = .ok (str "libc.so" ++ [0])
    ∧ (viewOf elf64 libcImage).dlneeds elf64 = .ok [some (str "libc.so"), none]
    ∧ android_dlneeds libcImage
        = .ok { result := some [some (str "libc.so"), none], stderr := [] }
    ∧ libs [some (str "libc.so"), none] = [str "libc.so"] := by
  decide

set_option maxRecDepth 100000 in
theorem truncated_header_counterexample :
    getElfType libcImage = .ok { is32Bit := false, machine := 0 }
    ∧ ElfFile.new elf64 libcImage = .ok (viewOf elf64 libcImage)
    ∧ 10 < tableEnd (8 * elf64.e_shoff.size) (hdrValue libcImage elf64.e_shoff)
        (hdrValue libcImage elf64.e_shnum) (hdrValue libcImage elf64.e_shentsize)
    ∧ parse (libcImage.take 10) = error (str "missing ELF header")
    ∧ parse (libcImage.take 10) ≠ error (str "program header table out of bounds")
    ∧ parse (libcImage.take 10) ≠ error (str "section header table out of bounds")
    ∧ android_dlneeds (libcImage.take 10)
        = .ok { result := none, stderr := str "patchelf: missing ELF header\n" } := by
  decide

theorem parse_eq {fc : List Byte} {t : ElfType} (h : getElfType fc = .ok t) :
    parse fc = (ElfFile.new (layoutOf t.is32Bit) fc).bind
      fun v => v.dlneeds (layoutOf t.is32Bit) := by
  unfold parse
  rw [h]
  cases hb : t.is32Bit <;> simp [bind, Except.bind, layoutOf, hb]

theorem take_drop_take (fc : List Byte) {L off n : Nat} (h : off + n ≤ L) :
    ((fc.take L).drop off).take n = (fc.drop off).take n := by
  rw [List.drop_take, List.take_take]
  congr 1
  omega

theorem getElem?_take_lt (fc : List Byte) {L i : Nat} (h : i < L) :
    (fc.take L)[i]? = fc[i]? := by
  rw [List.getElem?_take]
  simp [h]

theorem hdrValue_take (fc : List Byte) {L : Nat} (f : Field) (h52 : 52 ≤ L)
    (h : f.off + f.size ≤ L) : hdrValue (fc.take L) f = hdrValue fc f := by
  unfold hdrValue declaredLE
  rw [take_drop_take fc h, getElem?_take_lt fc (by simp [EI_DATA]; omega)]


/-- The classifier `getElfType` looks at the first 52 bytes only: a truncation that keeps
them is classified alike. -/
theorem getElfType_take {fc : List Byte} {t : ElfType} {L : Nat}
    (h : getElfType fc = .ok t) (h52 : 52 ≤ L) :
    ∃ t2, getElfType (fc.take L) = .ok t2 ∧ t2.is32Bit = t.is32Bit := by
  obtain ⟨hiff, hcls, -⟩ := getElfType_outcome fc
  obtain ⟨hlen, hmagic, hver, hclass⟩ := hiff.mp ⟨t, h⟩
  obtain ⟨hiff2, hcls2, -⟩ := getElfType_outcome (fc.take L)
  have h4 : (fc.take L)[EI_CLASS]? = fc[EI_CLASS]? :=
    getElem?_take_lt fc (by simp [EI_CLASS]; omega)
  have h6 : (fc.take L)[EI_VERSION]? = fc[EI_VERSION]? :=
    getElem?_take_lt fc (by simp [EI_VERSION]; omega)
  obtain ⟨t2, ht2⟩ := hiff2.mpr ⟨by simp; omega, by
    rw [List.take_take]; simpa [show min 4 L = 4 by omega] using hmagic, by rw [h6]; exact hver,
    by rw [h4]; exact hclass⟩
  refine ⟨t2, ht2, ?_⟩
  have a := hcls2 t2 ht2
  have b := hcls t h
  rw [h4] at a
  cases h1 : t2.is32Bit <;> cases h2 : t.is32Bit <;> simp_all

theorem ElfFile.new_short {lay : Layout} {fc : List Byte} (h : fc.length < lay.ehdrSize) :
    ElfFile.new lay fc = error (str "missing ELF header") := by
  simp [ElfFile.new, h]

/-- C4, amended: let `getElfType` and the constructor accept a file and let `L`
be smaller than the end of the section header table as the constructor
computes it.  The file cut to its first `L` bytes is rejected with one of the
two "table out of bounds" errors when `L` covers the ELF header of the file's
class, and with "missing ELF header" when it does not; either way it is an
exception, so no read has left the `L` bytes. -/
theorem truncated_spec (fc : List Byte) (t : ElfType) (v : ElfFile) (L : Nat)
    (ht : getElfType fc = .ok t) (hv : ElfFile.new (layoutOf t.is32Bit) fc = .ok v)
    (hL : L < tableEnd (8 * (layoutOf t.is32Bit).e_shoff.size)
      (hdrValue fc (layoutOf t.is32Bit).e_shoff) (hdrValue fc (layoutOf t.is32Bit).e_shnum)
      (hdrValue fc (layoutOf t.is32Bit).e_shentsize)) :
    ((layoutOf t.is32Bit).ehdrSize ≤ L →
      parse (fc.take L) = error (str "program header table out of bounds")
      ∨ parse (fc.take L) = error (str "section header table out of bounds"))
    ∧ (L < (layoutOf t.is32Bit).ehdrSize →
      parse (fc.take L) = error (str "missing ELF header")) := by
  obtain ⟨hsz, hmagic, htype, hph, hnum, hsh, -, -⟩ := ElfFile.new_ok hv
  have hlen : (fc.take L).length = L := by simp; omega
  have hE : 52 ≤ (layoutOf t.is32Bit).ehdrSize ∧ (layoutOf t.is32Bit).ehdrSize ≤ 64 := by
    cases t.is32Bit <;> decide
  constructor
  · intro hcover
    have h52 : 52 ≤ L := by omega
    obtain ⟨t2, ht2, hsame⟩ := getElfType_take (L := L) ht h52
    rw [parse_eq ht2, hsame, ElfFile.new_eq _ _ (by rw [hlen]; exact hcover)]
    have hf : ∀ f : Field, f.off + f.size ≤ (layoutOf t.is32Bit).ehdrSize →
        hdrValue (fc.take L) f = hdrValue fc f := fun f hf =>
      hdrValue_take fc f h52 (by omega)
    rw [hf _ (by cases t.is32Bit <;> simp [layoutOf, elf32, elf64]),
      hf (layoutOf t.is32Bit).e_phoff (by cases t.is32Bit <;> simp [layoutOf, elf32, elf64]),
      hf (layoutOf t.is32Bit).e_phnum (by cases t.is32Bit <;> simp [layoutOf, elf32, elf64]),
      hf (layoutOf t.is32Bit).e_phentsize (by cases t.is32Bit <;> simp [layoutOf, elf32, elf64]),
      hf (layoutOf t.is32Bit).e_shnum (by cases t.is32Bit <;> simp [layoutOf, elf32, elf64]),
      hf (layoutOf t.is32Bit).e_shoff (by cases t.is32Bit <;> simp [layoutOf, elf32, elf64]),
      hf (layoutOf t.is32Bit).e_shentsize (by cases t.is32Bit <;> simp [layoutOf, elf32, elf64]),
      hlen, List.take_take, show min 4 L = 4 by omega]
    have h2 : ¬ (hdrValue fc (layoutOf t.is32Bit).e_type ≠ ET_EXEC
        ∧ hdrValue fc (layoutOf t.is32Bit).e_type ≠ ET_DYN) := by
      rintro ⟨a, b⟩
      rcases htype with h | h
      · exact a h
      · exact b h
    simp only [hmagic, ne_eq, not_true_eq_false, if_false, h2, hnum, gt_iff_lt, hL, if_true]
    split
    · left; rfl
    · right; rfl
  · intro hshort
    by_cases h52 : L < 52
    · obtain ⟨-, -, hmiss, -⟩ := getElfType_outcome (fc.take L)
      have := hmiss (by rw [hlen]; exact h52)
      unfold parse
      rw [this]
      rfl
    · obtain ⟨t2, ht2, hsame⟩ := getElfType_take (L := L) ht (by omega)
      rw [parse_eq ht2, hsame]
      have : (fc.take L).length < (layoutOf t.is32Bit).ehdrSize := by rw [hlen]; exact hshort
      rw [ElfFile.new_short this]
      rfl

set_option maxRecDepth 100000 in
theorem truncated_spec_witness :
    100 < tableEnd (8 * elf64.e_shoff.size) (hdrValue libcImage elf64.e_shoff)
        (hdrValue libcImage elf64.e_shnum) (hdrValue libcImage elf64.e_shentsize)
    ∧ (elf64.ehdrSize ≤ 100 →
      parse (libcImage.take 100) = error (str "program header table out of bounds")
      ∨ parse (libcImage.take 100) = error (str "section header table out of bounds")) :=
  ⟨by decide, (truncated_spec libcImage { is32Bit := false, machine := 0 }
    (viewOf elf64 libcImage) 100 (by decide) (by decide) (by decide)).1⟩

/-! ## The synthetic images -/

theorem encode_length (le : Bool) (w v : Nat) : (encode le w v).length = w := by
  cases le <;> simp [encode, encodeBE, encodeLE_length]

theorem rdi_encode (le : Bool) (w v : Nat) : rdi le (encode le w v) = v % 2 ^ (8 * w) := by
  cases le
  · simp only [encode, Bool.false_eq_true, if_false]
    rw [rdi_be, encodeBE, beValue_reverse, leValue_encodeLE]
  · simp only [encode, if_true]
    rw [rdi_le, leValue_encodeLE]

theorem readBytes_mid (pre x post : List Byte) {fc : List Byte} {off n : Nat} (hfc : fc = pre ++ x ++ post)
    (hoff : off = pre.length) (hn : n = x.length) : readBytes fc off n = .ok x := by
  subst hfc hoff hn
  rw [readBytes_ok (by simp)]
  simp

theorem getElem?_mid (pre x post : List Byte) {fc : List Byte} {i j : Nat} (hfc : fc = pre ++ x ++ post)
    (hi : i = pre.length + j) (hj : j < x.length) : fc[i]? = x[j]? := by
  subst hfc hi
  rw [List.append_assoc, List.getElem?_append_right (by omega)]
  simp [List.getElem?_append_left hj]

theorem take_drop_append_left {a b : List Byte} {off n : Nat} (h : off + n ≤ a.length) :
    ((a ++ b).drop off).take n = (a.drop off).take n := by
  rw [List.drop_append_of_le_length (by omega), List.take_append_of_le_length (by simp; omega)]

theorem mkEhdr_length (is32Bit le : Bool) (a b c : Nat) :
    (mkEhdr is32Bit le a b c).length = (layoutOf is32Bit).ehdrSize := by
  cases is32Bit <;> simp [mkEhdr, encode_length, layoutOf, elf32, elf64, ELFMAG, zeros]

theorem mkShdr_length (is32Bit le : Bool) (a b c : Nat) :
    (mkShdr (layoutOf is32Bit) le a b c).length = (layoutOf is32Bit).shdrSize := by
  cases is32Bit <;> simp [mkShdr, encode_length, layoutOf, elf32, elf64, zeros]

theorem mkDyn_length (is32Bit le : Bool) (e : Nat × Nat) :
    (mkDyn (layoutOf is32Bit) le e).length = (layoutOf is32Bit).dynSize := by
  cases is32Bit <;> simp [mkDyn, encode_length, layoutOf, elf32, elf64]

theorem take_drop_mid (pre x post : List Byte) {l : List Byte} {off n : Nat} (hl : l = pre ++ x ++ post)
    (hoff : off = pre.length) (hn : n = x.length) : (l.drop off).take n = x := by
  subst hl hoff hn
  simp

theorem zeros_length (n : Nat) : (zeros n).length = n := by simp [zeros]

theorem rdMember_sh_name (is32Bit le : Bool) (a b c : Nat) :
    rdMember le (mkShdr (layoutOf is32Bit) le a b c) (layoutOf is32Bit).sh_name
      = a % 2 ^ (8 * (layoutOf is32Bit).sh_name.size) := by
  rw [rdMember, take_drop_mid ([]) (encode le (layoutOf is32Bit).sh_name.size a)
    (zeros ((layoutOf is32Bit).sh_offset.off - (layoutOf is32Bit).sh_name.size)
      ++ encode le (layoutOf is32Bit).sh_offset.size b
      ++ encode le (layoutOf is32Bit).sh_size.size c
      ++ zeros ((layoutOf is32Bit).shdrSize
          - ((layoutOf is32Bit).sh_size.off + (layoutOf is32Bit).sh_size.size)))
    (by simp [mkShdr, List.append_assoc])
    (by cases is32Bit <;> simp [layoutOf, elf32, elf64])
    (by simp [encode_length]), rdi_encode]

theorem rdMember_sh_offset (is32Bit le : Bool) (a b c : Nat) :
    rdMember le (mkShdr (layoutOf is32Bit) le a b c) (layoutOf is32Bit).sh_offset
      = b % 2 ^ (8 * (layoutOf is32Bit).sh_offset.size) := by
  rw [rdMember, take_drop_mid
    (encode le (layoutOf is32Bit).sh_name.size a
      ++ zeros ((layoutOf is32Bit).sh_offset.off - (layoutOf is32Bit).sh_name.size))
    (encode le (layoutOf is32Bit).sh_offset.size b)
    (encode le (layoutOf is32Bit).sh_size.size c
      ++ zeros ((layoutOf is32Bit).shdrSize
          - ((layoutOf is32Bit).sh_size.off + (layoutOf is32Bit).sh_size.size)))
    (by simp [mkShdr, List.append_assoc])
    (by cases is32Bit <;> simp [layoutOf, elf32, elf64, encode_length, zeros_length])
    (by simp [encode_length]), rdi_encode]

theorem rdMember_sh_size (is32Bit le : Bool) (a b c : Nat) :
    rdMember le (mkShdr (layoutOf is32Bit) le a b c) (layoutOf is32Bit).sh_size
      = c % 2 ^ (8 * (layoutOf is32Bit).sh_size.size) := by
  rw [rdMember, take_drop_mid
    (encode le (layoutOf is32Bit).sh_name.size a
      ++ zeros ((layoutOf is32Bit).sh_offset.off - (layoutOf is32Bit).sh_name.size)
      ++ encode le (layoutOf is32Bit).sh_offset.size b)
    (encode le (layoutOf is32Bit).sh_size.size c)
    (zeros ((layoutOf is32Bit).shdrSize
          - ((layoutOf is32Bit).sh_size.off + (layoutOf is32Bit).sh_size.size)))
    (by simp [mkShdr, List.append_assoc])
    (by cases is32Bit <;> simp [layoutOf, elf32, elf64, encode_length, zeros_length])
    (by simp [encode_length]), rdi_encode]


theorem copyHeaders_flatten {fc : List Byte} {entSize : Nat} :
    ∀ (hs : List (List Byte)) (pre post : List Byte) (base i : Nat),
      fc = pre ++ hs.flatten ++ post → pre.length = base + i * entSize →
      (∀ h ∈ hs, h.length = entSize) →
      copyHeaders fc base entSize hs.length i = .ok hs := by
  intro hs
  induction hs with
  | nil => intro pre post base i _ _ _; rfl
  | cons h hs ih =>
    intro pre post base i hfc hpre hall
    have hh : h.length = entSize := hall h (List.mem_cons_self _ _)
    have hread : readBytes fc (base + i * entSize) entSize = .ok h :=
      readBytes_mid pre h (hs.flatten ++ post) (by simp [hfc, List.append_assoc]) hpre.symm
        hh.symm
    have hrec := ih (pre ++ h) post base (i + 1) (by simp [hfc, List.append_assoc])
      (by simp [hpre, hh, Nat.add_mul]; omega)
      (fun x hx => hall x (List.mem_cons_of_mem _ hx))
    simp [copyHeaders, hread, hrec, Except.map]

theorem nameSections_intro (lay : Layout) (le : Bool) (names : CString)
    (shdrs : List (List Byte)) :
    ∀ (count i : Nat) (tbl : List CString),
      (∀ j, i ≤ j → j < i + count → ∃ sh nm, shdrs[j]? = some sh
        ∧ sectionNameAt lay le names sh = .ok nm) →
      i + count ≤ tbl.length →
      ∃ tbl2, nameSections lay le names shdrs count i tbl = .ok tbl2 := by
  intro count
  induction count with
  | zero => intro i tbl _ _; exact ⟨tbl, rfl⟩
  | succ count ih =>
    intro i tbl hall hlen
    obtain ⟨sh, nm, hs, hn⟩ := hall i (Nat.le_refl _) (by omega)
    obtain ⟨tbl2, h2⟩ := ih (i + 1) (tbl.set i nm)
      (fun j h1 h2 => hall j (by omega) (by omega)) (by simp; omega)
    refine ⟨tbl2, ?_⟩
    have hi : i < tbl.length := by omega
    simp [nameSections, index_ok.mpr hs, hn, hi, h2, bind, Except.bind]

theorem ElfFile.load_intro {lay : Layout} {fc : List Byte} {le : Bool}
    {phoff phnum shoff shnum : Nat} {phdrs shdrs : List (List Byte)} {idx raw : Nat}
    {sh : List Byte} {tbl : List CString}
    (h1 : copyHeaders fc phoff lay.phdrSize phnum 0 = .ok phdrs)
    (h2 : copyHeaders fc shoff lay.shdrSize shnum 0 = .ok shdrs)
    (h3 : rdField fc le 0 lay.e_shstrndx = .ok idx) (h4 : shdrs[idx]? = some sh)
    (h5 : rdMember le sh lay.sh_offset + toUInt (rdMember le sh lay.sh_size) ≤ fc.length)
    (h6 : 0 < toUInt (rdMember le sh lay.sh_size))
    (h7 : fc[rdMember le sh lay.sh_offset + (toUInt (rdMember le sh lay.sh_size) - 1)]?
      = some 0)
    (h8 : rdField fc hostLittleEndian 0 lay.e_shnum = .ok raw)
    (h9 : nameSections lay le
        ((fc.drop (rdMember le sh lay.sh_offset)).take (toUInt (rdMember le sh lay.sh_size)))
        shdrs (shnum - 1) 1 (List.replicate raw []) = .ok tbl) :
    ElfFile.load lay fc le phoff phnum shoff shnum
      = .ok { fileContents := fc, littleEndian := le, phdrs := phdrs, shdrs := shdrs,
              sectionNames := (fc.drop (rdMember le sh lay.sh_offset)).take
                (toUInt (rdMember le sh lay.sh_size)),
              sectionsByOldIndex := tbl } := by
  have hidx : idx < shdrs.length := by
    by_contra hc
    rw [List.getElem?_eq_none (by omega)] at h4
    cases h4
  simp only [ElfFile.load, h1, h2, h3, bind, Except.bind, hidx, not_true_eq_false, if_false,
    index_ok.mpr h4, checkPointer, h5, if_true, gt_iff_lt, h6, readByte_ok.mpr h7, ne_eq,
    readBytes_ok h5, h8, h9]
  rfl


theorem hdrValue_append (hdr rest : List Byte) (f : Field) (h5 : EI_DATA < hdr.length)
    (hf : f.off + f.size ≤ hdr.length) : hdrValue (hdr ++ rest) f = hdrValue hdr f := by
  unfold hdrValue declaredLE
  rw [take_drop_append_left hf, List.getElem?_append_left h5]

set_option maxRecDepth 100000 in
theorem mkEhdr_values (is32Bit le : Bool) :
    (mkEhdr is32Bit le ET_DYN 4 3).take 4 = ELFMAG
    ∧ (mkEhdr is32Bit le ET_DYN 4 3)[EI_VERSION]? = some EV_CURRENT
    ∧ (mkEhdr is32Bit le ET_DYN 4 3)[EI_CLASS]?
        = some (if is32Bit then ELFCLASS32 else ELFCLASS64)
    ∧ declaredLE (mkEhdr is32Bit le ET_DYN 4 3) = le
    ∧ hdrValue (mkEhdr is32Bit le ET_DYN 4 3) (layoutOf is32Bit).e_type = ET_DYN
    ∧ hdrValue (mkEhdr is32Bit le ET_DYN 4 3) (layoutOf is32Bit).e_phoff = 0
    ∧ hdrValue (mkEhdr is32Bit le ET_DYN 4 3) (layoutOf is32Bit).e_phnum = 0
    ∧ hdrValue (mkEhdr is32Bit le ET_DYN 4 3) (layoutOf is32Bit).e_phentsize
        = (layoutOf is32Bit).phdrSize
    ∧ hdrValue (mkEhdr is32Bit le ET_DYN 4 3) (layoutOf is32Bit).e_shnum = 4
    ∧ hdrValue (mkEhdr is32Bit le ET_DYN 4 3) (layoutOf is32Bit).e_shoff
        = (layoutOf is32Bit).ehdrSize
    ∧ hdrValue (mkEhdr is32Bit le ET_DYN 4 3) (layoutOf is32Bit).e_shentsize
        = (layoutOf is32Bit).shdrSize
    ∧ hdrValue (mkEhdr is32Bit le ET_DYN 4 3) (layoutOf is32Bit).e_shstrndx = 3
    ∧ 4 ≤ rdi hostLittleEndian (((mkEhdr is32Bit le ET_DYN 4 3).drop
        (layoutOf is32Bit).e_shnum.off).take (layoutOf is32Bit).e_shnum.size) := by
  cases is32Bit <;> cases le <;> decide

/-- What the constructor and the lookups yield on an image made of the header
`mkEhdr _ _ ET_DYN 4 3`, four section headers named (by offset into
`shstrtabBytes`) nothing, `.dynamic`, `.dynstr` and `.shstrtab`, the table
`shstrtabBytes` and any further bytes. -/
theorem view_of_pieces (is32Bit le : Bool) (s0 s1 s2 s3 rest : List Byte)
    (hl0 : s0.length = (layoutOf is32Bit).shdrSize)
    (hl1 : s1.length = (layoutOf is32Bit).shdrSize)
    (hl2 : s2.length = (layoutOf is32Bit).shdrSize)
    (hl3 : s3.length = (layoutOf is32Bit).shdrSize)
    (hn1 : rdMember le s1 (layoutOf is32Bit).sh_name = 1)
    (hn2 : rdMember le s2 (layoutOf is32Bit).sh_name = 10)
    (hn3 : rdMember le s3 (layoutOf is32Bit).sh_name = 18)
    (hoff : rdMember le s3 (layoutOf is32Bit).sh_offset
      = (layoutOf is32Bit).ehdrSize + 4 * (layoutOf is32Bit).shdrSize)
    (hsize : rdMember le s3 (layoutOf is32Bit).sh_size = 28) :
    ∃ t v, getElfType (mkEhdr is32Bit le ET_DYN 4 3 ++ s0 ++ s1 ++ s2 ++ s3
          ++ shstrtabBytes ++ rest) = .ok t
      ∧ t.is32Bit = is32Bit
      ∧ ElfFile.new (layoutOf is32Bit) (mkEhdr is32Bit le ET_DYN 4 3 ++ s0 ++ s1 ++ s2 ++ s3
          ++ shstrtabBytes ++ rest) = .ok v
      ∧ declaredLE (mkEhdr is32Bit le ET_DYN 4 3 ++ s0 ++ s1 ++ s2 ++ s3
          ++ shstrtabBytes ++ rest) = le
      ∧ v.findSection (layoutOf is32Bit) (str ".dynamic") = .ok s1
      ∧ v.findSection (layoutOf is32Bit) (str ".dynstr") = .ok s2 := by
  obtain ⟨hmagic, hver, hcls, hle, htype, hphoff, hphnum, hphent, hshnum, hshoff, hshent,
    hstrndx, hraw⟩ := mkEhdr_values is32Bit le
  have hEl := mkEhdr_length is32Bit le ET_DYN 4 3
  have hE52 : 52 ≤ (layoutOf is32Bit).ehdrSize := by cases is32Bit <;> decide
  generalize hE : mkEhdr is32Bit le ET_DYN 4 3 = hdr at *
  generalize himg : hdr ++ s0 ++ s1 ++ s2 ++ s3 ++ shstrtabBytes ++ rest = img
  have hsplit : img = hdr ++ (s0 ++ s1 ++ s2 ++ s3 ++ shstrtabBytes ++ rest) := by
    simp [← himg, List.append_assoc]
  have hT : shstrtabBytes.length = 28 := by decide
  have hlen : img.length = (layoutOf is32Bit).ehdrSize + 4 * (layoutOf is32Bit).shdrSize + 28
      + rest.length := by
    simp [← himg, hEl, hl0, hl1, hl2, hl3, hT]; omega
  have hval : ∀ f : Field, f.off + f.size ≤ (layoutOf is32Bit).ehdrSize →
      hdrValue img f = hdrValue hdr f := by
    intro f hf
    rw [hsplit]
    exact hdrValue_append _ _ _ (by simp [EI_DATA]; omega) (by omega)
  have hdle : declaredLE img = le := by
    rw [← hle, hsplit]
    unfold declaredLE
    rw [List.getElem?_append_left (by simp [EI_DATA]; omega)]
  -- the classifier
  have hget : ∃ t, getElfType img = .ok t ∧ t.is32Bit = is32Bit := by
    obtain ⟨hiff, hclass, -⟩ := getElfType_outcome img
    have h4 : img[EI_CLASS]? = some (if is32Bit then ELFCLASS32 else ELFCLASS64) := by
      rw [hsplit, List.getElem?_append_left (by simp [EI_CLASS]; omega)]; exact hcls
    obtain ⟨t, ht⟩ := hiff.mpr ⟨by omega, by
      rw [hsplit, List.take_append_of_le_length (by omega)]; exact hmagic, by
      rw [hsplit, List.getElem?_append_left (by simp [EI_VERSION]; omega)]; exact hver, by
      rw [h4]; cases is32Bit <;> simp⟩
    refine ⟨t, ht, ?_⟩
    have := hclass t ht
    rw [h4] at this
    cases is32Bit <;> cases hb : t.is32Bit <;> simp_all [ELFCLASS32, ELFCLASS64]
  obtain ⟨t, ht, htb⟩ := hget
  -- the section headers and the name table
  have hsh : copyHeaders img (layoutOf is32Bit).ehdrSize (layoutOf is32Bit).shdrSize 4 0
      = .ok [s0, s1, s2, s3] :=
    copyHeaders_flatten [s0, s1, s2, s3] hdr (shstrtabBytes ++ rest) _ 0
      (by simp [← himg, List.append_assoc]) (by simp [hEl])
      (by intro h hh; simp at hh; rcases hh with rfl | rfl | rfl | rfl <;> assumption)
  have hnames : (img.drop ((layoutOf is32Bit).ehdrSize + 4 * (layoutOf is32Bit).shdrSize)).take
      28 = shstrtabBytes :=
    take_drop_mid (hdr ++ s0 ++ s1 ++ s2 ++ s3) shstrtabBytes rest himg.symm
      (by simp [hEl, hl0, hl1, hl2, hl3]; omega) hT.symm
  have hlast : img[(layoutOf is32Bit).ehdrSize + 4 * (layoutOf is32Bit).shdrSize + 27]?
      = some 0 := by
    rw [getElem?_mid (hdr ++ s0 ++ s1 ++ s2 ++ s3) shstrtabBytes rest himg.symm
      (by simp [hEl, hl0, hl1, hl2, hl3]; omega) (by rw [hT]; decide : 27 < _)]
    decide
  have hc1 : sectionNameAt (layoutOf is32Bit) le shstrtabBytes s1 = .ok (str ".dynamic") := by
    rw [sectionNameAt, hn1]; decide
  have hc2 : sectionNameAt (layoutOf is32Bit) le shstrtabBytes s2 = .ok (str ".dynstr") := by
    rw [sectionNameAt, hn2]; decide
  have hc3 : sectionNameAt (layoutOf is32Bit) le shstrtabBytes s3 = .ok (str ".shstrtab") := by
    rw [sectionNameAt, hn3]; decide
  have hfld : ∀ f : Field, f.off + f.size ≤ (layoutOf is32Bit).ehdrSize →
      rdField img le 0 f = .ok (hdrValue hdr f) := by
    intro f hf
    rw [rdField_hdr (show (layoutOf is32Bit).ehdrSize ≤ img.length by omega) le f hf,
      ← hval f hf, hdrValue, hdle]
  have hrawrd : rdField img hostLittleEndian 0 (layoutOf is32Bit).e_shnum
      = .ok (rdi hostLittleEndian ((hdr.drop (layoutOf is32Bit).e_shnum.off).take
          (layoutOf is32Bit).e_shnum.size)) := by
    rw [rdField_hdr (show (layoutOf is32Bit).ehdrSize ≤ img.length by omega) _ _
      (by cases is32Bit <;> simp [layoutOf, elf32, elf64]), hsplit,
      take_drop_append_left (by cases is32Bit <;> simp [layoutOf, elf32, elf64, hEl])]
  obtain ⟨tbl, htbl⟩ := nameSections_intro (layoutOf is32Bit) le shstrtabBytes
    [s0, s1, s2, s3] 3 1
    (List.replicate (rdi hostLittleEndian ((hdr.drop (layoutOf is32Bit).e_shnum.off).take
          (layoutOf is32Bit).e_shnum.size)) [])
    (by
      intro j h1 h2
      have : j = 1 ∨ j = 2 ∨ j = 3 := by omega
      rcases this with rfl | rfl | rfl
      · exact ⟨s1, _, rfl, hc1⟩
      · exact ⟨s2, _, rfl, hc2⟩
      · exact ⟨s3, _, rfl, hc3⟩)
    (by simp; omega)
  have hu : toUInt 28 = 28 := by decide
  have h3 : [s0, s1, s2, s3][3]? = some s3 := rfl
  have hph : copyHeaders img 0 (layoutOf is32Bit).phdrSize 0 0 = .ok [] := rfl
  have hload := ElfFile.load_intro hph hsh (by rw [hfld _ (by cases is32Bit <;> simp [layoutOf, elf32, elf64]), hstrndx]) h3
    (by rw [hoff, hsize, hu]; omega) (by rw [hsize, hu]; decide)
    (by rw [hoff, hsize, hu]; exact hlast) hrawrd (by rw [hoff, hsize, hu, hnames]; exact htbl)
  rw [hoff, hsize, hu, hnames] at hload
  -- the header checks
  have hnew : ElfFile.new (layoutOf is32Bit) img
      = .ok { fileContents := img, littleEndian := le, phdrs := [], shdrs := [s0, s1, s2, s3],
              sectionNames := shstrtabBytes, sectionsByOldIndex := tbl } := by
    rw [ElfFile.new_eq is32Bit img (by omega),
      hval _ (by cases is32Bit <;> simp [layoutOf, elf32, elf64]),
      hval (layoutOf is32Bit).e_phoff (by cases is32Bit <;> simp [layoutOf, elf32, elf64]),
      hval (layoutOf is32Bit).e_phnum (by cases is32Bit <;> simp [layoutOf, elf32, elf64]),
      hval (layoutOf is32Bit).e_phentsize (by cases is32Bit <;> simp [layoutOf, elf32, elf64]),
      hval (layoutOf is32Bit).e_shnum (by cases is32Bit <;> simp [layoutOf, elf32, elf64]),
      hval (layoutOf is32Bit).e_shoff (by cases is32Bit <;> simp [layoutOf, elf32, elf64]),
      hval (layoutOf is32Bit).e_shentsize (by cases is32Bit <;> simp [layoutOf, elf32, elf64]),
      htype, hphoff, hphnum, hphent, hshnum, hshoff, hshent, hdle, hload]
    have hm : img.take 4 = ELFMAG := by
      rw [hsplit, List.take_append_of_le_length (by omega)]; exact hmagic
    have hp : tableEnd (8 * (layoutOf is32Bit).e_phoff.size) 0 0 (layoutOf is32Bit).phdrSize
        = 0 := by cases is32Bit <;> decide
    have hs : tableEnd (8 * (layoutOf is32Bit).e_shoff.size) (layoutOf is32Bit).ehdrSize 4
        (layoutOf is32Bit).shdrSize
        = (layoutOf is32Bit).ehdrSize + 4 * (layoutOf is32Bit).shdrSize := by
      cases is32Bit <;> decide
    have hs2 : ¬ ((layoutOf is32Bit).ehdrSize + 4 * (layoutOf is32Bit).shdrSize > img.length) := by
      omega
    simp [hm, hp, hs, hs2, ET_DYN, ET_EXEC]
  refine ⟨t, _, ht, htb, hnew, hdle, ?_, ?_⟩
  · have hne : ¬ (1 = 0) := by decide
    simp [ElfFile.findSection, ElfFile.findSection2, ElfFile.findSection3,
      hfld (layoutOf is32Bit).e_shnum (by cases is32Bit <;> simp [layoutOf, elf32, elf64]),
      hshnum, ElfFile.findSection3Loop, index, ElfFile.getSectionName, hc1, bind, Except.bind,
      pure, Except.pure]
  · have hne : (str ".dynamic" = str ".dynstr") = False := by
      simp only [eq_iff_iff, iff_false]; decide
    simp [ElfFile.findSection, ElfFile.findSection2, ElfFile.findSection3,
      hfld (layoutOf is32Bit).e_shnum (by cases is32Bit <;> simp [layoutOf, elf32, elf64]),
      hshnum, ElfFile.findSection3Loop, index, ElfFile.getSectionName, hc1, hc2, hne, bind,
      Except.bind, pure, Except.pure]


theorem rdField_mid (pre post : List Byte) (v : Nat) {fc : List Byte} {le : Bool}
    {base : Nat} {f : Field} (hfc : fc = pre ++ encode le f.size v ++ post)
    (hpre : base + f.off = pre.length) :
    rdField fc le base f = .ok (v % 2 ^ (8 * f.size)) := by
  rw [rdField, readBytes_mid pre (encode le f.size v) post hfc hpre
    (encode_length le f.size v).symm]
  simp [Except.map, rdi_encode]

theorem dyn_layout (is32Bit : Bool) :
    (layoutOf is32Bit).d_tag.off = 0
    ∧ (layoutOf is32Bit).d_val.off = (layoutOf is32Bit).d_tag.size
    ∧ (layoutOf is32Bit).dynSize = (layoutOf is32Bit).d_tag.size + (layoutOf is32Bit).d_val.size
    ∧ 2 ^ 32 ≤ 2 ^ (8 * (layoutOf is32Bit).d_tag.size)
    ∧ 2 ^ 32 ≤ 2 ^ (8 * (layoutOf is32Bit).d_val.size) := by
  cases is32Bit <;> decide

theorem holdsEntries_mk (is32Bit le : Bool) (fc : List Byte) (x : Nat) :
    ∀ (es : List (Nat × Nat)) (pre post : List Byte),
      fc = pre ++ ((es.map (mkDyn (layoutOf is32Bit) le)).flatten
        ++ mkDyn (layoutOf is32Bit) le (DT_NULL, x)) ++ post →
      (∀ e ∈ es, e.1 ≠ DT_NULL ∧ e.1 < 2 ^ 32 ∧ e.2 < 2 ^ 32) →
      holdsEntries (layoutOf is32Bit) fc le pre.length es := by
  obtain ⟨h0, h1, h2, h3, h4⟩ := dyn_layout is32Bit
  intro es
  induction es with
  | nil =>
    intro pre post hfc _
    simp only [holdsEntries]
    rw [rdField_mid pre (encode le (layoutOf is32Bit).d_val.size x ++ post) DT_NULL
      (by simp [hfc, mkDyn, List.append_assoc]) (by omega)]
    simp [DT_NULL]
  | cons e es ih =>
    intro pre post hfc hall
    obtain ⟨he0, he1, he2⟩ := hall e (List.mem_cons_self _ _)
    refine ⟨he0, ?_, ?_, ?_⟩
    · rw [rdField_mid pre (encode le (layoutOf is32Bit).d_val.size e.2
          ++ ((es.map (mkDyn (layoutOf is32Bit) le)).flatten
            ++ mkDyn (layoutOf is32Bit) le (DT_NULL, x)) ++ post) e.1
        (by simp [hfc, mkDyn, List.append_assoc]) (by omega),
        Nat.mod_eq_of_lt (by omega)]
    · rw [rdField_mid (pre ++ encode le (layoutOf is32Bit).d_tag.size e.1)
          (((es.map (mkDyn (layoutOf is32Bit) le)).flatten
            ++ mkDyn (layoutOf is32Bit) le (DT_NULL, x)) ++ post) e.2
        (by simp [hfc, mkDyn, List.append_assoc]) (by simp [encode_length]; omega),
        Nat.mod_eq_of_lt (by omega)]
    · have := ih (pre ++ mkDyn (layoutOf is32Bit) le e) post
        (by simp [hfc, List.append_assoc])
        (fun a ha => hall a (List.mem_cons_of_mem _ ha))
      simpa [mkDyn_length] using this

theorem entries_split (entries : List (Nat × Nat)) :
    ∃ x tail, entries ++ [(DT_NULL, 0)]
      = entries.takeWhile (fun e => e.1 ≠ DT_NULL) ++ (DT_NULL, x) :: tail := by
  induction entries with
  | nil => exact ⟨0, [], rfl⟩
  | cons e es ih =>
    by_cases h : e.1 = DT_NULL
    · refine ⟨e.2, es ++ [(DT_NULL, 0)], ?_⟩
      simp [List.takeWhile, h]
      exact Prod.ext h rfl
    · obtain ⟨x, tail, hx⟩ := ih
      refine ⟨x, tail, ?_⟩
      simp [List.takeWhile, h, hx]

theorem mkDynamic_length (is32Bit le : Bool) (entries : List (Nat × Nat)) :
    (mkDynamic (layoutOf is32Bit) le entries).length
      = (entries.length + 1) * (layoutOf is32Bit).dynSize := by
  have h : ∀ l : List (Nat × Nat), ((l.map (mkDyn (layoutOf is32Bit) le)).flatten).length
      = l.length * (layoutOf is32Bit).dynSize := by
    intro l
    induction l with
    | nil => simp
    | cons a l ih =>
      simp only [List.map_cons, List.flatten_cons, List.length_append, ih, mkDyn_length,
        List.length_cons, Nat.add_mul, Nat.one_mul]
      omega
  rw [mkDynamic, h, List.length_append, List.length_singleton]


theorem mkImage_length (is32Bit le : Bool) (entries : List (Nat × Nat)) (dynstr : List Byte) :
    (mkImage is32Bit le entries dynstr).length
      = (layoutOf is32Bit).ehdrSize + 4 * (layoutOf is32Bit).shdrSize + 28
        + (entries.length + 1) * (layoutOf is32Bit).dynSize + dynstr.length := by
  have hT : shstrtabBytes.length = 28 := by decide
  simp only [mkImage, List.length_append, mkEhdr_length, mkShdr_length, mkDynamic_length, hT]
  omega

theorem cstrAt_append (pre s : List Byte) (x : Nat) :
    cstrAt (pre ++ s) (pre.length + x) = cstrAt s (0 + x) := by
  simp [cstrAt, List.drop_append]

/-- What the pipeline computes on a synthetic image, in either layout: the
strings of `dynstr` at the values of the `DT_NEEDED` entries before the first
`DT_NULL`. -/
theorem parse_mkImage (is32Bit le : Bool) (entries : List (Nat × Nat)) (dynstr : List Byte)
    (hfit : ∀ e ∈ entries, e.1 < 2 ^ 32 ∧ e.2 < 2 ^ 32)
    (hsz : (mkImage is32Bit le entries dynstr).length
      < 2 ^ (8 * (layoutOf is32Bit).sh_offset.size))
    (hptr : (mkImage is32Bit le entries dynstr).length + 2 ^ 32 ≤ 2 ^ sizeBits) :
    parse (mkImage is32Bit le entries dynstr)
      = (neededNames dynstr 0 (entries.takeWhile fun e => e.1 ≠ DT_NULL)).map toArray := by
  have hlen := mkImage_length is32Bit le entries dynstr
  have hD := mkDynamic_length is32Bit le entries
  have hT : shstrtabBytes.length = 28 := by decide
  have hw : (layoutOf is32Bit).sh_name.size = 4
      ∧ (layoutOf is32Bit).sh_size.size = (layoutOf is32Bit).sh_offset.size
      ∧ 2 ^ 32 ≤ 2 ^ (8 * (layoutOf is32Bit).sh_offset.size) := by
    cases is32Bit <;> decide
  obtain ⟨hw1, hw2, hw3⟩ := hw
  generalize hdo : (layoutOf is32Bit).ehdrSize + 4 * (layoutOf is32Bit).shdrSize
    + shstrtabBytes.length = dynOff at *
  have himg : mkImage is32Bit le entries dynstr
      = mkEhdr is32Bit le ET_DYN 4 3
        ++ mkShdr (layoutOf is32Bit) le 0 0 0
        ++ mkShdr (layoutOf is32Bit) le 1 dynOff (mkDynamic (layoutOf is32Bit) le entries).length
        ++ mkShdr (layoutOf is32Bit) le 10
            (dynOff + (mkDynamic (layoutOf is32Bit) le entries).length) dynstr.length
        ++ mkShdr (layoutOf is32Bit) le 18
            ((layoutOf is32Bit).ehdrSize + 4 * (layoutOf is32Bit).shdrSize) shstrtabBytes.length
        ++ shstrtabBytes ++ (mkDynamic (layoutOf is32Bit) le entries ++ dynstr) := by
    simp [mkImage, hdo, List.append_assoc]
  generalize mkImage is32Bit le entries dynstr = img at *
  obtain ⟨t, v, ht, htb, hnew, hdle, hd, hs⟩ := view_of_pieces is32Bit le
    (mkShdr (layoutOf is32Bit) le 0 0 0)
    (mkShdr (layoutOf is32Bit) le 1 dynOff (mkDynamic (layoutOf is32Bit) le entries).length)
    (mkShdr (layoutOf is32Bit) le 10
      (dynOff + (mkDynamic (layoutOf is32Bit) le entries).length) dynstr.length)
    (mkShdr (layoutOf is32Bit) le 18
      ((layoutOf is32Bit).ehdrSize + 4 * (layoutOf is32Bit).shdrSize) shstrtabBytes.length)
    (mkDynamic (layoutOf is32Bit) le entries ++ dynstr)
    (mkShdr_length _ _ _ _ _) (mkShdr_length _ _ _ _ _) (mkShdr_length _ _ _ _ _)
    (mkShdr_length _ _ _ _ _)
    (by rw [rdMember_sh_name, hw1]; rfl)
    (by rw [rdMember_sh_name, hw1]; rfl)
    (by rw [rdMember_sh_name, hw1]; rfl)
    (by rw [rdMember_sh_offset, Nat.mod_eq_of_lt (by omega)])
    (by rw [rdMember_sh_size, hT, hw2, Nat.mod_eq_of_lt (by omega)])
  rw [← himg] at ht hnew hdle
  have hoff1 : rdMember le (mkShdr (layoutOf is32Bit) le 1 dynOff
      (mkDynamic (layoutOf is32Bit) le entries).length) (layoutOf is32Bit).sh_offset
      = dynOff := by
    rw [rdMember_sh_offset, Nat.mod_eq_of_lt (by omega)]
  have hoff2 : rdMember le (mkShdr (layoutOf is32Bit) le 10
      (dynOff + (mkDynamic (layoutOf is32Bit) le entries).length) dynstr.length)
      (layoutOf is32Bit).sh_offset
      = dynOff + (mkDynamic (layoutOf is32Bit) le entries).length := by
    rw [rdMember_sh_offset, Nat.mod_eq_of_lt (by omega)]
  obtain ⟨x, tail, hsplit⟩ := entries_split entries
  have hpre : (mkEhdr is32Bit le ET_DYN 4 3
        ++ mkShdr (layoutOf is32Bit) le 0 0 0
        ++ mkShdr (layoutOf is32Bit) le 1 dynOff (mkDynamic (layoutOf is32Bit) le entries).length
        ++ mkShdr (layoutOf is32Bit) le 10
            (dynOff + (mkDynamic (layoutOf is32Bit) le entries).length) dynstr.length
        ++ mkShdr (layoutOf is32Bit) le 18
            ((layoutOf is32Bit).ehdrSize + 4 * (layoutOf is32Bit).shdrSize) shstrtabBytes.length
        ++ shstrtabBytes).length = dynOff := by
    simp only [List.length_append, mkEhdr_length, mkShdr_length]
    omega
  have hes : holdsEntries (layoutOf is32Bit) img le dynOff
      (entries.takeWhile fun e => e.1 ≠ DT_NULL) := by
    rw [← hpre]
    refine holdsEntries_mk is32Bit le img x _ _
      ((tail.map (mkDyn (layoutOf is32Bit) le)).flatten ++ dynstr) ?_ ?_
    · rw [himg, mkDynamic, hsplit]
      simp [List.append_assoc]
    · intro e he
      have h1 := List.mem_takeWhile_imp he
      have h2 := hfit e ((List.takeWhile_sublist _).subset he)
      exact ⟨by simpa using h1, h2.1, h2.2⟩
  have hes2 : holdsEntries (layoutOf is32Bit) img (declaredLE img)
      (rdMember (declaredLE img) (mkShdr (layoutOf is32Bit) le 1 dynOff
        (mkDynamic (layoutOf is32Bit) le entries).length) (layoutOf is32Bit).sh_offset)
      (entries.takeWhile fun e => e.1 ≠ DT_NULL) := by
    rw [hdle, hoff1]; exact hes
  have hmain := ElfFile.dlneeds_eq hnew hd hs hes2
  have hstr : ∀ x, cstrAt img (dynOff + (mkDynamic (layoutOf is32Bit) le entries).length + x)
      = cstrAt dynstr (0 + x) := by
    intro x
    generalize mkEhdr is32Bit le ET_DYN 4 3
        ++ mkShdr (layoutOf is32Bit) le 0 0 0
        ++ mkShdr (layoutOf is32Bit) le 1 dynOff (mkDynamic (layoutOf is32Bit) le entries).length
        ++ mkShdr (layoutOf is32Bit) le 10
            (dynOff + (mkDynamic (layoutOf is32Bit) le entries).length) dynstr.length
        ++ mkShdr (layoutOf is32Bit) le 18
            ((layoutOf is32Bit).ehdrSize + 4 * (layoutOf is32Bit).shdrSize) shstrtabBytes.length
        ++ shstrtabBytes = pre6 at himg hpre
    have hl : (pre6 ++ mkDynamic (layoutOf is32Bit) le entries).length
        = dynOff + (mkDynamic (layoutOf is32Bit) le entries).length := by
      rw [List.length_append, hpre]
    rw [himg, ← List.append_assoc, ← hl]
    exact cstrAt_append _ _ _
  rw [parse_eq ht, htb, hnew]
  show v.dlneeds (layoutOf is32Bit) = _
  rw [hmain, hdle, hoff2]
  have hrange : ∀ e ∈ entries.takeWhile fun e => e.1 ≠ DT_NULL, e.1 = DT_NEEDED →
      dynOff + (mkDynamic (layoutOf is32Bit) le entries).length + e.2 < 2 ^ sizeBits := by
    intro e he _
    have h2 := (hfit e ((List.takeWhile_sublist _).subset he)).2
    omega
  rw [neededStrings_eq_neededNames _ _ _ hrange]
  have hnn : neededNames img (dynOff + (mkDynamic (layoutOf is32Bit) le entries).length)
      (entries.takeWhile fun e => e.1 ≠ DT_NULL)
      = neededNames dynstr 0 (entries.takeWhile fun e => e.1 ≠ DT_NULL) := by
    unfold neededNames
    exact congrArg allOk (List.map_congr_left fun e _ => hstr e.2)
  rw [hnn]

/-- C2: bit-width invariance.  The same dynamic entries (tags and values below
`2 ^ 32`) and the same `.dynstr` content, laid out as an ELF32 and as an ELF64
image of the same byte order, make `android_dlneeds` return the same thing;
in both layouts the pipeline yields the strings of `.dynstr` at the values of
the `DT_NEEDED` entries before the first `DT_NULL`. -/
theorem bit_width_invariance (littleEndian : Bool) (entries : List (Nat × Nat))
    (dynstr : List Byte) (hfit : ∀ e ∈ entries, e.1 < 2 ^ 32 ∧ e.2 < 2 ^ 32)
    (hsz : (mkImage true littleEndian entries dynstr).length < 2 ^ 32) :
    android_dlneeds (mkImage true littleEndian entries dynstr)
      = android_dlneeds (mkImage false littleEndian entries dynstr)
    ∧ parse (mkImage true littleEndian entries dynstr)
      = (neededNames dynstr 0 (entries.takeWhile fun e => e.1 ≠ DT_NULL)).map toArray
    ∧ parse (mkImage false littleEndian entries dynstr)
      = (neededNames dynstr 0 (entries.takeWhile fun e => e.1 ≠ DT_NULL)).map toArray := by
  have h32 := parse_mkImage true littleEndian entries dynstr hfit
    (by simpa [layoutOf, elf32] using hsz)
    (by simp only [sizeBits]; omega)
  have h64 := parse_mkImage false littleEndian entries dynstr hfit (by
    rw [mkImage_length] at hsz ⊢
    simp only [layoutOf, elf32, elf64, if_true, Bool.false_eq_true, if_false] at hsz ⊢
    omega) (by
    rw [mkImage_length] at hsz ⊢
    simp only [layoutOf, elf32, elf64, if_true, Bool.false_eq_true, if_false, sizeBits] at hsz ⊢
    omega)
  refine ⟨?_, h32, h64⟩
  unfold android_dlneeds
  rw [h32, h64]

set_option maxRecDepth 100000 in
theorem bit_width_invariance_witness :
    (mkImage true true [(DT_NEEDED, 0)] (str "libc.so" ++ [0])).length < 2 ^ 32
    ∧ android_dlneeds (mkImage true true [(DT_NEEDED, 0)] (str "libc.so" ++ [0]))
      = android_dlneeds (mkImage false true [(DT_NEEDED, 0)] (str "libc.so" ++ [0])) :=
  ⟨by decide, (bit_width_invariance true [(DT_NEEDED, 0)] (str "libc.so" ++ [0])
    (by decide) (by decide)).1⟩

/-! ## The fuel of the dynamic entry walks -/

/-- More fuel than the image has bytes changes nothing: the first loop stops or
leaves the image before it is used up. -/
theorem countNeeded_fuel (is32Bit : Bool) (fc : List Byte) (le : Bool) :
    ∀ (fuel d n : Nat), fc.length + 1 ≤ d + fuel →
      countNeeded (layoutOf is32Bit) fc le (fuel + 1) d n
        = countNeeded (layoutOf is32Bit) fc le fuel d n := by
  have hpos : 1 ≤ (layoutOf is32Bit).dynSize ∧ 1 ≤ (layoutOf is32Bit).d_tag.size := by
    cases is32Bit <;> decide
  intro fuel
  induction fuel with
  | zero =>
    intro d n h
    have : rdField fc le d (layoutOf is32Bit).d_tag = .error .outOfBounds := by
      unfold rdField readBytes
      have : ¬ (d + (layoutOf is32Bit).d_tag.off + (layoutOf is32Bit).d_tag.size ≤ fc.length) := by
        omega
      simp [this, Except.map]
    simp [countNeeded, this, bind, Except.bind]
  | succ fuel ih =>
    intro d n h
    have key : ∀ n : Nat,
        countNeeded (layoutOf is32Bit) fc le (fuel + 1) (d + (layoutOf is32Bit).dynSize) n
        = countNeeded (layoutOf is32Bit) fc le fuel (d + (layoutOf is32Bit).dynSize) n :=
      fun m => ih _ m (by omega)
    rw [countNeeded]
    conv => rhs; rw [countNeeded]
    simp only [key]

/-- The same for the second loop. -/
theorem fillNeeded_fuel (is32Bit : Bool) (fc : List Byte) (le : Bool) (strTab : Nat) :
    ∀ (fuel d : Nat) (result : List (Option CString)) (i : Nat), fc.length + 1 ≤ d + fuel →
      fillNeeded (layoutOf is32Bit) fc le strTab (fuel + 1) d result i
        = fillNeeded (layoutOf is32Bit) fc le strTab fuel d result i := by
  have hpos : 1 ≤ (layoutOf is32Bit).dynSize ∧ 1 ≤ (layoutOf is32Bit).d_tag.size := by
    cases is32Bit <;> decide
  intro fuel
  induction fuel with
  | zero =>
    intro d result i h
    have : rdField fc le d (layoutOf is32Bit).d_tag = .error .outOfBounds := by
      unfold rdField readBytes
      have : ¬ (d + (layoutOf is32Bit).d_tag.off + (layoutOf is32Bit).d_tag.size ≤ fc.length) := by
        omega
      simp [this, Except.map]
    simp [fillNeeded, this, bind, Except.bind]
  | succ fuel ih =>
    intro d result i h
    have key : ∀ (result : List (Option CString)) (i : Nat),
        fillNeeded (layoutOf is32Bit) fc le strTab (fuel + 1) (d + (layoutOf is32Bit).dynSize)
          result i
        = fillNeeded (layoutOf is32Bit) fc le strTab fuel (d + (layoutOf is32Bit).dynSize)
          result i := fun r j => ih _ r j (by omega)
    rw [fillNeeded]
    conv => rhs; rw [fillNeeded]
    simp only [key]


/-! ## The errors of the constructor -/

theorem readBytes_error {fc : List Byte} {off n : Nat} {e : Err}
    (h : readBytes fc off n = .error e) : e = .outOfBounds := by
  unfold readBytes at h
  split at h
  · cases h
  · cases h; rfl

theorem readByte_error {fc : List Byte} {i : Nat} {e : Err}
    (h : readByte fc i = .error e) : e = .outOfBounds := by
  unfold readByte at h
  split at h
  · cases h
  · cases h; rfl

theorem rdField_error {fc : List Byte} {le : Bool} {base : Nat} {f : Field} {e : Err}
    (h : rdField fc le base f = .error e) : e = .outOfBounds := by
  unfold rdField at h
  cases hr : readBytes fc (base + f.off) f.size with
  | error e2 =>
    rw [hr] at h
    simp only [Except.map] at h
    cases h
    exact readBytes_error hr
  | ok bs => rw [hr] at h; simp [Except.map] at h

theorem index_error {α : Type} {l : List α} {i : Nat} {e : Err}
    (h : index l i = .error e) : e = .outOfBounds := by
  unfold index at h
  split at h
  · cases h
  · cases h; rfl

theorem cstrAt_error {fc : List Byte} {off : Nat} {e : Err}
    (h : cstrAt fc off = .error e) : e = .outOfBounds := by
  unfold cstrAt at h
  split at h
  · cases h
  · cases h; rfl

theorem copyHeaders_error {fc : List Byte} {base entSize : Nat} :
    ∀ (count i : Nat) (e : Err), copyHeaders fc base entSize count i = .error e →
      e = .outOfBounds := by
  intro count
  induction count with
  | zero => intro i e h; simp [copyHeaders] at h
  | succ count ih =>
    intro i e h
    simp only [copyHeaders] at h
    cases hr : readBytes fc (base + i * entSize) entSize with
    | error e2 =>
      rw [hr] at h
      cases h
      exact readBytes_error hr
    | ok hd =>
      rw [hr] at h
      cases hrec : copyHeaders fc base entSize count (i + 1) with
      | error e2 =>
        rw [hrec] at h
        simp only [Except.map] at h
        cases h
        exact ih _ _ hrec
      | ok tl => rw [hrec] at h; simp [Except.map] at h

theorem nameSections_error {lay : Layout} {le : Bool} {names : CString}
    {shdrs : List (List Byte)} :
    ∀ (count i : Nat) (tbl : List CString) (e : Err),
      nameSections lay le names shdrs count i tbl = .error e → e = .outOfBounds := by
  intro count
  induction count with
  | zero => intro i tbl e h; simp [nameSections] at h
  | succ count ih =>
    intro i tbl e h
    simp only [nameSections, bind, Except.bind] at h
    cases hsh : index shdrs i with
    | error e2 => rw [hsh] at h; cases h; exact index_error hsh
    | ok sh =>
      simp only [hsh] at h
      cases hnm : sectionNameAt lay le names sh with
      | error e2 =>
        rw [hnm] at h
        cases h
        exact cstrAt_error hnm
      | ok nm =>
        simp only [hnm] at h
        split at h
        · exact ih _ _ _ h
        · cases h; rfl

/-- The second half of the constructor throws no exception: it ends in a view,
in a failed assertion or in an access outside an object. -/
theorem ElfFile.load_error {lay : Layout} {fc : List Byte} {le : Bool}
    {phoff phnum shoff shnum : Nat} {e : Err}
    (h : ElfFile.load lay fc le phoff phnum shoff shnum = .error e) :
    e = .outOfBounds ∨ e = .assertion := by
  simp only [ElfFile.load, bind, Except.bind] at h
  cases hph : copyHeaders fc phoff lay.phdrSize phnum 0 with
  | error e2 => rw [hph] at h; cases h; exact Or.inl (copyHeaders_error _ _ _ hph)
  | ok phdrs =>
  simp only [hph] at h
  cases hsh : copyHeaders fc shoff lay.shdrSize shnum 0 with
  | error e2 => rw [hsh] at h; cases h; exact Or.inl (copyHeaders_error _ _ _ hsh)
  | ok shdrs =>
  simp only [hsh] at h
  cases hidx : rdField fc le 0 lay.e_shstrndx with
  | error e2 => rw [hidx] at h; cases h; exact Or.inl (rdField_error hidx)
  | ok idx =>
  simp only [hidx] at h
  split at h
  · cases h; exact Or.inr rfl
  cases hhdr : index shdrs idx with
  | error e2 => rw [hhdr] at h; cases h; exact Or.inl (index_error hhdr)
  | ok sh =>
  simp only [hhdr] at h
  by_cases h2 : rdMember le sh lay.sh_offset + toUInt (rdMember le sh lay.sh_size) ≤ fc.length
  swap
  · simp [checkPointer, h2] at h
    exact Or.inr h.symm
  simp only [checkPointer, h2, if_true] at h
  by_cases h3 : toUInt (rdMember le sh lay.sh_size) > 0
  swap
  · simp [h3] at h
    exact Or.inr h.symm
  simp only [h3, not_true_eq_false, if_false] at h
  cases hlast : readByte fc
      (rdMember le sh lay.sh_offset + (toUInt (rdMember le sh lay.sh_size) - 1)) with
  | error e2 => rw [hlast] at h; cases h; exact Or.inl (readByte_error hlast)
  | ok last =>
  simp only [hlast] at h
  split at h
  · cases h; exact Or.inr rfl
  cases hnames : readBytes fc (rdMember le sh lay.sh_offset)
      (toUInt (rdMember le sh lay.sh_size)) with
  | error e2 => rw [hnames] at h; cases h; exact Or.inl (readBytes_error hnames)
  | ok names =>
  simp only [hnames] at h
  cases hraw : rdField fc hostLittleEndian 0 lay.e_shnum with
  | error e2 => rw [hraw] at h; cases h; exact Or.inl (rdField_error hraw)
  | ok raw =>
  simp only [hraw] at h
  cases htbl : nameSections lay le names shdrs (shnum - 1) 1 (List.replicate raw []) with
  | error e2 => rw [htbl] at h; cases h; exact Or.inl (nameSections_error _ _ _ _ htbl)
  | ok tbl => rw [htbl] at h; simp [pure, Except.pure] at h


/-- The constructor's header checks in terms of `phEnd` and `shEnd`. -/
theorem ElfFile.new_eq2 (is32Bit : Bool) (fc : List Byte)
    (h : (layoutOf is32Bit).ehdrSize ≤ fc.length) :
    ElfFile.new (layoutOf is32Bit) fc =
      if fc.take 4 ≠ ELFMAG then error (str "not an ELF executable") else
      if hdrValue fc (layoutOf is32Bit).e_type ≠ ET_EXEC
          ∧ hdrValue fc (layoutOf is32Bit).e_type ≠ ET_DYN then
        error (str "wrong ELF type") else
      if phEnd (layoutOf is32Bit) fc > fc.length then
        error (str "program header table out of bounds") else
      if hdrValue fc (layoutOf is32Bit).e_shnum = 0 then
        error (str "no section headers. The input file is probably a statically linked, self-decompressing binary") else
      if shEnd (layoutOf is32Bit) fc > fc.length then
        error (str "section header table out of bounds") else
      if hdrValue fc (layoutOf is32Bit).e_phentsize ≠ (layoutOf is32Bit).phdrSize then
        error (str "program headers have wrong size") else
      ElfFile.load (layoutOf is32Bit) fc (declaredLE fc) (hdrValue fc (layoutOf is32Bit).e_phoff)
        (hdrValue fc (layoutOf is32Bit).e_phnum) (hdrValue fc (layoutOf is32Bit).e_shoff)
        (hdrValue fc (layoutOf is32Bit).e_shnum) := by
  rw [ElfFile.new_eq is32Bit fc h]
  rfl

/-- Which exception the constructor throws on a buffer that holds a whole ELF
header, and when. -/
theorem ElfFile.new_thrown {is32Bit : Bool} {fc : List Byte} {what : CString}
    (hsz : (layoutOf is32Bit).ehdrSize ≤ fc.length)
    (h : ElfFile.new (layoutOf is32Bit) fc = error what) :
    (what = str "not an ELF executable" ∧ fc.take 4 ≠ ELFMAG)
    ∨ (what = str "wrong ELF type" ∧ fc.take 4 = ELFMAG
        ∧ hdrValue fc (layoutOf is32Bit).e_type ≠ ET_EXEC
        ∧ hdrValue fc (layoutOf is32Bit).e_type ≠ ET_DYN)
    ∨ (what = str "program header table out of bounds" ∧ fc.take 4 = ELFMAG
        ∧ phEnd (layoutOf is32Bit) fc > fc.length)
    ∨ (what = str "no section headers. The input file is probably a statically linked, self-decompressing binary"
        ∧ fc.take 4 = ELFMAG ∧ phEnd (layoutOf is32Bit) fc ≤ fc.length
        ∧ hdrValue fc (layoutOf is32Bit).e_shnum = 0)
    ∨ (what = str "section header table out of bounds" ∧ fc.take 4 = ELFMAG
        ∧ phEnd (layoutOf is32Bit) fc ≤ fc.length
        ∧ shEnd (layoutOf is32Bit) fc > fc.length)
    ∨ (what = str "program headers have wrong size" ∧ fc.take 4 = ELFMAG
        ∧ phEnd (layoutOf is32Bit) fc ≤ fc.length
        ∧ shEnd (layoutOf is32Bit) fc ≤ fc.length
        ∧ hdrValue fc (layoutOf is32Bit).e_phentsize ≠ (layoutOf is32Bit).phdrSize) := by
  rw [ElfFile.new_eq2 is32Bit fc hsz] at h
  split at h
  · rename_i h1
    simp only [error, Except.error.injEq, Err.runtime_error.injEq] at h
    exact Or.inl ⟨h.symm, h1⟩
  rename_i h1
  have hm : fc.take 4 = ELFMAG := by simpa using h1
  split at h
  · rename_i h2
    simp only [error, Except.error.injEq, Err.runtime_error.injEq] at h
    exact Or.inr (Or.inl ⟨h.symm, hm, h2.1, h2.2⟩)
  split at h
  · rename_i h3
    simp only [error, Except.error.injEq, Err.runtime_error.injEq] at h
    exact Or.inr (Or.inr (Or.inl ⟨h.symm, hm, h3⟩))
  rename_i h3
  split at h
  · rename_i h4
    simp only [error, Except.error.injEq, Err.runtime_error.injEq] at h
    exact Or.inr (Or.inr (Or.inr (Or.inl ⟨h.symm, hm, by omega, h4⟩)))
  split at h
  · rename_i h5
    simp only [error, Except.error.injEq, Err.runtime_error.injEq] at h
    exact Or.inr (Or.inr (Or.inr (Or.inr (Or.inl ⟨h.symm, hm, by omega, h5⟩))))
  rename_i h5
  split at h
  · rename_i h6
    simp only [error, Except.error.injEq, Err.runtime_error.injEq] at h
    exact Or.inr (Or.inr (Or.inr (Or.inr (Or.inr ⟨h.symm, hm, by omega, by omega, h6⟩))))
  · rcases ElfFile.load_error h with h7 | h7 <;> cases h7

/-! ## The header checks -/

set_option maxRecDepth 100000 in
/-- C17: on a buffer that holds a whole ELF header of the chosen width and
starts with the ELF magic, the constructor throws "wrong ELF type" exactly when
`e_type`, decoded in the declared byte order, is neither `ET_EXEC` nor
`ET_DYN`, whatever the table members are.  The big-endian image `libcImageBE`,
whose `e_type` bytes are `00 03`, is accepted; with the bytes `03 00` it is
rejected. -/
theorem wrong_type_iff (is32Bit : Bool) (fc : List Byte)
    (hsz : (layoutOf is32Bit).ehdrSize ≤ fc.length) (hmagic : fc.take 4 = ELFMAG) :
    (ElfFile.new (layoutOf is32Bit) fc = error (str "wrong ELF type") ↔
      hdrValue fc (layoutOf is32Bit).e_type ≠ ET_EXEC
        ∧ hdrValue fc (layoutOf is32Bit).e_type ≠ ET_DYN)
    ∧ (declaredLE libcImageBE = false ∧ readBytes libcImageBE 16 2 = .ok [0, 3]
        ∧ ElfFile.new elf64 libcImageBE = .ok (viewOf elf64 libcImageBE))
    ∧ (declaredLE swappedTypeImage = false ∧ readBytes swappedTypeImage 16 2 = .ok [3, 0]
        ∧ ElfFile.new elf64 swappedTypeImage = error (str "wrong ELF type")) := by
  refine ⟨⟨?_, ?_⟩, by decide, by decide⟩
  · intro h
    rcases ElfFile.new_thrown hsz h with ⟨hw, -⟩ | ⟨-, -, h1, h2⟩ | ⟨hw, -⟩ | ⟨hw, -⟩
      | ⟨hw, -⟩ | ⟨hw, -⟩
    · exact absurd hw (by decide)
    · exact ⟨h1, h2⟩
    · exact absurd hw (by decide)
    · exact absurd hw (by decide)
    · exact absurd hw (by decide)
    · exact absurd hw (by decide)
  · intro h
    rw [ElfFile.new_eq2 is32Bit fc hsz]
    simp only [hmagic, ne_eq, not_true_eq_false, if_false]
    rw [if_pos h]

set_option maxRecDepth 100000 in
theorem wrong_type_iff_witness :
    (layoutOf false).ehdrSize ≤ swappedTypeImage.length ∧ swappedTypeImage.take 4 = ELFMAG
    ∧ (ElfFile.new (layoutOf false) swappedTypeImage = error (str "wrong ELF type") ↔
      hdrValue swappedTypeImage (layoutOf false).e_type ≠ ET_EXEC
        ∧ hdrValue swappedTypeImage (layoutOf false).e_type ≠ ET_DYN) :=
  ⟨by decide, by decide, (wrong_type_iff false swappedTypeImage (by decide) (by decide)).1⟩

/-- C18: on a buffer that passes the size, magic and `e_type` checks, once the
program header range, the section count and the section header range are
accepted the constructor throws "program headers have wrong size" exactly when
`e_phentsize` differs from the size of `Elf_Phdr` (32 for ELF32, 56 for
ELF64), whatever `e_phnum` is; when one of the two tables is out of bounds
that error is thrown, whatever `e_phentsize` is. -/
theorem phentsize_iff (is32Bit : Bool) (fc : List Byte)
    (hsz : (layoutOf is32Bit).ehdrSize ≤ fc.length) (hmagic : fc.take 4 = ELFMAG)
    (htype : hdrValue fc (layoutOf is32Bit).e_type = ET_EXEC
      ∨ hdrValue fc (layoutOf is32Bit).e_type = ET_DYN) :
    (phEnd (layoutOf is32Bit) fc ≤ fc.length → hdrValue fc (layoutOf is32Bit).e_shnum ≠ 0 →
      shEnd (layoutOf is32Bit) fc ≤ fc.length →
      (ElfFile.new (layoutOf is32Bit) fc = error (str "program headers have wrong size") ↔
        hdrValue fc (layoutOf is32Bit).e_phentsize ≠ (layoutOf is32Bit).phdrSize))
    ∧ (phEnd (layoutOf is32Bit) fc > fc.length →
      ElfFile.new (layoutOf is32Bit) fc = error (str "program header table out of bounds"))
    ∧ (phEnd (layoutOf is32Bit) fc ≤ fc.length → hdrValue fc (layoutOf is32Bit).e_shnum ≠ 0 →
      shEnd (layoutOf is32Bit) fc > fc.length →
      ElfFile.new (layoutOf is32Bit) fc = error (str "section header table out of bounds"))
    ∧ (layoutOf is32Bit).phdrSize = (if is32Bit then 32 else 56) := by
  have h2 : ¬ (hdrValue fc (layoutOf is32Bit).e_type ≠ ET_EXEC
      ∧ hdrValue fc (layoutOf is32Bit).e_type ≠ ET_DYN) := by
    rintro ⟨a, b⟩
    rcases htype with h | h
    · exact a h
    · exact b h
  refine ⟨?_, ?_, ?_, by cases is32Bit <;> rfl⟩
  · intro hph hnum hsh
    constructor
    · intro h
      rcases ElfFile.new_thrown hsz h with ⟨hw, -⟩ | ⟨hw, -⟩ | ⟨hw, -⟩ | ⟨hw, -⟩
        | ⟨hw, -⟩ | ⟨-, -, -, -, h6⟩
      · exact absurd hw (by decide)
      · exact absurd hw (by decide)
      · exact absurd hw (by decide)
      · exact absurd hw (by decide)
      · exact absurd hw (by decide)
      · exact h6
    · intro h
      rw [ElfFile.new_eq2 is32Bit fc hsz]
      simp only [hmagic, ne_eq, not_true_eq_false, if_false, h2, gt_iff_lt, Nat.not_lt.mpr hph,
        hnum, Nat.not_lt.mpr hsh]
      rw [if_pos h]
  · intro hph
    rw [ElfFile.new_eq2 is32Bit fc hsz]
    simp only [hmagic, ne_eq, not_true_eq_false, if_false, h2]
    rw [if_pos hph]
  · intro hph hnum hsh
    rw [ElfFile.new_eq2 is32Bit fc hsz]
    simp only [hmagic, ne_eq, not_true_eq_false, if_false, h2, gt_iff_lt, Nat.not_lt.mpr hph,
      hnum]
    rw [if_pos hsh]

set_option maxRecDepth 100000 in
theorem phentsize_iff_witness :
    hdrValue (mkHeader true true ET_EXEC 0 52 0 0 0 1 0) (layoutOf true).e_phnum = 0
    ∧ (phEnd (layoutOf true) (mkHeader true true ET_EXEC 0 52 0 0 0 1 0)
        ≤ (mkHeader true true ET_EXEC 0 52 0 0 0 1 0).length →
      hdrValue (mkHeader true true ET_EXEC 0 52 0 0 0 1 0) (layoutOf true).e_shnum ≠ 0 →
      shEnd (layoutOf true) (mkHeader true true ET_EXEC 0 52 0 0 0 1 0)
        ≤ (mkHeader true true ET_EXEC 0 52 0 0 0 1 0).length →
      (ElfFile.new (layoutOf true) (mkHeader true true ET_EXEC 0 52 0 0 0 1 0)
          = error (str "program headers have wrong size") ↔
        hdrValue (mkHeader true true ET_EXEC 0 52 0 0 0 1 0) (layoutOf true).e_phentsize
          ≠ (layoutOf true).phdrSize)) :=
  ⟨by decide, (phentsize_iff true (mkHeader true true ET_EXEC 0 52 0 0 0 1 0) (by decide)
    (by decide) (by decide)).1⟩

/-- C20: a buffer that `getElfType` accepts as 32-bit never makes the 32-bit
constructor throw "missing ELF header" or "not an ELF executable"; one it
accepts as 64-bit makes the 64-bit constructor throw "missing ELF header"
exactly when it has fewer than 64 bytes, that is 52 to 63, and never
"not an ELF executable". -/
theorem classifier_constructor_agree (fc : List Byte) (t : ElfType)
    (ht : getElfType fc = .ok t) :
    (t.is32Bit = true →
      ElfFile.new elf32 fc ≠ error (str "missing ELF header")
      ∧ ElfFile.new elf32 fc ≠ error (str "not an ELF executable"))
    ∧ (t.is32Bit = false →
      (ElfFile.new elf64 fc = error (str "missing ELF header") ↔ fc.length < 64)
      ∧ (fc.length < 64 ↔ 52 ≤ fc.length ∧ fc.length ≤ 63)
      ∧ ElfFile.new elf64 fc ≠ error (str "not an ELF executable")) := by
  obtain ⟨hiff, -⟩ := getElfType_outcome fc
  obtain ⟨hlen, hmagic, -, -⟩ := hiff.mp ⟨t, ht⟩
  have hno : ∀ (b : Bool) (what : CString), (layoutOf b).ehdrSize ≤ fc.length →
      what = str "missing ELF header" ∨ what = str "not an ELF executable" →
      ElfFile.new (layoutOf b) fc ≠ error what := by
    intro b what hsz hwhat h
    rcases ElfFile.new_thrown hsz h with ⟨-, hm⟩ | ⟨hw, -⟩ | ⟨hw, -⟩ | ⟨hw, -⟩
      | ⟨hw, -⟩ | ⟨hw, -⟩
    · exact hm hmagic
    all_goals
      rcases hwhat with h1 | h1
      · rw [h1] at hw; exact absurd hw (by decide)
      · rw [h1] at hw; exact absurd hw (by decide)
  refine ⟨fun _ => ⟨?_, ?_⟩, fun _ => ⟨⟨?_, ?_⟩, by omega, ?_⟩⟩
  · exact hno true _ hlen (Or.inl rfl)
  · exact hno true _ hlen (Or.inr rfl)
  · intro h
    by_contra hc
    exact hno false _ (show (layoutOf false).ehdrSize ≤ fc.length by
      simp [layoutOf, elf64]; omega) (Or.inl rfl) h
  · intro h
    exact ElfFile.new_short (by simpa [elf64] using h)
  · by_cases h64 : fc.length < 64
    · rw [ElfFile.new_short (by simpa [elf64] using h64)]
      simp only [error, ne_eq, Except.error.injEq, Err.runtime_error.injEq]
      decide
    · exact hno false _ (show (layoutOf false).ehdrSize ≤ fc.length by
        simp [layoutOf, elf64]; omega) (Or.inr rfl)

set_option maxRecDepth 100000 in
theorem classifier_constructor_agree_witness :
    getElfType (libcImage.take 60) = .ok { is32Bit := false, machine := 0 }
    ∧ (ElfFile.new elf64 (libcImage.take 60) = error (str "missing ELF header") ↔
      (libcImage.take 60).length < 64) :=
  ⟨by decide, ((classifier_constructor_agree (libcImage.take 60)
    { is32Bit := false, machine := 0 } (by decide)).2 rfl).1⟩

/-! ## The two passes of `dlneeds` -/

/-- C19: the two passes of `dlneeds` agree.  On a view whose bytes at the offset
of `.dynamic` hold the entries `es` followed by a `DT_NULL` entry, the first
pass counts the `DT_NEEDED` entries of `es`; `dlneeds` hands the array of that
many slots plus one to the second pass, which fails only when a string cannot
be read, never on a write; and every array `dlneeds` returns has that many
slots plus one, the first `n_needed` holding a string and slot `n_needed`
being null. -/
theorem passes_agree (is32Bit : Bool) (v : ElfFile) (shdrDynamic shdrDynStr : List Byte)
    (es : List (Nat × Nat))
    (hdynamic : v.findSection (layoutOf is32Bit) (str ".dynamic") = .ok shdrDynamic)
    (hdynstr : v.findSection (layoutOf is32Bit) (str ".dynstr") = .ok shdrDynStr)
    (hes : holdsEntries (layoutOf is32Bit) v.fileContents v.littleEndian
      (rdMember v.littleEndian shdrDynamic (layoutOf is32Bit).sh_offset) es) :
    countNeeded (layoutOf is32Bit) v.fileContents v.littleEndian (v.fileContents.length + 1)
        (rdMember v.littleEndian shdrDynamic (layoutOf is32Bit).sh_offset) 0
      = .ok (es.filter fun e => e.1 = DT_NEEDED).length
    ∧ v.dlneeds (layoutOf is32Bit)
      = fillNeeded (layoutOf is32Bit) v.fileContents v.littleEndian
          (rdMember v.littleEndian shdrDynStr (layoutOf is32Bit).sh_offset)
          (v.fileContents.length + 1)
          (rdMember v.littleEndian shdrDynamic (layoutOf is32Bit).sh_offset)
          (List.replicate ((es.filter fun e => e.1 = DT_NEEDED).length + 1) none) 0
    ∧ v.dlneeds (layoutOf is32Bit)
      = (neededStrings v.fileContents
          (rdMember v.littleEndian shdrDynStr (layoutOf is32Bit).sh_offset) es).map toArray
    ∧ ∀ result, v.dlneeds (layoutOf is32Bit) = .ok result →
        result.length = (es.filter fun e => e.1 = DT_NEEDED).length + 1
        ∧ (∀ i, i < (es.filter fun e => e.1 = DT_NEEDED).length →
            ∃ s, result[i]? = some (some s))
        ∧ result[(es.filter fun e => e.1 = DT_NEEDED).length]? = some none := by
  obtain ⟨h1, h2, h3⟩ := ElfFile.dlneeds_walk hdynamic hdynstr hes
  refine ⟨h1, h2, h3, ?_⟩
  intro result hr
  rw [h3] at hr
  cases hn : neededStrings v.fileContents
    (rdMember v.littleEndian shdrDynStr (layoutOf is32Bit).sh_offset) es with
  | error e => rw [hn] at hr; cases hr
  | ok names =>
    rw [hn] at hr
    have hres : result = toArray names := by
      simp only [Except.map, Except.ok.injEq] at hr
      exact hr.symm
    have hl := neededStrings_length hn
    subst hres
    refine ⟨by simp [toArray, hl], ?_, ?_⟩
    · intro i hi
      have hi2 : i < names.length := by omega
      refine ⟨names[i], ?_⟩
      simp [toArray, List.getElem?_append_left, hi2]
    · rw [← hl]
      simp [toArray]

set_option maxRecDepth 100000 in
theorem passes_agree_witness :
    holdsEntries (layoutOf false) (viewOf (layoutOf false) libcImage).fileContents
      (viewOf (layoutOf false) libcImage).littleEndian
      (rdMember (viewOf (layoutOf false) libcImage).littleEndian
        ((viewOf (layoutOf false) libcImage).shdrs.getD 1 []) (layoutOf false).sh_offset)
      [(DT_NEEDED, 0)]
    ∧ ∀ result, (viewOf (layoutOf false) libcImage).dlneeds (layoutOf false) = .ok result →
        result.length = ([(DT_NEEDED, 0)].filter fun e => e.1 = DT_NEEDED).length + 1
        ∧ (∀ i, i < ([(DT_NEEDED, 0)].filter fun e => e.1 = DT_NEEDED).length →
            ∃ s, result[i]? = some (some s))
        ∧ result[([(DT_NEEDED, 0)].filter fun e => e.1 = DT_NEEDED).length]? = some none :=
  ⟨by decide, (passes_agree false (viewOf (layoutOf false) libcImage)
    ((viewOf (layoutOf false) libcImage).shdrs.getD 1 [])
    ((viewOf (layoutOf false) libcImage).shdrs.getD 2 []) [(DT_NEEDED, 0)]
    (by decide) (by decide) (by decide)).2.2.2⟩

/-! ## The extent of the dynamic section and of the section names -/

set_option maxRecDepth 100000 in
theorem short_dynamic_counterexample :
    ElfFile.new elf64 shortDynamicImage = .ok (viewOf elf64 shortDynamicImage)
    ∧ (viewOf elf64 shortDynamicImage).findSection elf64 (str ".dynamic")
        = .ok ((viewOf elf64 shortDynamicImage).shdrs.getD 1 [])
    ∧ rdMember true ((viewOf elf64 shortDynamicImage).shdrs.getD 1 []) elf64.sh_offset = 348
    ∧ rdMember true ((viewOf elf64 shortDynamicImage).shdrs.getD 1 []) elf64.sh_size = 16
    ∧ rdField shortDynamicImage true 348 elf64.d_tag = .ok DT_NEEDED
    ∧ rdField shortDynamicImage true (348 + 16) elf64.d_tag = .ok DT_NEEDED
    ∧ rdField shortDynamicImage true (348 + 16) elf64.d_val = .ok 3
    ∧ (viewOf elf64 shortDynamicImage).dlneeds elf64
        = .ok [some (str "libc.so"), some (str "c.so"), none] := by
  decide

/-- C13, amended: the walk of `dlneeds` is bounded by the terminator tag, not
by the extent of `.dynamic`.  On a constructed view with `.dynamic` and
`.dynstr`, when the bytes from the offset of `.dynamic` on hold the entries
`es` and then a `DT_NULL` entry, however many of them lie at or beyond
`sh_offset + sh_size`, the first pass ends at that `DT_NULL` with the number of
`DT_NEEDED` entries of `es`, and when the strings of these entries can be read
`dlneeds` returns them, one for each. -/
theorem walk_ignores_extent (is32Bit : Bool) (fc : List Byte) (v : ElfFile)
    (shdrDynamic shdrDynStr : List Byte) (es : List (Nat × Nat))
    (h : ElfFile.new (layoutOf is32Bit) fc = .ok v)
    (hdynamic : v.findSection (layoutOf is32Bit) (str ".dynamic") = .ok shdrDynamic)
    (hdynstr : v.findSection (layoutOf is32Bit) (str ".dynstr") = .ok shdrDynStr)
    (hes : holdsEntries (layoutOf is32Bit) fc (declaredLE fc)
      (rdMember (declaredLE fc) shdrDynamic (layoutOf is32Bit).sh_offset) es) :
    countNeeded (layoutOf is32Bit) fc (declaredLE fc) (fc.length + 1)
        (rdMember (declaredLE fc) shdrDynamic (layoutOf is32Bit).sh_offset) 0
      = .ok (es.filter fun e => e.1 = DT_NEEDED).length
    ∧ ∀ names,
        neededStrings fc (rdMember (declaredLE fc) shdrDynStr (layoutOf is32Bit).sh_offset) es
          = .ok names →
        v.dlneeds (layoutOf is32Bit) = .ok (toArray names)
        ∧ libs (toArray names) = names
        ∧ names.length = (es.filter fun e => e.1 = DT_NEEDED).length := by
  obtain ⟨hfc, hle, -, -, -⟩ := ElfFile.new_sections h
  subst hfc
  rw [← hle] at hes ⊢
  obtain ⟨h1, -, h3⟩ := ElfFile.dlneeds_walk hdynamic hdynstr hes
  refine ⟨h1, ?_⟩
  intro names hn
  exact ⟨by rw [h3, hn]; rfl, libs_toArray names, neededStrings_length hn⟩

set_option maxRecDepth 100000 in
theorem walk_ignores_extent_witness :
    rdMember true ((viewOf (layoutOf false) shortDynamicImage).shdrs.getD 1 [])
        (layoutOf false).sh_size = 16
    ∧ holdsEntries (layoutOf false) shortDynamicImage (declaredLE shortDynamicImage)
        (rdMember (declaredLE shortDynamicImage)
          ((viewOf (layoutOf false) shortDynamicImage).shdrs.getD 1 [])
          (layoutOf false).sh_offset) [(DT_NEEDED, 0), (DT_NEEDED, 3)]
    ∧ countNeeded (layoutOf false) shortDynamicImage (declaredLE shortDynamicImage)
        (shortDynamicImage.length + 1)
        (rdMember (declaredLE shortDynamicImage)
          ((viewOf (layoutOf false) shortDynamicImage).shdrs.getD 1 [])
          (layoutOf false).sh_offset) 0
      = .ok ([(DT_NEEDED, 0), (DT_NEEDED, 3)].filter fun e => e.1 = DT_NEEDED).length :=
  ⟨by decide, by decide, (walk_ignores_extent false shortDynamicImage
    (viewOf (layoutOf false) shortDynamicImage)
    ((viewOf (layoutOf false) shortDynamicImage).shdrs.getD 1 [])
    ((viewOf (layoutOf false) shortDynamicImage).shdrs.getD 2 [])
    [(DT_NEEDED, 0), (DT_NEEDED, 3)]
    (by decide) (by decide) (by decide) (by decide)).1⟩

theorem cstr_eq_some : ∀ (l : List Byte) (s : CString), cstr l = some s →
    s = l.takeWhile (fun b => b ≠ 0) ∧ s.length < l.length := by
  intro l
  induction l with
  | nil => intro s h; simp [cstr] at h
  | cons b bs ih =>
    intro s h
    by_cases hb : b = 0
    · simp [cstr, hb] at h
      subst h
      simp [List.takeWhile, hb]
    · simp only [cstr, hb, if_false] at h
      cases hr : cstr bs with
      | none => simp [hr] at h
      | some r =>
        simp [hr] at h
        subst h
        obtain ⟨h1, h2⟩ := ih r hr
        have e : List.takeWhile (fun b => decide (b ≠ 0)) (b :: bs)
            = b :: List.takeWhile (fun b => decide (b ≠ 0)) bs := by
          rw [List.takeWhile_cons]; simp [hb]
        rw [e, ← h1]
        exact ⟨rfl, by simpa using h2⟩

theorem takeWhile_append_zero : ∀ (x y : List Byte), (0 : Byte) ∈ x →
    (x ++ y).takeWhile (fun b => b ≠ 0) = x.takeWhile (fun b => b ≠ 0)
    ∧ (x.takeWhile (fun b => b ≠ 0)).length < x.length := by
  intro x
  induction x with
  | nil => intro y h; simp at h
  | cons b bs ih =>
    intro y h
    by_cases hb : b = 0
    · simp [List.takeWhile, hb]
    · have hmem : (0 : Byte) ∈ bs := by
        rcases List.mem_cons.mp h with h1 | h1
        · exact absurd h1.symm hb
        · exact h1
      obtain ⟨h1, h2⟩ := ih y hmem
      have e : ∀ l : List Byte, List.takeWhile (fun b => decide (b ≠ 0)) (b :: l)
          = b :: List.takeWhile (fun b => decide (b ≠ 0)) l := by
        intro l
        rw [List.takeWhile_cons]; simp [hb]
      rw [List.cons_append, e, e, h1]
      exact ⟨rfl, by simpa using h2⟩

/-- The section name table of a constructed view ends in a zero byte. -/
theorem ElfFile.new_names_last {is32Bit : Bool} {fc : List Byte} {v : ElfFile}
    (h : ElfFile.new (layoutOf is32Bit) fc = .ok v) :
    0 < v.sectionNames.length ∧ v.sectionNames[v.sectionNames.length - 1]? = some 0 := by
  obtain ⟨-, -, -, -, -, -, -, hload⟩ := ElfFile.new_ok h
  obtain ⟨idx, sh, raw, -, -, -, -, -, h5, h6, h7, h8, -⟩ := ElfFile.load_ok hload
  have hl : v.sectionNames.length = toUInt (rdMember (declaredLE fc) sh
      (layoutOf is32Bit).sh_size) := by
    rw [h8]; simp; omega
  refine ⟨by omega, ?_⟩
  rw [hl, h8, List.getElem?_take_of_lt (by omega), List.getElem?_drop]
  exact h7


theorem cstr_of_mem : ∀ (l : List Byte), (0 : Byte) ∈ l →
    cstr l = some (l.takeWhile fun b => b ≠ 0) := by
  intro l
  induction l with
  | nil => intro h; simp at h
  | cons b bs ih =>
    intro h
    by_cases hb : b = 0
    · simp [cstr, hb, List.takeWhile]
    · have hmem : (0 : Byte) ∈ bs := by
        rcases List.mem_cons.mp h with h1 | h1
        · exact absurd h1.symm hb
        · exact h1
      have e : List.takeWhile (fun b => decide (b ≠ 0)) (b :: bs)
          = b :: List.takeWhile (fun b => decide (b ≠ 0)) bs := by
        rw [List.takeWhile_cons]; simp [hb]
      rw [e]
      simp only [cstr, hb, if_false, ih hmem, Option.map_some']

/-- The name read at an offset inside a table that ends in a zero byte, and at
the end of the table. -/
theorem sectionNameAt_inside (lay : Layout) (le : Bool) (names : CString) (shdr : List Byte)
    (hlast : names[names.length - 1]? = some 0) :
    (rdMember le shdr lay.sh_name < names.length →
      sectionNameAt lay le names shdr
        = .ok ((names.drop (rdMember le shdr lay.sh_name)).takeWhile fun b => b ≠ 0)
      ∧ rdMember le shdr lay.sh_name
          + ((names.drop (rdMember le shdr lay.sh_name)).takeWhile fun b => b ≠ 0).length
        < names.length)
    ∧ (rdMember le shdr lay.sh_name = names.length →
      sectionNameAt lay le names shdr = .ok []) := by
  unfold sectionNameAt
  generalize rdMember le shdr lay.sh_name = n
  constructor
  · intro hlt
    have hdrop : (names ++ [0]).drop n = names.drop n ++ [0] :=
      List.drop_append_of_le_length (Nat.le_of_lt hlt)
    have hmem : (0 : Byte) ∈ names.drop n := by
      have : (names.drop n)[names.length - 1 - n]? = some 0 := by
        rw [List.getElem?_drop, ← hlast]
        congr 1
        omega
      exact List.getElem?_mem this
    obtain ⟨e1, e2⟩ := takeWhile_append_zero (names.drop n) [0] hmem
    have hc := cstr_of_mem (names.drop n ++ [0]) (List.mem_append_left _ hmem)
    rw [e1] at hc
    refine ⟨by simp only [cstrAt, hdrop, hc], ?_⟩
    simp only [List.length_drop] at e2
    omega
  · intro heq
    subst heq
    simp [cstrAt, cstr]

set_option maxRecDepth 100000 in
theorem name_at_end_counterexample :
    ElfFile.new elf64 nameAtEndImage = .ok (viewOf elf64 nameAtEndImage)
    ∧ (viewOf elf64 nameAtEndImage).sectionNames.length = 28
    ∧ rdMember true ((viewOf elf64 nameAtEndImage).shdrs.getD 1 []) elf64.sh_name = 28
    ∧ (viewOf elf64 nameAtEndImage).getSectionName elf64
        ((viewOf elf64 nameAtEndImage).shdrs.getD 1 []) = .ok []
    ∧ (viewOf elf64 nameAtEndImage).sectionsByOldIndex
        = [str "", str "", str ".dynstr", str ".shstrtab"] := by
  decide

/-- C16, amended: `getSectionName` does not compare `sh_name` with the length
of the section name table.  With a table that ends in a zero byte, as the
constructor asserts before it reads a name, a section header whose `sh_name` is
less than the length of the table gets as its name the bytes of the table from
`sh_name` up to the first zero byte, and the name ends inside the table; a
section header whose `sh_name` equals the length gets the empty name; and the
names the constructor stores for the sections from index 1 on are these. -/
theorem section_name_read (is32Bit : Bool) (v : ElfFile) (shdr : List Byte)
    (hlast : v.sectionNames[v.sectionNames.length - 1]? = some 0) :
    (rdMember v.littleEndian shdr (layoutOf is32Bit).sh_name < v.sectionNames.length →
      v.getSectionName (layoutOf is32Bit) shdr
        = .ok ((v.sectionNames.drop
            (rdMember v.littleEndian shdr (layoutOf is32Bit).sh_name)).takeWhile
              fun b => b ≠ 0)
      ∧ rdMember v.littleEndian shdr (layoutOf is32Bit).sh_name
          + ((v.sectionNames.drop
              (rdMember v.littleEndian shdr (layoutOf is32Bit).sh_name)).takeWhile
                fun b => b ≠ 0).length < v.sectionNames.length)
    ∧ (rdMember v.littleEndian shdr (layoutOf is32Bit).sh_name = v.sectionNames.length →
      v.getSectionName (layoutOf is32Bit) shdr = .ok [])
    ∧ ∀ fc, ElfFile.new (layoutOf is32Bit) fc = .ok v →
        ∀ i, 1 ≤ i → i < hdrValue fc (layoutOf is32Bit).e_shnum →
          ∃ sh, v.shdrs[i]? = some sh
            ∧ (rdMember v.littleEndian sh (layoutOf is32Bit).sh_name < v.sectionNames.length →
              v.sectionsByOldIndex[i]?
                = some ((v.sectionNames.drop
                    (rdMember v.littleEndian sh (layoutOf is32Bit).sh_name)).takeWhile
                      fun b => b ≠ 0))
            ∧ (rdMember v.littleEndian sh (layoutOf is32Bit).sh_name = v.sectionNames.length →
              v.sectionsByOldIndex[i]? = some []) := by
  obtain ⟨hA, hB⟩ := sectionNameAt_inside (layoutOf is32Bit) v.littleEndian v.sectionNames shdr
    hlast
  refine ⟨hA, hB, ?_⟩
  intro fc h i h1 h2
  obtain ⟨-, -, -, -, hnum, -, -, hload⟩ := ElfFile.new_ok h
  obtain ⟨idx, sh0, raw, -, -, -, -, -, -, -, -, -, -, hnames, -, hle⟩ := ElfFile.load_ok hload
  obtain ⟨-, -, -, -, h5⟩ := nameSections_ok _ _ _ _ hnames
  obtain ⟨sh, nm, hs, hn, hstored⟩ := h5 i h1 (by omega)
  rw [← hle] at hn
  obtain ⟨hA2, hB2⟩ := sectionNameAt_inside (layoutOf is32Bit) v.littleEndian v.sectionNames sh
    hlast
  refine ⟨sh, hs, ?_, ?_⟩
  · intro hlt
    rw [(hA2 hlt).1] at hn
    cases hn
    exact hstored
  · intro heq
    rw [hB2 heq] at hn
    cases hn
    exact hstored

set_option maxRecDepth 100000 in
theorem section_name_read_witness :
    ElfFile.new (layoutOf false) libcImage = .ok (viewOf (layoutOf false) libcImage)
    ∧ (viewOf (layoutOf false) libcImage).sectionNames.length = 28
    ∧ rdMember (viewOf (layoutOf false) libcImage).littleEndian
        ((viewOf (layoutOf false) libcImage).shdrs.getD 2 []) (layoutOf false).sh_name = 10
    ∧ (viewOf (layoutOf false) libcImage).getSectionName (layoutOf false)
        ((viewOf (layoutOf false) libcImage).shdrs.getD 2 [])
        = .ok (((viewOf (layoutOf false) libcImage).sectionNames.drop
            (rdMember (viewOf (layoutOf false) libcImage).littleEndian
              ((viewOf (layoutOf false) libcImage).shdrs.getD 2 [])
              (layoutOf false).sh_name)).takeWhile fun b => b ≠ 0) :=
  ⟨by decide, by decide, by decide,
    ((section_name_read false (viewOf (layoutOf false) libcImage)
      ((viewOf (layoutOf false) libcImage).shdrs.getD 2 []) (by decide)).1 (by decide)).1⟩

/-! ## Inputs on which the constructor leaves the image or keeps less than announced -/

set_option maxRecDepth 100000 in
/-- C11: on `shentsizeImage` the section header range check passes, since
`e_shoff + e_shnum * e_shentsize = 64 + 1 * 0`, and the copy loop then reads
the 64 bytes of a section header from offset 64 of a 64-byte image: the
constructor does not throw, it leaves the image. -/
theorem shentsize_unchecked :
    shentsizeImage.length = 64
    ∧ hdrValue shentsizeImage elf64.e_shoff = 64
    ∧ hdrValue shentsizeImage elf64.e_shnum = 1
    ∧ hdrValue shentsizeImage elf64.e_shentsize = 0
    ∧ shEnd elf64 shentsizeImage ≤ shentsizeImage.length
    ∧ ¬ (hdrValue shentsizeImage elf64.e_shoff + (0 + 1) * elf64.shdrSize
          ≤ shentsizeImage.length)
    ∧ copyHeaders shentsizeImage (hdrValue shentsizeImage elf64.e_shoff) elf64.shdrSize
        (hdrValue shentsizeImage elf64.e_shnum) 0 = .error .outOfBounds
    ∧ ElfFile.new elf64 shentsizeImage = .error .outOfBounds
    ∧ android_dlneeds shentsizeImage = .error .outOfBounds := by
  decide

set_option maxRecDepth 100000 in
/-- C12: on `phoffImage` the sum `e_phoff + e_phnum * e_phentsize` is
`0xFFFFFFFF + 32`, which the constructor computes modulo `2 ^ 32` as 31; both
program header checks pass although the table lies far outside the 92 bytes,
and the copy loop leaves the image. -/
theorem phoff_wraps :
    phoffImage.length = 92
    ∧ hdrValue phoffImage elf32.e_phoff = 0xFFFFFFFF
    ∧ hdrValue phoffImage elf32.e_phnum = 1
    ∧ hdrValue phoffImage elf32.e_phentsize = elf32.phdrSize
    ∧ phEnd elf32 phoffImage = 31
    ∧ ¬ (hdrValue phoffImage elf32.e_phoff
          + hdrValue phoffImage elf32.e_phnum * hdrValue phoffImage elf32.e_phentsize
          ≤ phoffImage.length)
    ∧ shEnd elf32 phoffImage ≤ phoffImage.length
    ∧ copyHeaders phoffImage (hdrValue phoffImage elf32.e_phoff) elf32.phdrSize
        (hdrValue phoffImage elf32.e_phnum) 0 = .error .outOfBounds
    ∧ ElfFile.new elf32 phoffImage = .error .outOfBounds
    ∧ ElfFile.new elf32 phoffImage ≠ error (str "program header table out of bounds") := by
  decide

set_option maxRecDepth 100000 in
/-- C14: on `hugeStrtabImage` the section at index `e_shstrndx = 3` has
`sh_size = 2 ^ 32 + 28`; the constructor keeps the size in an `unsigned int`,
28, accepts the image although the range of `sh_size` bytes does not fit into
its 372 bytes, and takes the 28 bytes at `sh_offset` for the section name
table. -/
theorem shstrtab_size_truncated :
    hugeStrtabImage.length = 372
    ∧ hdrValue hugeStrtabImage elf64.e_shstrndx = 3
    ∧ rdMember true ((viewOf elf64 hugeStrtabImage).shdrs.getD 3 []) elf64.sh_offset = 320
    ∧ rdMember true ((viewOf elf64 hugeStrtabImage).shdrs.getD 3 []) elf64.sh_size
        = 2 ^ 32 + 28
    ∧ ¬ (320 + (2 ^ 32 + 28) ≤ hugeStrtabImage.length)
    ∧ ElfFile.new elf64 hugeStrtabImage = .ok (viewOf elf64 hugeStrtabImage)
    ∧ (viewOf elf64 hugeStrtabImage).sectionNames.length = 28
    ∧ (viewOf elf64 hugeStrtabImage).sectionNames = shstrtabBytes := by
  decide

set_option maxRecDepth 100000 in
/-- C15: on the big-endian image `libcImageBE` the section count is 4, and the
constructor sizes `sectionsByOldIndex` with the bytes `00 04` read in host
order: 1024 slots.  With the bytes `01 00`, 256 sections, the mapping gets one
slot and the first write, at index 1, is outside it. -/
theorem names_resized_raw :
    declaredLE libcImageBE = false
    ∧ hdrValue libcImageBE elf64.e_shnum = 4
    ∧ rdField libcImageBE hostLittleEndian 0 elf64.e_shnum = .ok 1024
    ∧ ElfFile.new elf64 libcImageBE = .ok (viewOf elf64 libcImageBE)
    ∧ (viewOf elf64 libcImageBE).sectionsByOldIndex.length = 1024
    ∧ rdi false [1, 0] = 256 ∧ rdi hostLittleEndian [1, 0] = 1
    ∧ ∀ (lay : Layout) (le : Bool) (names : CString) (shdrs : List (List Byte)) (count : Nat),
        nameSections lay le names shdrs (count + 1) 1 (List.replicate 1 [])
          = .error .outOfBounds := by
  refine ⟨by decide, by decide, by decide, by decide, by decide, by decide, by decide, ?_⟩
  intro lay le names shdrs count
  simp only [nameSections, bind, Except.bind]
  cases hsh : index shdrs 1 with
  | error e => rw [index_error hsh]
  | ok sh =>
    simp only []
    cases hnm : sectionNameAt lay le names sh with
    | error e => rw [cstrAt_error hnm]
    | ok nm => simp

end PatchElf
